import Mathlib

/-! Write-ahead log and shard datastore.

A shallow embedding of `wal/log.go` and `datastore/leveldb_shard_datastore.go`.

* Machine integers are natural numbers, with `uint32` conversions made explicit.
* Go `error` values are `Option Error`, `nil` being `none`.
* Files, the shard registry, the heap of store handles and the file system are
  explicit state.  The outcome of every call into the operating system or into
  LevelDB is an argument of the operation that makes the call.
* Goroutines and channels are sequentialised: the entries sent on `log.entries`
  are a list processed in order, the items sent on a replay channel are a list.
-/

set_option autoImplicit false

namespace wal

/-! ## Bytes, integers, errors -/

/-- Go `error` values; the `nil` error is `none : Option Error`. -/
abbrev Error := String

/-- The error `io.EOF`. -/
def EOF : Error := "EOF"

/-- The error `io.ErrUnexpectedEOF`. -/
def ErrUnexpectedEOF : Error := "unexpected EOF"

/-- The error `io.ErrShortWrite`. -/
def ErrShortWrite : Error := "short write"

/-- Conversion of an integer to `uint32`. -/
def uint32 (n : Nat) : Nat := n % 4294967296

/-- Big-endian bytes of a 32-bit value (`binary.BigEndian.PutUint32`). -/
def putUint32 (n : Nat) : List Nat :=
  [n / 16777216 % 256, n / 65536 % 256, n / 256 % 256, n % 256]

/-- Value of four big-endian bytes (`binary.BigEndian.Uint32`). -/
def getUint32 (bs : List Nat) : Nat :=
  bs.getD 0 0 * 16777216 + bs.getD 1 0 * 65536 + bs.getD 2 0 * 256 + bs.getD 3 0

/-- The bytes `[off, off + n)` of a file content. -/
def slice (data : List Nat) (off n : Nat) : List Nat := (data.drop off).take n

/-! ## Files -/

/-- An `*os.File`: the content of the file, the offset of the handle, and
whether the handle was opened with `O_APPEND`.  `newLog` receives the handle
already opened, so the flag and the offset are inputs. -/
structure File where
  data : List Nat
  pos : Nat
  appendMode : Bool
deriving DecidableEq, Repr

/-- What the operating system did with one write: how many bytes reached the
file and the error it reported. -/
structure WriteOutcome where
  written : Nat
  err : Option Error
deriving DecidableEq, Repr

/-- Content after writing `bs` at offset `off`: bytes before `off` are kept
(a gap past the end is zero filled), `bs` replaces what was at `off`, and
bytes after `off + bs.length` are kept. -/
def writeAt (data : List Nat) (off : Nat) (bs : List Nat) : List Nat :=
  data.take off ++ List.replicate (off - data.length) 0 ++ bs ++ data.drop (off + bs.length)

/-- Offset at which the next write through the handle lands: the end of the
file for an `O_APPEND` handle, the handle offset otherwise. -/
def File.writeOffset (f : File) : Nat :=
  if f.appendMode then f.data.length else f.pos

/-- `(*os.File).Write`: the first `o.written` bytes of `bs` reach the file at
the write offset and the handle offset moves past them.  Returns the file, the
number of bytes written and the error. -/
def File.Write (f : File) (bs : List Nat) (o : WriteOutcome) : File × Nat × Option Error :=
  let done := bs.take o.written
  ({ f with data := writeAt f.data f.writeOffset done, pos := f.writeOffset + done.length },
    done.length, o.err)

/-- `(*os.File).Read` of a buffer of `n` bytes at offset `off`: an empty buffer
reads nothing, at the end of the file the result is `io.EOF`, otherwise the
bytes available, at most `n`, are returned. -/
def fileRead (data : List Nat) (off n : Nat) : List Nat × Option Error :=
  if n = 0 then ([], none)
  else if data.length ≤ off then ([], some EOF)
  else (slice data off n, none)

/-! ## Entry headers -/

/-- The header that precedes every request in the log. -/
structure entryHeader where
  shardId : Nat
  requestNumber : Nat
  length : Nat
deriving DecidableEq, Repr

/-- Modelled from the spec: the byte layout of `entryHeader`, which the source
files at hand do not contain.  The record format is `shard_id : u32 BE`,
`request_number : u32 BE`, `length : u32 BE`, twelve bytes in all. -/
def entryHeader.bytes (h : entryHeader) : List Nat :=
  putUint32 h.shardId ++ putUint32 h.requestNumber ++ putUint32 h.length

/-- Modelled from the spec: inverse of `entryHeader.bytes` on twelve bytes. -/
def entryHeader.parse (bs : List Nat) : entryHeader :=
  { shardId := getUint32 (slice bs 0 4)
    requestNumber := getUint32 (slice bs 4 4)
    length := getUint32 (slice bs 8 4) }

/-- Modelled from the spec: `entryHeader.Write`, missing from the source files
at hand.  It writes the twelve header bytes to the file and reports an error
when the write reported one or was short. -/
def entryHeader.Write (h : entryHeader) (f : File) (o : WriteOutcome) : File × Option Error :=
  let r := f.Write h.bytes o
  match r.2.2 with
  | some e => (r.1, some e)
  | none => if r.2.1 < h.bytes.length then (r.1, some ErrShortWrite) else (r.1, none)

/-- Result of reading one header. -/
inductive HeaderRead where
  | hdr (h : entryHeader)
  | eof
  | failed (e : Error) (consumed : Nat)
deriving DecidableEq, Repr

/-- Modelled from the spec: `entryHeader.Read`, missing from the source files
at hand.  At the end of the file it returns `io.EOF`; when fewer than twelve
bytes remain the record is cut short and it returns an error; otherwise it
decodes the twelve bytes at the offset. -/
def entryHeader.Read (data : List Nat) (off : Nat) : HeaderRead :=
  if data.length ≤ off then HeaderRead.eof
  else if data.length < off + 12 then HeaderRead.failed ErrUnexpectedEOF (data.length - off)
  else HeaderRead.hdr (entryHeader.parse (slice data off 12))

/-! ## The request codec -/

/-- The operations of `protocol.Request` that the log uses.  The payload format
belongs to the caller; the log only calls `Encode` and `Decode`. -/
structure Protocol (Req : Type) where
  Encode : Req → Except Error (List Nat)
  Decode : List Nat → Except Error Req

/-! ## Log state -/

/-- Modelled from the spec: the in-memory `state` of the log, whose declaration
is missing from the source files at hand.  It holds the request number handed
out last; `&state{}` starts it at zero, the value reserved as unassigned. -/
structure state where
  CurrentRequestNumber : Nat
deriving DecidableEq, Repr

/-- Modelled from the spec: `state.getNextRequestNumber`, missing from the
source files at hand.  It advances the 32-bit counter and returns the new
value, so a fresh log hands out 1, 2, 3, ... -/
def state.getNextRequestNumber (s : state) : Nat × state :=
  (uint32 (s.CurrentRequestNumber + 1), { CurrentRequestNumber := uint32 (s.CurrentRequestNumber + 1) })

/-- The `log` struct.  The `entries` channel is the list of entries handed to
`processEntries`. -/
structure log where
  state : state
  file : File
  serverId : Nat
deriving DecidableEq, Repr

/-- The `confirmation` sent back for an entry. -/
structure confirmation where
  requestNumber : Nat
  err : Option Error
deriving DecidableEq, Repr

/-- An `entry` taken from the `entries` channel, together with what the
operating system does with the two writes made for it. -/
structure entry (Req : Type) where
  request : Req
  shardId : Nat
  hdrWrite : WriteOutcome
  payloadWrite : WriteOutcome

/-- `log.recover`: the body is `return nil`. -/
def recover (l : log) : log × Option Error := (l, none)

/-- `newLog`: a log over the given file with a zero `state`, after `recover`. -/
def newLog (file : File) : log :=
  (recover { state := { CurrentRequestNumber := 0 }, file := file, serverId := 0 }).1

/-- One iteration of the loop of `processEntries`: the entry `x` is encoded,
numbered, written as header and payload, and confirmed. -/
def processEntry {Req : Type} (P : Protocol Req) (l : log) (x : entry Req) : log × confirmation :=
  match P.Encode x.request with
  | .error err => (l, ⟨0, some err⟩)
  | .ok bytes =>
    let next := l.state.getNextRequestNumber
    let requestNumber := next.1
    let hdr : entryHeader :=
      { shardId := x.shardId, requestNumber := requestNumber, length := uint32 bytes.length }
    let w1 := hdr.Write l.file x.hdrWrite
    match w1.2 with
    | some err => ({ l with state := next.2, file := w1.1 }, ⟨0, some err⟩)
    | none =>
      let w2 := w1.1.Write bytes x.payloadWrite
      let l2 : log := { l with state := next.2, file := w2.1 }
      match w2.2.2 with
      | some err => (l2, ⟨0, some err⟩)
      | none =>
        if w2.2.1 < bytes.length then (l2, ⟨0, some "Couldn't write entire request"⟩)
        else (l2, ⟨requestNumber, none⟩)

/-- `processEntries` over the entries received so far: the log afterwards and
the confirmations sent, in order. -/
def processEntries {Req : Type} (P : Protocol Req) (l : log) :
    List (entry Req) → log × List confirmation
  | [] => (l, [])
  | x :: xs =>
    let r := processEntry P l x
    let rest := processEntries P r.1 xs
    (rest.1, r.2 :: rest.2)

/-- `appendRequest`: the entry is sent on `log.entries`, `processEntries`
handles it, and the caller receives the confirmation's number and error. -/
def appendRequest {Req : Type} (P : Protocol Req) (l : log) (request : Req) (shardId : Nat)
    (hdrWrite payloadWrite : WriteOutcome) : log × Nat × Option Error :=
  let r := processEntry P l ⟨request, shardId, hdrWrite, payloadWrite⟩
  (r.1, r.2.requestNumber, r.2.err)

/-! ## Replay -/

/-- The two handles on the log file that a replay uses: `file`, made from the
descriptor returned by `syscall.Dup`, and the log's own `log.file`. -/
inductive Handle where
  | dup
  | own
deriving DecidableEq, Repr

/-- Offsets of the two handles during a replay. -/
structure Cursors where
  dupPos : Nat
  ownPos : Nat
deriving DecidableEq, Repr

/-- Offsets after `n` bytes were read through handle `h`.  With
`sharedOffset` the two descriptors refer to one open file description and move
together (the behaviour of `dup` on POSIX systems); without it each handle has
an offset of its own (the behaviour the specification describes). -/
def Cursors.advance (sharedOffset : Bool) (h : Handle) (c : Cursors) (n : Nat) : Cursors :=
  match h with
  | Handle.dup =>
    { dupPos := c.dupPos + n, ownPos := if sharedOffset then c.dupPos + n else c.ownPos }
  | Handle.own =>
    { dupPos := if sharedOffset then c.ownPos + n else c.dupPos, ownPos := c.ownPos + n }

/-- A `replayRequest` sent on the replay channel. -/
structure replayRequest (Req : Type) where
  request : Option Req
  shardId : Nat
  err : Option Error
deriving DecidableEq, Repr

/-- What a replay goroutine did by the time it returned: the items it sent on
`replayChan` in order, whether it closed the channel, the offsets of the two
handles, and every read it made as (handle, bytes asked for). -/
structure Replay (Req : Type) where
  items : List (replayRequest Req)
  closed : Bool
  cursors : Cursors
  reads : List (Handle × Nat)
deriving DecidableEq, Repr

/-- The `for` loop of the goroutine started by `replayFromRequestNumber`.
`fuel` bounds the number of iterations; `none` means the bound was reached. -/
def replayLoop {Req : Type} (P : Protocol Req) (sharedOffset : Bool) (data : List Nat)
    (shardIds : List Nat) (requestNumber : Nat) :
    Nat → Cursors → List (replayRequest Req) → List (Handle × Nat) → Option (Replay Req)
  | 0, _, _, _ => none
  | fuel + 1, c, items, reads =>
    let reads1 := reads ++ [(Handle.dup, 12)]
    match entryHeader.Read data c.dupPos with
    | HeaderRead.eof =>
      some { items := items, closed := true, cursors := c, reads := reads1 }
    | HeaderRead.failed err consumed =>
      some { items := items ++ [⟨none, 0, some err⟩], closed := false,
             cursors := c.advance sharedOffset Handle.dup consumed, reads := reads1 }
    | HeaderRead.hdr hdr =>
      let c1 := c.advance sharedOffset Handle.dup 12
      if hdr.shardId ∉ shardIds then
        replayLoop P sharedOffset data shardIds requestNumber fuel c1 items reads1
      else if hdr.requestNumber < requestNumber then
        replayLoop P sharedOffset data shardIds requestNumber fuel c1 items reads1
      else
        let r := fileRead data c1.ownPos hdr.length
        let bytes := r.1
        let read := bytes.length
        let c2 := c1.advance sharedOffset Handle.own read
        let reads2 := reads1 ++ [(Handle.own, hdr.length)]
        match r.2 with
        | some err =>
          some { items := items ++ [⟨none, 0, some err⟩], closed := false,
                 cursors := c2, reads := reads2 }
        | none =>
          if uint32 read ≠ hdr.length then
            some { items := items ++ [⟨none, 0, r.2⟩], closed := false,
                   cursors := c2, reads := reads2 }
          else
            match P.Decode bytes with
            | .error err =>
              some { items := items ++ [⟨none, 0, some err⟩], closed := false,
                     cursors := c2, reads := reads2 }
            | .ok req =>
              replayLoop P sharedOffset data shardIds requestNumber fuel c2
                (items ++ [⟨some req, hdr.shardId, none⟩]) reads2

/-- The goroutine started by `replayFromRequestNumber`, run to its return.
`dupErr` is the error of `syscall.Dup`.  Both handles start at the offset of
`log.file`.  Every iteration reads at least the twelve header bytes, so the
length of the file plus one bounds the number of iterations. -/
def replayFromRequestNumber {Req : Type} (P : Protocol Req) (sharedOffset : Bool)
    (dupErr : Option Error) (l : log) (shardIds : List Nat) (requestNumber : Nat) :
    Option (Replay Req) :=
  match dupErr with
  | some err =>
    some { items := [⟨none, 0, some err⟩], closed := false,
           cursors := ⟨l.file.pos, l.file.pos⟩, reads := [] }
  | none =>
    replayLoop P sharedOffset l.file.data shardIds requestNumber (l.file.data.length + 1)
      ⟨l.file.pos, l.file.pos⟩ [] []

/-! ## Sample inputs -/

/-- A codec whose requests are their own bytes. -/
def rawProtocol : Protocol (List Nat) :=
  { Encode := fun r => .ok r, Decode := fun bs => .ok bs }

/-- The five entries of the replay scenario: shards 1, 2, 1, 2, 3, each with a
one-byte request, every write complete. -/
def scenarioEntries : List (entry (List Nat)) :=
  [ ⟨[101], 1, ⟨12, none⟩, ⟨1, none⟩⟩,
    ⟨[102], 2, ⟨12, none⟩, ⟨1, none⟩⟩,
    ⟨[103], 1, ⟨12, none⟩, ⟨1, none⟩⟩,
    ⟨[104], 2, ⟨12, none⟩, ⟨1, none⟩⟩,
    ⟨[105], 3, ⟨12, none⟩, ⟨1, none⟩⟩ ]

/-- The log file of the replay scenario, as the appends leave it. -/
def scenarioData : List Nat :=
  (processEntries rawProtocol (newLog ⟨[], 0, true⟩) scenarioEntries).1.file.data

/-- The log of the replay scenario reopened after a crash: the handle is at
the start of the file. -/
def scenarioLog : log := newLog ⟨scenarioData, 0, true⟩

/-- A log file whose only record announces twenty payload bytes and holds
three. -/
def cutShortData : List Nat := (entryHeader.mk 1 1 20).bytes ++ [1, 2, 3]

/-- The log over `cutShortData`, the handle at the start of the file. -/
def cutShortLog : log := newLog ⟨cutShortData, 0, true⟩

/-- A log file with one complete record: shard 1, request number 1, the
one-byte payload 101. -/
def oneRecordData : List Nat := (entryHeader.mk 1 1 1).bytes ++ [101]

/-- The log over `oneRecordData`, the handle at the start of the file. -/
def oneRecordLog : log := newLog ⟨oneRecordData, 0, true⟩

/-- An entry with an empty request for shard 1 whose writes are complete. -/
def emptyEntry : entry (List Nat) := ⟨[], 1, ⟨12, none⟩, ⟨0, none⟩⟩

/-- The file `g` continues the file `f`: the write offset and the length have
not gone back, and every byte range that lay before the write offset of `f`
and inside `f` reads the same in `g`. -/
def File.Extends (f g : File) : Prop :=
  f.writeOffset ≤ g.writeOffset ∧ f.data.length ≤ g.data.length ∧
  ∀ o n, o + n ≤ f.writeOffset → o + n ≤ f.data.length → slice g.data o n = slice f.data o n

/-- The handle writes at or past the end of the file: it was opened with
`O_APPEND`, or its offset is at or past the end. -/
def File.AtEnd (f : File) : Prop := f.data.length ≤ f.writeOffset

instance File.decidableAtEnd (f : File) : Decidable f.AtEnd :=
  inferInstanceAs (Decidable (f.data.length ≤ f.writeOffset))

/-- A codec whose `Encode` fails. -/
def failingProtocol : Protocol (List Nat) :=
  { Encode := fun _ => .error "cannot encode", Decode := fun _ => .error "cannot decode" }

/-- One iteration of the loop of `processEntries` by what it sends: the log
afterwards and the confirmations sent on the confirmation channel of the entry,
in the order of the sends. -/
def processEntrySends {Req : Type} (P : Protocol Req) (l : log) (x : entry Req) :
    log × List confirmation :=
  match P.Encode x.request with
  | .error err => (l, [⟨0, some err⟩])
  | .ok bytes =>
    let next := l.state.getNextRequestNumber
    let requestNumber := next.1
    let hdr : entryHeader :=
      { shardId := x.shardId, requestNumber := requestNumber, length := uint32 bytes.length }
    let w1 := hdr.Write l.file x.hdrWrite
    match w1.2 with
    | some err => ({ l with state := next.2, file := w1.1 }, [⟨0, some err⟩])
    | none =>
      let w2 := w1.1.Write bytes x.payloadWrite
      let l2 : log := { l with state := next.2, file := w2.1 }
      match w2.2.2 with
      | some err => (l2, [⟨0, some err⟩])
      | none =>
        if w2.2.1 < bytes.length then (l2, [⟨0, some "Couldn't write entire request"⟩])
        else (l2, [⟨requestNumber, none⟩])

/-- The content is a concatenation of complete records: each record is a
header of twelve bytes followed by as many payload bytes as the length field of
the header says. -/
def CompleteRecords (data : List Nat) : Prop :=
  ∃ recs : List (List Nat × List Nat),
    (∀ r ∈ recs, r.1.length = 12 ∧ (entryHeader.parse r.1).length = r.2.length) ∧
    data = (recs.map fun r => r.1 ++ r.2).flatten

/-- A codec that refuses the empty request and takes every other request as
its own bytes. -/
def pickyProtocol : Protocol (List Nat) :=
  { Encode := fun r => if r = [] then .error "empty request" else .ok r
    Decode := fun bs => .ok bs }

end wal

namespace datastore

/-- Go `error` values; the `nil` error is `none : Option Error`. -/
abbrev Error := String

/-! ## Paths -/

/-- The constant `SHARD_DATABASE_DIR`. -/
def SHARD_DATABASE_DIR : String := "shard_db"

/-- The elements of a path between its separators (`strings.Split(path, "/")`). -/
def splitPath : List Char → List (List Char)
  | [] => [[]]
  | c :: cs =>
    if c = '/' then [] :: splitPath cs
    else
      match splitPath cs with
      | [] => [[c]]
      | x :: xs => (c :: x) :: xs

/-- One element of a path handled by `filepath.Clean`: empty elements and `.`
are dropped, `..` removes the element before it, is kept at the start of a
relative path and is dropped at the root, any other element is kept. -/
def cleanStep (rooted : Bool) (out : List (List Char)) (elem : List Char) : List (List Char) :=
  if elem = [] ∨ elem = ['.'] then out
  else if elem = ['.', '.'] then
    match out.getLast? with
    | none => if rooted then out else out ++ [elem]
    | some top => if top = ['.', '.'] then out ++ [elem] else out.dropLast
  else out ++ [elem]

/-- `filepath.Clean` on a slash separated path. -/
def filepathClean (path : List Char) : List Char :=
  if path = [] then ['.']
  else
    let rooted : Bool := path.head? = some '/'
    let out := (splitPath path).foldl (cleanStep rooted) []
    if rooted then '/' :: List.intercalate ['/'] out
    else if out = [] then ['.']
    else List.intercalate ['/'] out

/-- `filepath.Join`: leading empty elements are ignored, the rest is joined
with the separator and cleaned; with no non-empty element the result is empty. -/
def filepathJoin : List String → String
  | [] => ""
  | e :: es =>
    if e = "" then filepathJoin es
    else String.mk (filepathClean (List.intercalate ['/'] ((e :: es).map String.data)))

/-- `fmt.Sprintf("%.5d", id)`: the decimal digits of `id`, zero padded on the
left to at least five digits. -/
def sprintf5d (id : Nat) : String :=
  let digits := Nat.toDigits 10 id
  String.mk (List.replicate (5 - digits.length) '0' ++ digits)

/-- Whether `p` is the directory `dir` or lies below it. -/
def under (dir p : String) : Bool :=
  p = dir || (dir.data ++ ['/']).isPrefixOf p.data

/-! ## Store handles and the world outside the datastore -/

/-- Modelled from the spec: a `*LevelDbShard`, whose declaration is missing
from the source files at hand.  A shard wraps the store handle that
`levigo.Open` returned; `db` identifies that handle, and with it the shard. -/
structure LevelDbShard where
  db : Nat
deriving DecidableEq, Repr

/-- Calls that leave the datastore, in the order they are made. -/
inductive Event where
  | levigoOpen (dir : String) (err : Option Error)
  | newLevelDbShard (db : Nat) (err : Option Error)
  | shardClose (db : Nat)
  | removeAll (dir : String) (err : Option Error)
deriving DecidableEq, Repr

/-- The world the datastore acts on: the supply of fresh store handles, the
store handles that are open, the shards on which `close` was called, the paths
that exist on disk, and the calls made so far. -/
structure World where
  nextDb : Nat
  openDbs : List Nat
  closed : List Nat
  paths : List String
  events : List Event
deriving DecidableEq, Repr

/-- The states of a shard handle named by the design. -/
inductive ShardState where
  | Open
  | Closed
deriving DecidableEq, Repr

/-- State of a shard handle: `Closed` once `close` was called on it. -/
def World.shardState (w : World) (s : LevelDbShard) : ShardState :=
  if s.db ∈ w.closed then ShardState.Closed else ShardState.Open

/-- Modelled from the spec: `LevelDbShard.close`, missing from the source
files at hand.  It releases the underlying store handle and leaves the shard
closed. -/
def World.close (w : World) (s : LevelDbShard) : World :=
  { w with
    openDbs := w.openDbs.filter (fun d => d ≠ s.db)
    closed := s.db :: w.closed
    events := w.events ++ [Event.shardClose s.db] }

/-- What `os.RemoveAll` did: it removed the tree, or it failed with an error
having left some of the paths of the tree in place. -/
inductive RemoveOutcome where
  | removed
  | failed (err : Error) (left : List String)
deriving DecidableEq, Repr

/-- The error returned by `os.RemoveAll`. -/
def RemoveOutcome.err : RemoveOutcome → Option Error
  | RemoveOutcome.removed => none
  | RemoveOutcome.failed e _ => some e

/-- `os.RemoveAll(dir)`: on success no path at or below `dir` remains and
every other path is untouched; on failure the paths of the tree that the
outcome names remain. -/
def World.RemoveAll (w : World) (dir : String) (o : RemoveOutcome) : World × Option Error :=
  match o with
  | RemoveOutcome.removed =>
    ({ w with paths := w.paths.filter (fun p => !under dir p)
              events := w.events ++ [Event.removeAll dir none] }, none)
  | RemoveOutcome.failed e left =>
    ({ w with paths := w.paths.filter (fun p => !under dir p || decide (p ∈ left))
              events := w.events ++ [Event.removeAll dir (some e)] }, some e)

/-- `levigo.Open(dir, opts)` with `CreateIfMissing` set: on success a fresh
store handle is open and the directory exists. -/
def World.levigoOpen (w : World) (dir : String) (err : Option Error) : World × Except Error Nat :=
  match err with
  | some e => ({ w with events := w.events ++ [Event.levigoOpen dir (some e)] }, .error e)
  | none =>
    ({ w with nextDb := w.nextDb + 1
              openDbs := w.nextDb :: w.openDbs
              paths := if dir ∈ w.paths then w.paths else dir :: w.paths
              events := w.events ++ [Event.levigoOpen dir none] }, .ok w.nextDb)

/-- Modelled from the spec: `NewLevelDbShard`, missing from the source files at
hand.  It wraps an open store handle in a shard or fails with an error; the
store handle stays as it is either way. -/
def World.NewLevelDbShard (w : World) (ldb : Nat) (err : Option Error) :
    World × Except Error LevelDbShard :=
  match err with
  | some e => ({ w with events := w.events ++ [Event.newLevelDbShard ldb (some e)] }, .error e)
  | none => ({ w with events := w.events ++ [Event.newLevelDbShard ldb none] }, .ok ⟨ldb⟩)

/-! ## The datastore -/

/-- The fields of `configuration.Configuration` that the datastore reads. -/
structure Configuration where
  DataDir : String
  LevelDbMaxOpenFiles : Nat
deriving DecidableEq, Repr

/-- The `LevelDbShardDatastore` struct.  `shards` is the map from shard id to
shard; the first pair with a given id is the entry for that id. -/
structure LevelDbShardDatastore where
  baseDbDir : String
  config : Configuration
  shards : List (Nat × LevelDbShard)
deriving DecidableEq, Repr

/-- The map read `self.shards[id]`; `none` is the nil pointer. -/
def LevelDbShardDatastore.lookup (self : LevelDbShardDatastore) (id : Nat) : Option LevelDbShard :=
  self.shards.lookup id

/-- `NewLevelDbShardDatastore` past the `os.MkdirAll` call, whose error is
`mkdirErr`: the base directory exists and the registry is empty. -/
def NewLevelDbShardDatastore (w : World) (config : Configuration) (mkdirErr : Option Error) :
    World × Except Error LevelDbShardDatastore :=
  let baseDbDir := filepathJoin [config.DataDir, SHARD_DATABASE_DIR]
  match mkdirErr with
  | some e => (w, .error e)
  | none =>
    ({ w with paths := if baseDbDir ∈ w.paths then w.paths else baseDbDir :: w.paths },
      .ok { baseDbDir := baseDbDir, config := config, shards := [] })

/-- `shardDir`. -/
def LevelDbShardDatastore.shardDir (self : LevelDbShardDatastore) (id : Nat) : String :=
  filepathJoin [self.baseDbDir, sprintf5d id]

/-- `Close`: every shard in the registry is closed; the registry is not
touched. -/
def LevelDbShardDatastore.Close (self : LevelDbShardDatastore) (w : World) :
    LevelDbShardDatastore × World :=
  (self, self.shards.foldl (fun w e => w.close e.2) w)

/-- `GetOrCreateShard`.  `openErr` is the error of `levigo.Open` and `newErr`
the error of `NewLevelDbShard`, should the call reach them. -/
def LevelDbShardDatastore.GetOrCreateShard (self : LevelDbShardDatastore) (w : World) (id : Nat)
    (openErr newErr : Option Error) :
    LevelDbShardDatastore × World × Except Error LevelDbShard :=
  match self.lookup id with
  | some db => (self, w, .ok db)
  | none =>
    -- the check repeated under the write lock
    match self.lookup id with
    | some db => (self, w, .ok db)
    | none =>
      let dbDir := self.shardDir id
      match w.levigoOpen dbDir openErr with
      | (w1, .error err) => (self, w1, .error err)
      | (w1, .ok ldb) =>
        match w1.NewLevelDbShard ldb newErr with
        | (w2, .error err) => (self, w2, .error err)
        | (w2, .ok db) =>
          ({ self with shards := (id, db) :: self.shards.filter (fun e => e.1 ≠ id) }, w2, .ok db)

/-- `DeleteShard`.  `removal` is what `os.RemoveAll` does. -/
def LevelDbShardDatastore.DeleteShard (self : LevelDbShardDatastore) (w : World) (shardId : Nat)
    (removal : RemoveOutcome) : LevelDbShardDatastore × World × Option Error :=
  let shardDb := self.lookup shardId
  let self1 := { self with shards := self.shards.filter (fun e => e.1 ≠ shardId) }
  let w1 := match shardDb with
    | some db => w.close db
    | none => w
  let dir := self1.shardDir shardId
  let r := w1.RemoveAll dir removal
  (self1, r.1, r.2)

/-- An empty world: nothing on disk, no store handle handed out. -/
def World.empty : World := { nextDb := 0, openDbs := [], closed := [], paths := [], events := [] }

/-- A call on the datastore, with the outcomes of the calls it makes to
LevelDB and to the operating system. -/
inductive Call where
  | GetOrCreateShard (id : Nat) (openErr newErr : Option Error)
  | DeleteShard (id : Nat) (removal : RemoveOutcome)
  | Close
deriving DecidableEq, Repr

/-- The datastore and the world after one call. -/
def exec (s : LevelDbShardDatastore × World) : Call → LevelDbShardDatastore × World
  | Call.GetOrCreateShard id openErr newErr =>
    let r := s.1.GetOrCreateShard s.2 id openErr newErr
    (r.1, r.2.1)
  | Call.DeleteShard id removal =>
    let r := s.1.DeleteShard s.2 id removal
    (r.1, r.2.1)
  | Call.Close => s.1.Close s.2

/-- The datastore and the world after a sequence of calls. -/
def run (s : LevelDbShardDatastore × World) : List Call → LevelDbShardDatastore × World
  | [] => s
  | c :: cs => run (exec s c) cs

/-- A world whose closed handles were all handed out before: the next store
handle is fresh. -/
def World.WellFormed (w : World) : Prop := ∀ d ∈ w.closed, d < w.nextDb

/-- The number of successful `levigo.Open` calls among the events. -/
def opens (events : List Event) : Nat :=
  (events.filter (fun e => match e with
    | Event.levigoOpen _ none => true
    | _ => false)).length

/-- Whether a call is `DeleteShard(id)`. -/
def Call.deletes (id : Nat) : Call → Bool
  | Call.DeleteShard j _ => decide (j = id)
  | _ => false

/-- Whether a call is `Close()`. -/
def Call.closes : Call → Bool
  | Call.Close => true
  | _ => false

/-- The registry and the world agree: no registered shard is closed, every
registered shard wraps a store handle handed out earlier, every closed handle
was handed out earlier, and no two entries share a store handle. -/
def Consistent (s : LevelDbShardDatastore × World) : Prop :=
  (∀ e ∈ s.1.shards, e.2.db ∉ s.2.closed) ∧
  (∀ e ∈ s.1.shards, e.2.db < s.2.nextDb) ∧
  s.2.WellFormed ∧
  (s.1.shards.map (fun e => e.2.db)).Nodup

/-- A datastore as `NewLevelDbShardDatastore` leaves it, for the data
directory `/data`. -/
def sampleStore : LevelDbShardDatastore :=
  { baseDbDir := filepathJoin ["/data", SHARD_DATABASE_DIR]
    config := { DataDir := "/data", LevelDbMaxOpenFiles := 10 }
    shards := [] }

/-- The world in which `sampleStore` was made. -/
def sampleWorld : World := { World.empty with paths := ["/data/shard_db"] }

/-! ## Shard directory names -/

/-- The last element of a slash separated path. -/
def lastElement (p : String) : String :=
  String.mk ((splitPath p.data).getLast?.getD [])

/-- The number that a string of decimal digits denotes. -/
def decimalValue (s : String) : Nat :=
  s.data.foldl (fun n c => 10 * n + (c.toNat - 48)) 0

/-! ## Keys and column values -/

/-- The reserved key `ATOMIC_INCREMENT_PREFIX`. -/
def ATOMIC_INCREMENT_PREFIX : List Nat := [0xFF, 0xFF, 0xFF, 0xFF, 0xFF, 0xFF, 0xFF, 0xFD]

/-- The reserved key `NEXT_ID_KEY`. -/
def NEXT_ID_KEY : List Nat := [0x00, 0x00, 0x00, 0x00, 0x00, 0x00, 0x00, 0x00]

/-- The reserved key `SERIES_COLUMN_INDEX_PREFIX`. -/
def SERIES_COLUMN_INDEX_PREFIX : List Nat := [0xFF, 0xFF, 0xFF, 0xFF, 0xFF, 0xFF, 0xFF, 0xFE]

/-- The reserved key `DATABASE_SERIES_INDEX_PREFIX`. -/
def DATABASE_SERIES_INDEX_PREFIX : List Nat := [0xFF, 0xFF, 0xFF, 0xFF, 0xFF, 0xFF, 0xFF, 0xFF]

/-- The constant `MAX_SEQUENCE`. -/
def MAX_SEQUENCE : List Nat := [0xFF, 0xFF, 0xFF, 0xFF, 0xFF, 0xFF, 0xFF, 0xFF]

/-- `bytes.Compare`: the lexicographic comparison of two byte slices, with
result -1, 0 or 1.  A nil slice compares like an empty one. -/
def bytesCompare : List Nat → List Nat → Int
  | [], [] => 0
  | [], _ :: _ => -1
  | _ :: _, [] => 1
  | a :: as, b :: bs =>
    if a < b then -1 else if b < a then 1 else bytesCompare as bs

/-- `bytes.Equal`. -/
def bytesEqual (a b : List Nat) : Bool := decide (a = b)

/-- `isPointInRange`.  A slice is modelled by its bytes, its capacity taken to
be its length, so the slice expressions `point[:8]` and `point[8:16]` fail on a
point shorter than sixteen bytes; `none` is that failure. -/
def isPointInRange (fieldId startTime endTime point : List Nat) : Option Bool :=
  if point.length < 16 then none
  else
    let id := point.take 8
    let time := (point.take 16).drop 8
    some (bytesEqual id fieldId && decide (bytesCompare time startTime > -1) &&
      decide (bytesCompare time endTime < 1))

/-- The `rawColumnValue` struct. -/
structure rawColumnValue where
  time : List Nat
  sequence : List Nat
  value : List Nat
deriving DecidableEq, Repr

/-- `updatePointTimeAndSequence`.  `currentTimeRaw` is `none` for the nil
slice, the only slice the function tests for nil; the other slices are only
compared and returned. -/
def rawColumnValue.updatePointTimeAndSequence (self : rawColumnValue)
    (currentTimeRaw : Option (List Nat)) (currentSequenceRaw : List Nat)
    (isAscendingQuery : Bool) : List Nat × List Nat :=
  match currentTimeRaw with
  | none => (self.time, self.sequence)
  | some currentTimeRaw =>
    let compareValue : Int := if isAscendingQuery then -1 else 1
    let timeCompare := bytesCompare self.time currentTimeRaw
    if timeCompare = compareValue then (self.time, self.sequence)
    else if timeCompare ≠ 0 then (currentTimeRaw, currentSequenceRaw)
    else if bytesCompare self.sequence currentSequenceRaw = compareValue then
      (currentTimeRaw, self.sequence)
    else (currentTimeRaw, currentSequenceRaw)

/-- Bytewise order on byte slices: the first differing byte decides, and a
proper prefix comes first. -/
def BytesLt (a b : List Nat) : Prop := List.Lex (fun x y => x < y) a b

/-- Bytewise below or equal. -/
def BytesLe (a b : List Nat) : Prop := BytesLt a b ∨ a = b

/-- The order on (time, sequence) pairs that compares times bytewise first and
sequences bytewise on equal times. -/
def PairLe (p q : List Nat × List Nat) : Prop :=
  BytesLt p.1 q.1 ∨ (p.1 = q.1 ∧ (BytesLt p.2 q.2 ∨ p.2 = q.2))

/-- The number that big-endian bytes denote (`binary.BigEndian.Uint64` on
eight bytes). -/
def beValue (bs : List Nat) : Nat := bs.foldl (fun n b => n * 256 + b) 0

/-- Big-endian bytes of a 64-bit value (`binary.BigEndian.PutUint64`). -/
def putUint64 (n : Nat) : List Nat :=
  [n / 72057594037927936 % 256, n / 281474976710656 % 256, n / 1099511627776 % 256,
    n / 4294967296 % 256, n / 16777216 % 256, n / 65536 % 256, n / 256 % 256, n % 256]

/-! ## Merging column heads -/

/-- The pair `p` comes at or before the pair `q` in the order of the query:
at or below it in an ascending query, at or above it in a descending one. -/
def PairBefore (isAscendingQuery : Bool) (p q : List Nat × List Nat) : Prop :=
  if isAscendingQuery = true then PairLe p q else PairLe q p

/-- Modelled from the spec: the merge step over the current column heads,
whose loop is not among the source files at hand.  It starts from the nil pair
and calls `updatePointTimeAndSequence` on every head in turn, each call
receiving the pair that the call before returned.  The time of a column head
is a slice of its key, which is not the nil slice, so the time that a call
returns is a non-nil current time for the next call. -/
def mergeHeads (heads : List rawColumnValue) (isAscendingQuery : Bool) :
    Option (List Nat) × List Nat :=
  heads.foldl
    (fun cur h =>
      (some (h.updatePointTimeAndSequence cur.1 cur.2 isAscendingQuery).1,
        (h.updatePointTimeAndSequence cur.1 cur.2 isAscendingQuery).2))
    (none, [])

end datastore

/-! # Theorems -/

namespace wal

/-! ## Writing to the log file -/

theorem length_writeAt (d : List Nat) (off : Nat) (bs : List Nat) :
    (writeAt d off bs).length = max d.length (off + bs.length) := by
  simp only [writeAt, List.length_append, List.length_take, List.length_replicate,
    List.length_drop]
  omega

theorem writeAt_split (d : List Nat) (off : Nat) (bs : List Nat) :
    ∃ pre post, writeAt d off bs = pre ++ bs ++ post ∧ pre.length = off := by
  refine ⟨d.take off ++ List.replicate (off - d.length) 0, d.drop (off + bs.length), rfl, ?_⟩
  simp only [List.length_append, List.length_take, List.length_replicate]
  omega

theorem slice_writeAt_self (d : List Nat) (off : Nat) (bs : List Nat) :
    slice (writeAt d off bs) off bs.length = bs := by
  obtain ⟨pre, post, h, hl⟩ := writeAt_split d off bs
  rw [h, slice, List.append_assoc, ← hl, List.drop_left, List.take_left]

theorem getElem?_writeAt_before (d : List Nat) (off : Nat) (bs : List Nat) (j : Nat)
    (h1 : j < off) (h2 : j < d.length) : (writeAt d off bs)[j]? = d[j]? := by
  have hlen : j < (d.take off).length := by
    simp only [List.length_take]; omega
  rw [writeAt, List.append_assoc, List.append_assoc, List.getElem?_append_left hlen,
    List.getElem?_take_of_lt h1]

theorem slice_writeAt_before (d : List Nat) (off : Nat) (bs : List Nat) (o n : Nat)
    (h1 : o + n ≤ off) (h2 : o + n ≤ d.length) :
    slice (writeAt d off bs) o n = slice d o n := by
  apply List.ext_getElem?
  intro i
  by_cases hi : i < n
  · simp only [slice, List.getElem?_take_of_lt hi, List.getElem?_drop]
    exact getElem?_writeAt_before d off bs (o + i) (by omega) (by omega)
  · simp only [slice]
    rw [List.getElem?_eq_none, List.getElem?_eq_none]
    · simp only [List.length_take]; omega
    · simp only [List.length_take]; omega

theorem File.Extends.refl (f : File) : f.Extends f :=
  ⟨le_refl _, le_refl _, fun _ _ _ _ => rfl⟩

theorem File.Extends.trans {f g h : File} (a : f.Extends g) (b : g.Extends h) : f.Extends h :=
  ⟨le_trans a.1 b.1, le_trans a.2.1 b.2.1, fun o n h1 h2 =>
    (b.2.2 o n (le_trans h1 a.1) (le_trans h2 a.2.1)).trans (a.2.2 o n h1 h2)⟩

theorem File.writeOffset_Write (f : File) (bs : List Nat) (o : WriteOutcome) :
    (f.Write bs o).1.writeOffset = f.writeOffset + (bs.take o.written).length := by
  simp only [File.Write, File.writeOffset]
  split
  · rw [length_writeAt]; omega
  · rfl

theorem File.Extends_Write (f : File) (bs : List Nat) (o : WriteOutcome) :
    f.Extends (f.Write bs o).1 := by
  refine ⟨?_, ?_, ?_⟩
  · rw [File.writeOffset_Write]; omega
  · simp only [File.Write, length_writeAt]; omega
  · intro p n h1 h2
    exact slice_writeAt_before _ _ _ _ _ h1 h2

theorem length_putUint32 (n : Nat) : (putUint32 n).length = 4 := rfl

theorem length_bytes (h : entryHeader) : h.bytes.length = 12 := rfl

theorem entryHeader.Write_fst (h : entryHeader) (f : File) (o : WriteOutcome) :
    (h.Write f o).1 = (f.Write h.bytes o).1 := by
  simp only [entryHeader.Write]
  split
  · rfl
  · split <;> rfl

theorem entryHeader.Write_ok (h : entryHeader) (f : File) (o : WriteOutcome)
    (hok : (h.Write f o).2 = none) : h.bytes.take o.written = h.bytes := by
  simp only [entryHeader.Write] at hok
  split at hok
  · simp at hok
  · split at hok
    · simp at hok
    · rename_i hlt
      simp only [File.Write, List.length_take, length_bytes] at hlt
      apply List.take_of_length_le
      rw [length_bytes]; omega

theorem processEntry_Extends {Req : Type} (P : Protocol Req) (l : log) (x : entry Req) :
    l.file.Extends (processEntry P l x).1.file := by
  simp only [processEntry]
  split
  · exact File.Extends.refl _
  · split
    · rw [entryHeader.Write_fst]; exact File.Extends_Write _ _ _
    · have h1 := File.Extends_Write l.file
        (entryHeader.mk x.shardId (l.state.getNextRequestNumber).1 (uint32 (List.length ‹_›))).bytes x.hdrWrite
      split
      · rw [entryHeader.Write_fst]; exact h1.trans (File.Extends_Write _ _ _)
      · split
        · rw [entryHeader.Write_fst]; exact h1.trans (File.Extends_Write _ _ _)
        · rw [entryHeader.Write_fst]; exact h1.trans (File.Extends_Write _ _ _)

theorem processEntries_Extends {Req : Type} (P : Protocol Req) (xs : List (entry Req)) (l : log) :
    l.file.Extends (processEntries P l xs).1.file := by
  induction xs generalizing l with
  | nil => exact File.Extends.refl _
  | cons x xs ih => exact (processEntry_Extends P l x).trans (ih _)


theorem File.data_Write (f : File) (bs : List Nat) (o : WriteOutcome) :
    (f.Write bs o).1.data = writeAt f.data f.writeOffset (bs.take o.written) := rfl

theorem processEntry_ok {Req : Type} (P : Protocol Req) (l : log) (x : entry Req)
    (h : (processEntry P l x).2.err = none) :
    ∃ bytes, P.Encode x.request = .ok bytes ∧
      (processEntry P l x).2.requestNumber = uint32 (l.state.CurrentRequestNumber + 1) ∧
      (processEntry P l x).1.state.CurrentRequestNumber =
        uint32 (l.state.CurrentRequestNumber + 1) ∧
      (processEntry P l x).1.file.data =
        writeAt (writeAt l.file.data l.file.writeOffset
          (entryHeader.mk x.shardId (uint32 (l.state.CurrentRequestNumber + 1))
            (uint32 bytes.length)).bytes) (l.file.writeOffset + 12) bytes ∧
      (processEntry P l x).1.file.writeOffset = l.file.writeOffset + 12 + bytes.length := by
  cases henc : P.Encode x.request with
  | error e => simp [processEntry, henc] at h
  | ok bytes =>
    refine ⟨bytes, rfl, ?_⟩
    cases hw1 : ((entryHeader.mk x.shardId (l.state.getNextRequestNumber).1
        (uint32 bytes.length)).Write l.file x.hdrWrite).2 with
    | some e => simp [processEntry, henc, hw1] at h
    | none =>
      have hfull := entryHeader.Write_ok _ _ _ hw1
      cases hw2 : (((entryHeader.mk x.shardId (l.state.getNextRequestNumber).1
          (uint32 bytes.length)).Write l.file x.hdrWrite).1.Write bytes x.payloadWrite).2.2 with
      | some e => simp [processEntry, henc, hw1, hw2] at h
      | none =>
        by_cases hlt : (((entryHeader.mk x.shardId (l.state.getNextRequestNumber).1
          (uint32 bytes.length)).Write l.file x.hdrWrite).1.Write bytes x.payloadWrite).2.1
            < bytes.length
        · simp [processEntry, henc, hw1, hw2, hlt] at h
        · have hb : bytes.take x.payloadWrite.written = bytes := by
            apply List.take_of_length_le
            simp only [File.Write, List.length_take] at hlt
            omega
          simp only [processEntry, henc, hw1, hw2, hlt, if_false]
          refine ⟨rfl, rfl, ?_, ?_⟩
          · rw [File.data_Write, entryHeader.Write_fst, File.data_Write, File.writeOffset_Write,
              hfull, hb, length_bytes]
            rfl
          · rw [File.writeOffset_Write, entryHeader.Write_fst, File.writeOffset_Write,
              hfull, hb, length_bytes]

theorem processEntry_counter {Req : Type} (P : Protocol Req) (l : log) (x : entry Req) :
    (processEntry P l x).1.state.CurrentRequestNumber = l.state.CurrentRequestNumber ∨
    (processEntry P l x).1.state.CurrentRequestNumber =
      uint32 (l.state.CurrentRequestNumber + 1) := by
  simp only [processEntry]
  split
  · exact Or.inl rfl
  · split
    · exact Or.inr rfl
    · split
      · exact Or.inr rfl
      · split <;> exact Or.inr rfl

theorem processEntries_counter {Req : Type} (P : Protocol Req) (xs : List (entry Req)) (l : log)
    (h : l.state.CurrentRequestNumber + xs.length < 4294967296) :
    l.state.CurrentRequestNumber ≤ (processEntries P l xs).1.state.CurrentRequestNumber ∧
    (processEntries P l xs).1.state.CurrentRequestNumber ≤
      l.state.CurrentRequestNumber + xs.length := by
  induction xs generalizing l with
  | nil => exact ⟨le_refl _, le_refl _⟩
  | cons x xs ih =>
    simp only [processEntries, List.length_cons] at h ⊢
    have hc := processEntry_counter P l x
    have hu : uint32 (l.state.CurrentRequestNumber + 1) = l.state.CurrentRequestNumber + 1 := by
      simp only [uint32]; omega
    rw [hu] at hc
    have := ih (processEntry P l x).1 (by omega)
    omega

/-! ## Appending -/

/-- Decoding the bytes of a header gives the header back when its fields fit
in 32 bits. -/
theorem parse_bytes (h : entryHeader) (h1 : h.shardId < 4294967296)
    (h2 : h.requestNumber < 4294967296) (h3 : h.length < 4294967296) :
    entryHeader.parse h.bytes = h := by
  obtain ⟨a, b, c⟩ := h
  simp only [entryHeader.parse, entryHeader.bytes, putUint32, slice, getUint32] at *
  simp only [List.cons_append, List.nil_append, List.drop, List.take, List.getD_cons_zero,
    List.getD_cons_succ, entryHeader.mk.injEq]
  refine ⟨?_, ?_, ?_⟩ <;> omega

theorem uint32_lt (n : Nat) : uint32 n < 4294967296 := Nat.mod_lt _ (by decide)

/-- After a successful append the header of the entry is in the file at the
offset where the write began, and the encoded request follows it. -/
theorem processEntry_record {Req : Type} (P : Protocol Req) (l : log) (x : entry Req)
    (h : (processEntry P l x).2.err = none) :
    ∃ bytes, P.Encode x.request = .ok bytes ∧
      slice (processEntry P l x).1.file.data l.file.writeOffset 12 =
        (entryHeader.mk x.shardId (processEntry P l x).2.requestNumber
          (uint32 bytes.length)).bytes ∧
      slice (processEntry P l x).1.file.data (l.file.writeOffset + 12) bytes.length = bytes ∧
      l.file.writeOffset + 12 ≤ (processEntry P l x).1.file.writeOffset ∧
      l.file.writeOffset + 12 ≤ (processEntry P l x).1.file.data.length := by
  obtain ⟨bytes, henc, hnum, -, hdata, hoff⟩ := processEntry_ok P l x h
  refine ⟨bytes, henc, ?_, ?_, ?_, ?_⟩
  · rw [hdata, hnum, slice_writeAt_before _ _ _ _ _ (le_refl _)
      (by rw [length_writeAt, length_bytes]; omega)]
    exact slice_writeAt_self _ _ (entryHeader.mk _ _ _).bytes
  · rw [hdata]; exact slice_writeAt_self _ _ _
  · omega
  · rw [hdata, length_writeAt, length_writeAt, length_bytes]; omega

theorem processEntry_emptyEntry (l : log) :
    (processEntry rawProtocol l emptyEntry).2 = ⟨uint32 (l.state.CurrentRequestNumber + 1), none⟩ ∧
    (processEntry rawProtocol l emptyEntry).1.state.CurrentRequestNumber =
      uint32 (l.state.CurrentRequestNumber + 1) := ⟨rfl, rfl⟩

theorem counter_replicate_emptyEntry (n : Nat) (l : log)
    (hl : l.state.CurrentRequestNumber < 4294967296) :
    (processEntries rawProtocol l (List.replicate n emptyEntry)).1.state.CurrentRequestNumber =
      uint32 (l.state.CurrentRequestNumber + n) ∧
    ∀ c ∈ (processEntries rawProtocol l (List.replicate n emptyEntry)).2, c.err = none := by
  induction n generalizing l with
  | zero =>
    refine ⟨?_, fun c hc => absurd hc (List.not_mem_nil c)⟩
    show l.state.CurrentRequestNumber = uint32 (l.state.CurrentRequestNumber + 0)
    simp only [uint32]; omega
  | succ n ih =>
    rw [List.replicate_succ]
    simp only [processEntries]
    obtain ⟨h1, h2⟩ := ih (processEntry rawProtocol l emptyEntry).1
      (by rw [(processEntry_emptyEntry l).2]; exact uint32_lt _)
    refine ⟨?_, ?_⟩
    · rw [h1, (processEntry_emptyEntry l).2]
      simp only [uint32]; omega
    · intro c hc
      rcases List.mem_cons.1 hc with rfl | hc
      · rw [(processEntry_emptyEntry l).1]
      · exact h2 c hc

theorem processEntry_emptyEntry_at (l : log) (c : Nat) (hc : l.state.CurrentRequestNumber = c) :
    (processEntry rawProtocol l emptyEntry).2 = ⟨uint32 (c + 1), none⟩ ∧
    (processEntry rawProtocol l emptyEntry).1.state.CurrentRequestNumber = uint32 (c + 1) := by
  subst hc
  exact ⟨rfl, rfl⟩

/-! ## Claims about the log -/

/-- C1: the replay scenario of the specification run on the code.  The log file
is the concatenation of five complete records for shards 1, 2, 1, 2, 3 numbered
1 to 5, and the replay is for shards 1 and 2 from request number 3.  The claim
asks for records 3 and 4 and a closed channel.  The code skips record 1
without consuming its payload, reads every following header at a wrong offset,
and ends with a single error item on an open channel, whether or not the
duplicated descriptor shares its offset with `log.file`. -/
theorem replay_scenario_loses_records :
    scenarioData =
      ((entryHeader.mk 1 1 1).bytes ++ [101]) ++ ((entryHeader.mk 2 2 1).bytes ++ [102]) ++
      ((entryHeader.mk 1 3 1).bytes ++ [103]) ++ ((entryHeader.mk 2 4 1).bytes ++ [104]) ++
      ((entryHeader.mk 3 5 1).bytes ++ [105]) ∧
    replayFromRequestNumber rawProtocol true none scenarioLog [1, 2] 3 =
      some { items := [⟨none, 0, some ErrUnexpectedEOF⟩], closed := false,
             cursors := ⟨65, 65⟩, reads := List.replicate 6 (Handle.dup, 12) } ∧
    replayFromRequestNumber rawProtocol false none scenarioLog [1, 2] 3 =
      some { items := [⟨none, 0, some ErrUnexpectedEOF⟩], closed := false,
             cursors := ⟨65, 0⟩, reads := List.replicate 6 (Handle.dup, 12) } := by
  refine ⟨by decide, by decide, by decide⟩

/-- C2 (amended): for two successful appends A then B on the same log, with any
entries processed in between, the request number returned for A is strictly
less than the one returned for B as long as the 32-bit counter does not wrap
between them (the counter before A plus the number of entries from A to B stays
below 2^32); and in every case the header of A lies in the file before the
header of B, both headers being in the file once B is written. -/
theorem appends_ordered {Req : Type} (P : Protocol Req) (l lA lM lB : log) (A B : entry Req)
    (mid : List (entry Req)) (cA cB : confirmation) (cs : List confirmation)
    (hA : processEntry P l A = (lA, cA)) (hM : processEntries P lA mid = (lM, cs))
    (hB : processEntry P lM B = (lB, cB)) (hokA : cA.err = none) (hokB : cB.err = none) :
    (l.state.CurrentRequestNumber + mid.length + 2 < 4294967296 →
      cA.requestNumber < cB.requestNumber) ∧
    l.file.writeOffset + 12 ≤ lM.file.writeOffset ∧
    ∃ bytesA bytesB, P.Encode A.request = .ok bytesA ∧ P.Encode B.request = .ok bytesB ∧
      slice lB.file.data l.file.writeOffset 12 =
        (entryHeader.mk A.shardId cA.requestNumber (uint32 bytesA.length)).bytes ∧
      slice lB.file.data lM.file.writeOffset 12 =
        (entryHeader.mk B.shardId cB.requestNumber (uint32 bytesB.length)).bytes := by
  have hA1 : (processEntry P l A).1 = lA := by rw [hA]
  have hA2 : (processEntry P l A).2 = cA := by rw [hA]
  subst hA1 hA2
  have hM1 : (processEntries P (processEntry P l A).1 mid).1 = lM := by rw [hM]
  subst hM1
  have hB1 : (processEntry P (processEntries P (processEntry P l A).1 mid).1 B).1 = lB := by
    rw [hB]
  have hB2 : (processEntry P (processEntries P (processEntry P l A).1 mid).1 B).2 = cB := by
    rw [hB]
  subst hB1 hB2
  obtain ⟨bytesA, hencA, hsA, -, hoA, hlA⟩ := processEntry_record P l A hokA
  obtain ⟨bytesB, hencB, hsB, -, -, -⟩ := processEntry_record P _ B hokB
  obtain ⟨-, -, hnA, hcA, -, -⟩ := processEntry_ok P l A hokA
  obtain ⟨-, -, hnB, -, -, -⟩ := processEntry_ok P _ B hokB
  have eM := processEntries_Extends P mid (processEntry P l A).1
  have eB := processEntry_Extends P (processEntries P (processEntry P l A).1 mid).1 B
  refine ⟨?_, le_trans hoA eM.1, bytesA, bytesB, hencA, hencB, ?_, hsB⟩
  · intro hw
    have hc := processEntries_counter P mid (processEntry P l A).1
      (by rw [hcA]; simp only [uint32]; omega)
    rw [hcA] at hc
    rw [hnA, hnB]
    simp only [uint32] at hc ⊢
    omega
  · rw [(eM.trans eB).2.2 _ _ hoA hlA]
    exact hsA

/-- C2, instance: two appends on a fresh log with one append between them
return 1 and 3, and the header of the first lies twelve bytes or more before
the header of the last. -/
theorem appends_ordered_witness :
    (processEntry rawProtocol (newLog ⟨[], 0, true⟩) ⟨[101], 1, ⟨12, none⟩, ⟨1, none⟩⟩).2.err
      = none ∧
    (processEntry rawProtocol
      (processEntries rawProtocol
        (processEntry rawProtocol (newLog ⟨[], 0, true⟩) ⟨[101], 1, ⟨12, none⟩, ⟨1, none⟩⟩).1
        [⟨[102], 2, ⟨12, none⟩, ⟨1, none⟩⟩]).1
      ⟨[103], 1, ⟨12, none⟩, ⟨1, none⟩⟩).2.err = none ∧
    (processEntry rawProtocol (newLog ⟨[], 0, true⟩)
        ⟨[101], 1, ⟨12, none⟩, ⟨1, none⟩⟩).2.requestNumber <
      (processEntry rawProtocol
        (processEntries rawProtocol
          (processEntry rawProtocol (newLog ⟨[], 0, true⟩) ⟨[101], 1, ⟨12, none⟩, ⟨1, none⟩⟩).1
          [⟨[102], 2, ⟨12, none⟩, ⟨1, none⟩⟩]).1
        ⟨[103], 1, ⟨12, none⟩, ⟨1, none⟩⟩).2.requestNumber ∧
    (newLog ⟨[], 0, true⟩).file.writeOffset + 12 ≤
      (processEntries rawProtocol
        (processEntry rawProtocol (newLog ⟨[], 0, true⟩) ⟨[101], 1, ⟨12, none⟩, ⟨1, none⟩⟩).1
        [⟨[102], 2, ⟨12, none⟩, ⟨1, none⟩⟩]).1.file.writeOffset :=
  ⟨by decide, by decide,
    (appends_ordered rawProtocol (newLog ⟨[], 0, true⟩) _ _ _
      ⟨[101], 1, ⟨12, none⟩, ⟨1, none⟩⟩ ⟨[103], 1, ⟨12, none⟩, ⟨1, none⟩⟩
      [⟨[102], 2, ⟨12, none⟩, ⟨1, none⟩⟩] _ _ _ rfl rfl rfl (by decide) (by decide)).1 (by decide),
    (appends_ordered rawProtocol (newLog ⟨[], 0, true⟩) _ _ _
      ⟨[101], 1, ⟨12, none⟩, ⟨1, none⟩⟩ ⟨[103], 1, ⟨12, none⟩, ⟨1, none⟩⟩
      [⟨[102], 2, ⟨12, none⟩, ⟨1, none⟩⟩] _ _ _ rfl rfl rfl (by decide) (by decide)).2.1⟩

/-- C2, counterexample: on a log opened on an empty file, after 4294967294
successful appends the next append A returns 4294967295 and the append B after
it returns 0; both succeed, and the number of A is not below the number of B. -/
theorem request_number_wraps :
    (∀ c ∈ (processEntries rawProtocol (newLog ⟨[], 0, true⟩)
      (List.replicate 4294967294 emptyEntry)).2, c.err = none) ∧
    (processEntry rawProtocol
      (processEntries rawProtocol (newLog ⟨[], 0, true⟩)
        (List.replicate 4294967294 emptyEntry)).1 emptyEntry).2 = ⟨4294967295, none⟩ ∧
    (processEntry rawProtocol
      (processEntry rawProtocol
        (processEntries rawProtocol (newLog ⟨[], 0, true⟩)
          (List.replicate 4294967294 emptyEntry)).1 emptyEntry).1 emptyEntry).2 = ⟨0, none⟩ ∧
    ¬ ((processEntry rawProtocol
        (processEntries rawProtocol (newLog ⟨[], 0, true⟩)
          (List.replicate 4294967294 emptyEntry)).1 emptyEntry).2.requestNumber <
      (processEntry rawProtocol
        (processEntry rawProtocol
          (processEntries rawProtocol (newLog ⟨[], 0, true⟩)
            (List.replicate 4294967294 emptyEntry)).1 emptyEntry).1
        emptyEntry).2.requestNumber) := by
  have h := counter_replicate_emptyEntry 4294967294 (newLog ⟨[], 0, true⟩) (by decide)
  have e : uint32 ((newLog ⟨[], 0, true⟩).state.CurrentRequestNumber + 4294967294) = 4294967294 := by
    decide
  have e1 : uint32 (4294967294 + 1) = 4294967295 := by decide
  have e2 : uint32 (4294967295 + 1) = 0 := by decide
  have hA := processEntry_emptyEntry_at _ 4294967294 (h.1.trans e)
  rw [e1] at hA
  have hB := processEntry_emptyEntry_at _ 4294967295 hA.2
  rw [e2] at hB
  refine ⟨h.2, hA.1, hB.1, ?_⟩
  rw [hA.1, hB.1]
  decide

/-- C3: `newLog` on a file that holds records numbered 1 to 5 leaves the
request counter at zero, and the first append after reopening returns 1, a
number already in the file, where the claim asks for 6. -/
theorem newLog_restarts_numbering :
    scenarioLog.state.CurrentRequestNumber = 0 ∧
    (entryHeader.parse (slice scenarioLog.file.data 52 12)).requestNumber = 5 ∧
    (appendRequest rawProtocol scenarioLog [106] 1 ⟨12, none⟩ ⟨1, none⟩).2 = (1, none) := by
  refine ⟨by decide, by decide, by decide⟩

/-- An append whose request encodes and whose two writes are complete and
report no error succeeds with the next request number. -/
theorem appendRequest_full {Req : Type} (P : Protocol Req) (l : log) (request : Req)
    (shardId : Nat) (hdrWrite payloadWrite : WriteOutcome) (bytes : List Nat)
    (henc : P.Encode request = .ok bytes)
    (h1 : 12 ≤ hdrWrite.written) (h2 : hdrWrite.err = none)
    (h3 : bytes.length ≤ payloadWrite.written) (h4 : payloadWrite.err = none) :
    (appendRequest P l request shardId hdrWrite payloadWrite).2 =
      (uint32 (l.state.CurrentRequestNumber + 1), none) := by
  have hb : (List.take payloadWrite.written bytes).length = bytes.length := by
    rw [List.length_take]; omega
  have hh : ∀ h : entryHeader, (List.take hdrWrite.written h.bytes).length = 12 := by
    intro h
    rw [List.length_take, length_bytes]; omega
  simp only [appendRequest, processEntry, henc, entryHeader.Write, File.Write, h2, h4, hb, hh,
    length_bytes, lt_irrefl, if_false, state.getNextRequestNumber]

/-- The header found in the file after a successful append: the caller's shard
id, the number returned, and the length of the encoded request as a 32-bit
value. -/
theorem appendRequest_header {Req : Type} (P : Protocol Req) (l : log) (request : Req)
    (shardId : Nat) (hdrWrite payloadWrite : WriteOutcome) (bytes : List Nat)
    (henc : P.Encode request = .ok bytes)
    (hok : (appendRequest P l request shardId hdrWrite payloadWrite).2.2 = none)
    (hshard : shardId < 4294967296) :
    entryHeader.parse
        (slice (appendRequest P l request shardId hdrWrite payloadWrite).1.file.data
          l.file.writeOffset 12) =
      ⟨shardId, (appendRequest P l request shardId hdrWrite payloadWrite).2.1,
        uint32 bytes.length⟩ ∧
    slice (appendRequest P l request shardId hdrWrite payloadWrite).1.file.data
      (l.file.writeOffset + 12) bytes.length = bytes := by
  obtain ⟨b, hb, hs, hp, -, -⟩ :=
    processEntry_record P l ⟨request, shardId, hdrWrite, payloadWrite⟩ hok
  obtain ⟨-, -, hn, -, -, -⟩ := processEntry_ok P l ⟨request, shardId, hdrWrite, payloadWrite⟩ hok
  have hbb : b = bytes := by
    have := hb.symm.trans henc
    exact Except.ok.inj this
  subst hbb
  refine ⟨?_, hp⟩
  show entryHeader.parse (slice (processEntry P l ⟨request, shardId, hdrWrite, payloadWrite⟩).1.file.data
    l.file.writeOffset 12) = _
  rw [hs]
  exact parse_bytes _ hshard (by rw [hn]; exact uint32_lt _) (uint32_lt _)

/-- C4 (amended): for every successful `appendRequest(request, shardId)` whose
encoded request is shorter than 2^32 bytes, the header written to the file
carries the caller's shard id, the request number returned to the caller and a
length field equal to the number of encoded bytes, and the header is
immediately followed by those bytes. -/
theorem appendRequest_record {Req : Type} (P : Protocol Req) (l : log) (request : Req)
    (shardId : Nat) (hdrWrite payloadWrite : WriteOutcome) (bytes : List Nat)
    (henc : P.Encode request = .ok bytes)
    (hok : (appendRequest P l request shardId hdrWrite payloadWrite).2.2 = none)
    (hshard : shardId < 4294967296) (hlen : bytes.length < 4294967296) :
    entryHeader.parse
        (slice (appendRequest P l request shardId hdrWrite payloadWrite).1.file.data
          l.file.writeOffset 12) =
      ⟨shardId, (appendRequest P l request shardId hdrWrite payloadWrite).2.1, bytes.length⟩ ∧
    slice (appendRequest P l request shardId hdrWrite payloadWrite).1.file.data
      (l.file.writeOffset + 12) bytes.length = bytes := by
  have h := appendRequest_header P l request shardId hdrWrite payloadWrite bytes henc hok hshard
  have hu : uint32 bytes.length = bytes.length := Nat.mod_eq_of_lt hlen
  rw [hu] at h
  exact h

/-- C4, instance: appending the request `[101, 102]` for shard 7 to a fresh log
writes the header (7, 1, 2) at offset 0 and the two bytes after it. -/
theorem appendRequest_record_witness :
    rawProtocol.Encode [101, 102] = .ok [101, 102] ∧
    (appendRequest rawProtocol (newLog ⟨[], 0, true⟩) [101, 102] 7 ⟨12, none⟩ ⟨2, none⟩).2.2
      = none ∧
    entryHeader.parse
        (slice (appendRequest rawProtocol (newLog ⟨[], 0, true⟩) [101, 102] 7
          ⟨12, none⟩ ⟨2, none⟩).1.file.data (newLog ⟨[], 0, true⟩).file.writeOffset 12) =
      ⟨7, (appendRequest rawProtocol (newLog ⟨[], 0, true⟩) [101, 102] 7
          ⟨12, none⟩ ⟨2, none⟩).2.1, [101, 102].length⟩ ∧
    slice (appendRequest rawProtocol (newLog ⟨[], 0, true⟩) [101, 102] 7
          ⟨12, none⟩ ⟨2, none⟩).1.file.data
      ((newLog ⟨[], 0, true⟩).file.writeOffset + 12) [101, 102].length = [101, 102] :=
  ⟨rfl, by decide,
    appendRequest_record rawProtocol (newLog ⟨[], 0, true⟩) [101, 102] 7 ⟨12, none⟩ ⟨2, none⟩
      [101, 102] rfl (by decide) (by decide) (by decide)⟩

/-- C4, counterexample: a request of 2^32 bytes appended to a fresh log.  The
append succeeds with request number 1, and the length field of the header it
wrote is 0, not the 4294967296 bytes of the encoded request. -/
theorem huge_request_length_wraps :
    (List.replicate 4294967296 0).length = 4294967296 ∧
    (appendRequest rawProtocol (newLog ⟨[], 0, true⟩) (List.replicate 4294967296 0) 1
      ⟨12, none⟩ ⟨4294967296, none⟩).2 = (1, none) ∧
    (entryHeader.parse
      (slice (appendRequest rawProtocol (newLog ⟨[], 0, true⟩) (List.replicate 4294967296 0) 1
        ⟨12, none⟩ ⟨4294967296, none⟩).1.file.data 0 12)).length = 0 := by
  have hlen : (List.replicate 4294967296 0).length = 4294967296 := List.length_replicate _ _
  have hfull := appendRequest_full rawProtocol (newLog ⟨[], 0, true⟩)
    (List.replicate 4294967296 0) 1 ⟨12, none⟩ ⟨4294967296, none⟩
    (List.replicate 4294967296 0) rfl (le_refl _) rfl (le_of_eq hlen) rfl
  have e1 : uint32 ((newLog ⟨[], 0, true⟩).state.CurrentRequestNumber + 1) = 1 := by decide
  have e2 : uint32 4294967296 = 0 := by decide
  have e0 : (newLog ⟨[], 0, true⟩).file.writeOffset = 0 := by decide
  rw [e1] at hfull
  have hok : (appendRequest rawProtocol (newLog ⟨[], 0, true⟩) (List.replicate 4294967296 0) 1
      ⟨12, none⟩ ⟨4294967296, none⟩).2.2 = none := congrArg Prod.snd hfull
  have hhdr := (appendRequest_header rawProtocol (newLog ⟨[], 0, true⟩)
    (List.replicate 4294967296 0) 1 ⟨12, none⟩ ⟨4294967296, none⟩
    (List.replicate 4294967296 0) rfl hok (by decide)).1
  rw [e0, hlen, e2] at hhdr
  refine ⟨hlen, hfull, ?_⟩
  rw [hhdr]

/-- C5: a record whose header announces twenty payload bytes in a file that
holds three of them.  The payload read is short and reports no error, and the
code sends an item whose request and error are both nil, where the claim asks
for a non-nil error; this is so whether or not the duplicated descriptor shares
its offset with `log.file`. -/
theorem replay_short_payload_nil_error :
    replayFromRequestNumber rawProtocol true none cutShortLog [1] 0 =
      some { items := [⟨none, 0, none⟩], closed := false, cursors := ⟨15, 15⟩,
             reads := [(Handle.dup, 12), (Handle.own, 20)] } ∧
    replayFromRequestNumber rawProtocol false none cutShortLog [1] 0 =
      some { items := [⟨none, 0, none⟩], closed := false, cursors := ⟨12, 15⟩,
             reads := [(Handle.dup, 12), (Handle.own, 20)] } := by
  refine ⟨by decide, by decide⟩

/-- C6: a file with one complete record replayed for its shard.  The payload
is read through `log.file`, not through the duplicated descriptor, and the
offset of `log.file` has moved from 0 when the replay returns, whether or not
the two descriptors share their offset. -/
theorem replay_reads_log_file :
    replayFromRequestNumber rawProtocol true none oneRecordLog [1] 0 =
      some { items := [⟨some [101], 1, none⟩], closed := true, cursors := ⟨13, 13⟩,
             reads := [(Handle.dup, 12), (Handle.own, 1), (Handle.dup, 12)] } ∧
    replayFromRequestNumber rawProtocol false none oneRecordLog [1] 0 =
      some { items := [⟨some [0], 1, none⟩, ⟨none, 0, some ErrUnexpectedEOF⟩], closed := false,
             cursors := ⟨13, 1⟩,
             reads := [(Handle.dup, 12), (Handle.own, 1), (Handle.dup, 12)] } ∧
    oneRecordLog.file.pos = 0 := by
  refine ⟨by decide, by decide, by decide⟩

/-! ## Failed appends -/

/-- C17: whenever `appendRequest` returns an error, the request number it
returns is 0. -/
theorem appendRequest_error_number {Req : Type} (P : Protocol Req) (l : log) (request : Req)
    (shardId : Nat) (hdrWrite payloadWrite : WriteOutcome)
    (h : (appendRequest P l request shardId hdrWrite payloadWrite).2.2 ≠ none) :
    (appendRequest P l request shardId hdrWrite payloadWrite).2.1 = 0 := by
  simp only [appendRequest, processEntry] at h ⊢
  split
  · rfl
  · split
    · rfl
    · split
      · rfl
      · split
        · rfl
        · rename_i henc _ hw1 _ hw2 hlt
          simp only [henc, hw1, hw2, hlt, if_false, ne_eq, not_true_eq_false] at h

/-- C17 for the four ways an append fails: the request does not encode, the
header write fails, the payload write fails, and the payload write is short.
Each returns an error and the request number 0. -/
theorem appendRequest_error_number_witness :
    ((appendRequest failingProtocol (newLog ⟨[], 0, true⟩) [101] 1 ⟨12, none⟩ ⟨1, none⟩).2.2
        = some "cannot encode" ∧
      (appendRequest failingProtocol (newLog ⟨[], 0, true⟩) [101] 1 ⟨12, none⟩ ⟨1, none⟩).2.1
        = 0) ∧
    ((appendRequest rawProtocol (newLog ⟨[], 0, true⟩) [101] 1 ⟨5, some "disk full"⟩
        ⟨1, none⟩).2.2 = some "disk full" ∧
      (appendRequest rawProtocol (newLog ⟨[], 0, true⟩) [101] 1 ⟨5, some "disk full"⟩
        ⟨1, none⟩).2.1 = 0) ∧
    ((appendRequest rawProtocol (newLog ⟨[], 0, true⟩) [101] 1 ⟨12, none⟩
        ⟨0, some "disk full"⟩).2.2 = some "disk full" ∧
      (appendRequest rawProtocol (newLog ⟨[], 0, true⟩) [101] 1 ⟨12, none⟩
        ⟨0, some "disk full"⟩).2.1 = 0) ∧
    ((appendRequest rawProtocol (newLog ⟨[], 0, true⟩) [101, 102] 1 ⟨12, none⟩
        ⟨1, none⟩).2.2 = some "Couldn't write entire request" ∧
      (appendRequest rawProtocol (newLog ⟨[], 0, true⟩) [101, 102] 1 ⟨12, none⟩
        ⟨1, none⟩).2.1 = 0) :=
  ⟨⟨by decide, appendRequest_error_number failingProtocol (newLog ⟨[], 0, true⟩) [101] 1
      ⟨12, none⟩ ⟨1, none⟩ (by decide)⟩,
    ⟨by decide, appendRequest_error_number rawProtocol (newLog ⟨[], 0, true⟩) [101] 1
      ⟨5, some "disk full"⟩ ⟨1, none⟩ (by decide)⟩,
    ⟨by decide, appendRequest_error_number rawProtocol (newLog ⟨[], 0, true⟩) [101] 1
      ⟨12, none⟩ ⟨0, some "disk full"⟩ (by decide)⟩,
    ⟨by decide, appendRequest_error_number rawProtocol (newLog ⟨[], 0, true⟩) [101, 102] 1
      ⟨12, none⟩ ⟨1, none⟩ (by decide)⟩⟩

/-- C18: when the payload write puts fewer bytes into the file than the
encoded request has, `appendRequest` returns an error, whether or not the
write reported one; with a complete header write and a payload write that
reported no error, the error is the one `processEntries` makes for a short
write. -/
theorem appendRequest_short_write {Req : Type} (P : Protocol Req) (l : log) (request : Req)
    (shardId : Nat) (hdrWrite payloadWrite : WriteOutcome) (bytes : List Nat)
    (henc : P.Encode request = .ok bytes) (hshort : payloadWrite.written < bytes.length) :
    (∃ e, (appendRequest P l request shardId hdrWrite payloadWrite).2.2 = some e) ∧
    (((entryHeader.mk shardId (l.state.getNextRequestNumber).1 (uint32 bytes.length)).Write
        l.file hdrWrite).2 = none → payloadWrite.err = none →
      (appendRequest P l request shardId hdrWrite payloadWrite).2 =
        (0, some "Couldn't write entire request")) := by
  have hlt : ((entryHeader.mk shardId (l.state.getNextRequestNumber).1
      (uint32 bytes.length)).Write l.file hdrWrite).1.Write bytes payloadWrite |>.2.1 <
      bytes.length := by
    simp only [File.Write, List.length_take]
    omega
  constructor
  · simp only [appendRequest, processEntry, henc]
    split
    · exact ⟨_, rfl⟩
    · split
      · exact ⟨_, rfl⟩
      · rw [if_pos hlt]
        exact ⟨_, rfl⟩
  · intro hh hp
    have hp2 : (((entryHeader.mk shardId (l.state.getNextRequestNumber).1
        (uint32 bytes.length)).Write l.file hdrWrite).1.Write bytes payloadWrite).2.2 = none := hp
    simp only [appendRequest, processEntry, henc, hh, hp2, if_pos hlt]

/-- C18 for a request of two bytes of which one reaches the file, the write
reporting no error. -/
theorem appendRequest_short_write_witness :
    (∃ e, (appendRequest rawProtocol (newLog ⟨[], 0, true⟩) [101, 102] 1 ⟨12, none⟩
        ⟨1, none⟩).2.2 = some e) ∧
    (appendRequest rawProtocol (newLog ⟨[], 0, true⟩) [101, 102] 1 ⟨12, none⟩ ⟨1, none⟩).2 =
      (0, some "Couldn't write entire request") :=
  ⟨(appendRequest_short_write rawProtocol (newLog ⟨[], 0, true⟩) [101, 102] 1 ⟨12, none⟩
      ⟨1, none⟩ [101, 102] rfl (by decide)).1,
    (appendRequest_short_write rawProtocol (newLog ⟨[], 0, true⟩) [101, 102] 1 ⟨12, none⟩
      ⟨1, none⟩ [101, 102] rfl (by decide)).2 (by decide) rfl⟩

/-! ## Replay stops at the first error -/

/-- The offset of the duplicated handle does not go back. -/
theorem Cursors.dupPos_advance (sharedOffset : Bool) (h : Handle) (c : Cursors) (n : Nat)
    (hc : sharedOffset = true → c.ownPos = c.dupPos) :
    c.dupPos ≤ (c.advance sharedOffset h n).dupPos ∧
    (sharedOffset = true →
      (c.advance sharedOffset h n).ownPos = (c.advance sharedOffset h n).dupPos) := by
  cases h <;> cases sharedOffset <;> simp [Cursors.advance] at hc ⊢
  omega

/-- The loop of the replay returns once the fuel exceeds the bytes left in
front of the duplicated handle, and every item it has sent but the last is a
record without an error. -/
theorem replayLoop_error_last {Req : Type} (P : Protocol Req) (sharedOffset : Bool)
    (data : List Nat) (shardIds : List Nat) (requestNumber : Nat) (fuel : Nat) :
    ∀ (c : Cursors) (items : List (replayRequest Req)) (reads : List (Handle × Nat)),
      data.length - c.dupPos < fuel →
      (sharedOffset = true → c.ownPos = c.dupPos) →
      (∀ x ∈ items, x.err = none ∧ x.request ≠ none) →
      ∃ r, replayLoop P sharedOffset data shardIds requestNumber fuel c items reads = some r ∧
        ∀ x ∈ r.items.dropLast, x.err = none ∧ x.request ≠ none := by
  induction fuel with
  | zero => intro c items reads h; omega
  | succ fuel ih =>
    intro c items reads hf hc hi
    have hlast : ∀ y : replayRequest Req, ∀ x ∈ (items ++ [y]).dropLast,
        x.err = none ∧ x.request ≠ none := by
      intro y x hx
      rw [List.dropLast_concat] at hx
      exact hi x hx
    have hdrop : ∀ x ∈ items.dropLast, x.err = none ∧ x.request ≠ none :=
      fun x hx => hi x (List.dropLast_subset _ hx)
    simp only [replayLoop]
    cases hread : entryHeader.Read data c.dupPos with
    | eof => exact ⟨_, rfl, hdrop⟩
    | failed err consumed => exact ⟨_, rfl, hlast _⟩
    | hdr hdr =>
      have hroom : c.dupPos + 12 ≤ data.length := by
        simp only [entryHeader.Read] at hread
        split at hread
        · simp at hread
        · split at hread
          · simp at hread
          · omega
      have h1 := Cursors.dupPos_advance sharedOffset Handle.dup c 12 hc
      have h1pos : (c.advance sharedOffset Handle.dup 12).dupPos = c.dupPos + 12 := by
        simp [Cursors.advance]
      have hf1 : data.length - (c.advance sharedOffset Handle.dup 12).dupPos < fuel := by
        rw [h1pos]; omega
      simp only []
      split
      · exact ih _ items _ hf1 h1.2 hi
      · split
        · exact ih _ items _ hf1 h1.2 hi
        · split
          · exact ⟨_, rfl, hlast _⟩
          · split
            · exact ⟨_, rfl, hlast _⟩
            · split
              · exact ⟨_, rfl, hlast _⟩
              · have h2 := Cursors.dupPos_advance sharedOffset Handle.own
                  (c.advance sharedOffset Handle.dup 12)
                  (fileRead data (c.advance sharedOffset Handle.dup 12).ownPos hdr.length).1.length
                  h1.2
                refine ih _ _ _ (by omega) h2.2 ?_
                intro x hx
                rcases List.mem_append.mp hx with hx | hx
                · exact hi x hx
                · simp only [List.mem_singleton] at hx
                  subst hx
                  exact ⟨rfl, by simp⟩

/-- C19: for every log file, duplication outcome and filter, the replay
returns, every item it has emitted except the last is a record without an
error, and so at most one item carries an error. -/
theorem replay_error_is_last {Req : Type} (P : Protocol Req) (sharedOffset : Bool)
    (dupErr : Option Error) (l : log) (shardIds : List Nat) (requestNumber : Nat) :
    ∃ r, replayFromRequestNumber P sharedOffset dupErr l shardIds requestNumber = some r ∧
      (∀ x ∈ r.items.dropLast, x.err = none ∧ x.request ≠ none) ∧
      (r.items.filter (fun x => x.err.isSome)).length ≤ 1 := by
  have hcount : ∀ items : List (replayRequest Req),
      (∀ x ∈ items.dropLast, x.err = none ∧ x.request ≠ none) →
      (items.filter (fun x => x.err.isSome)).length ≤ 1 := by
    intro items h
    rcases List.eq_nil_or_concat items with rfl | ⟨pre, y, rfl⟩
    · simp
    · rw [List.concat_eq_append] at h ⊢
      rw [List.dropLast_concat] at h
      have hpre : pre.filter (fun x => x.err.isSome) = [] := by
        rw [List.filter_eq_nil_iff]
        intro x hx
        simp [(h x hx).1]
      rw [List.filter_append, hpre, List.nil_append]
      exact List.length_filter_le _ [y]
  cases dupErr with
  | some err =>
    refine ⟨_, rfl, ?_, ?_⟩
    · intro x hx
      simp at hx
    · simp
  | none =>
    obtain ⟨r, hr, hlast⟩ := replayLoop_error_last P sharedOffset l.file.data shardIds
      requestNumber (l.file.data.length + 1) ⟨l.file.pos, l.file.pos⟩ [] []
      (by simp only []; omega) (fun _ => rfl) (fun x hx => by simp at hx)
    exact ⟨r, hr, hlast, hcount _ hlast⟩

/-! ## Appends leave earlier bytes alone -/

/-- A write through a handle that is at or past the end of the file keeps the
content as a prefix and leaves the handle at or past the end. -/
theorem File.Write_keeps (f : File) (bs : List Nat) (o : WriteOutcome) (h : f.AtEnd) :
    f.data <+: (f.Write bs o).1.data ∧ (f.Write bs o).1.AtEnd := by
  unfold File.AtEnd at h
  constructor
  · simp only [File.Write, writeAt]
    rw [List.take_of_length_le h, List.append_assoc, List.append_assoc]
    exact List.prefix_append _ _
  · unfold File.AtEnd
    rw [File.writeOffset_Write]
    simp only [File.Write, length_writeAt]
    omega

/-- Processing one entry through a handle that is at or past the end of the
file keeps the content as a prefix and leaves the handle at or past the end. -/
theorem processEntry_keeps {Req : Type} (P : Protocol Req) (l : log) (x : entry Req)
    (h : l.file.AtEnd) :
    l.file.data <+: (processEntry P l x).1.file.data ∧ (processEntry P l x).1.file.AtEnd := by
  simp only [processEntry]
  split
  · exact ⟨List.prefix_refl _, h⟩
  · rename_i bytes _
    have h1 := File.Write_keeps l.file
      (entryHeader.mk x.shardId (l.state.getNextRequestNumber).1 (uint32 bytes.length)).bytes
      x.hdrWrite h
    have h2 := File.Write_keeps _ bytes x.payloadWrite h1.2
    split
    · rw [entryHeader.Write_fst]; exact h1
    · split
      · rw [entryHeader.Write_fst]; exact ⟨h1.1.trans h2.1, h2.2⟩
      · split
        · rw [entryHeader.Write_fst]; exact ⟨h1.1.trans h2.1, h2.2⟩
        · rw [entryHeader.Write_fst]; exact ⟨h1.1.trans h2.1, h2.2⟩

/-- Processing entries through a handle that is at or past the end of the file
keeps the content as a prefix. -/
theorem processEntries_keeps {Req : Type} (P : Protocol Req) (xs : List (entry Req)) :
    ∀ l : log, l.file.AtEnd →
      l.file.data <+: (processEntries P l xs).1.file.data ∧
      (processEntries P l xs).1.file.AtEnd := by
  induction xs with
  | nil => exact fun l h => ⟨List.prefix_refl _, h⟩
  | cons x xs ih =>
    intro l h
    have h1 := processEntry_keeps P l x h
    have h2 := ih (processEntry P l x).1 h1.2
    exact ⟨h1.1.trans h2.1, h2.2⟩

/-- C20 (amended): when the handle of the log file writes at or past the end
of the file (it was opened with `O_APPEND`, or its offset is there), an append,
successful or failed, leaves the earlier content in place: the content before
the append is a prefix of the content after it, and the handle still writes at
or past the end, so the same holds for every run of appends. -/
theorem append_keeps_earlier_bytes {Req : Type} (P : Protocol Req) (l : log) (request : Req)
    (shardId : Nat) (hdrWrite payloadWrite : WriteOutcome) (xs : List (entry Req))
    (h : l.file.AtEnd) :
    l.file.data <+: (appendRequest P l request shardId hdrWrite payloadWrite).1.file.data ∧
    (appendRequest P l request shardId hdrWrite payloadWrite).1.file.AtEnd ∧
    l.file.data <+: (processEntries P l xs).1.file.data := by
  have h1 := processEntry_keeps P l ⟨request, shardId, hdrWrite, payloadWrite⟩ h
  exact ⟨h1.1, h1.2, (processEntries_keeps P xs l h).1⟩

/-- C20 on the log of the replay scenario, opened for appending: a successful
append and an append whose payload write fails. -/
theorem append_keeps_earlier_bytes_witness :
    scenarioLog.file.AtEnd ∧
    scenarioLog.file.data <+:
      (appendRequest rawProtocol scenarioLog [106] 1 ⟨12, none⟩ ⟨1, none⟩).1.file.data ∧
    (appendRequest rawProtocol scenarioLog [106] 1 ⟨12, none⟩ ⟨1, none⟩).1.file.AtEnd ∧
    scenarioLog.file.data <+:
      (processEntries rawProtocol scenarioLog
        [⟨[106], 1, ⟨12, none⟩, ⟨0, some "disk full"⟩⟩]).1.file.data :=
  ⟨by decide, append_keeps_earlier_bytes rawProtocol scenarioLog [106] 1 ⟨12, none⟩ ⟨1, none⟩
    [⟨[106], 1, ⟨12, none⟩, ⟨0, some "disk full"⟩⟩] (by decide)⟩

/-- C20, counterexample: the file of the replay scenario opened without
`O_APPEND`, the handle at offset 0.  The append succeeds and its header
replaces the first twelve bytes of the file: the content before the append is
not a prefix of the content after it. -/
theorem append_overwrites_at_offset_zero :
    (appendRequest rawProtocol (newLog ⟨scenarioData, 0, false⟩) [106] 9
      ⟨12, none⟩ ⟨1, none⟩).2 = (1, none) ∧
    scenarioData.take 12 = [0, 0, 0, 1, 0, 0, 0, 1, 0, 0, 0, 1] ∧
    (appendRequest rawProtocol (newLog ⟨scenarioData, 0, false⟩) [106] 9
      ⟨12, none⟩ ⟨1, none⟩).1.file.data.take 12 = [0, 0, 0, 9, 0, 0, 0, 1, 0, 0, 0, 1] ∧
    ¬ (newLog ⟨scenarioData, 0, false⟩).file.data <+:
      (appendRequest rawProtocol (newLog ⟨scenarioData, 0, false⟩) [106] 9
        ⟨12, none⟩ ⟨1, none⟩).1.file.data := by
  refine ⟨by decide, by decide, by decide, ?_⟩
  intro h
  have h12 := congrArg (fun d => d.getD 3 0) (List.prefix_iff_eq_take.mp h)
  revert h12
  decide

/-! ## Confirmations -/

/-- C23: for every entry, in every state of the log, one iteration of
`processEntries` sends exactly one confirmation on the entry's channel, on the
success path and on each failure path; it is the confirmation whose number and
error `appendRequest` returns, and a run over any entries sends as many
confirmations as there are entries. -/
theorem processEntries_confirms_once {Req : Type} (P : Protocol Req) (l : log)
    (x : entry Req) :
    (processEntrySends P l x).2.length = 1 ∧
    processEntrySends P l x = ((processEntry P l x).1, [(processEntry P l x).2]) ∧
    (appendRequest P l x.request x.shardId x.hdrWrite x.payloadWrite).2 =
      ((processEntry P l x).2.requestNumber, (processEntry P l x).2.err) ∧
    (∀ xs : List (entry Req), (processEntries P l xs).2.length = xs.length) := by
  have hsends : processEntrySends P l x = ((processEntry P l x).1, [(processEntry P l x).2]) := by
    simp only [processEntrySends, processEntry]
    split
    · rfl
    · split
      · rfl
      · split
        · rfl
        · split <;> rfl
  have hlen : ∀ (xs : List (entry Req)) (l0 : log),
      (processEntries P l0 xs).2.length = xs.length := by
    intro xs
    induction xs with
    | nil => intro l0; rfl
    | cons y ys ih =>
      intro l0
      simp only [processEntries, List.length_cons]
      rw [ih]
  exact ⟨by rw [hsends]; rfl, hsends, rfl, fun xs => hlen xs l⟩

/-! ## Failed encodings -/

/-- C25: when the request does not encode, `appendRequest` returns the error
with the number 0 and the log as it was, file and request counter included, so
every append made after it does what it would have done without it. -/
theorem appendRequest_encode_failure {Req : Type} (P : Protocol Req) (l : log) (request : Req)
    (shardId : Nat) (hdrWrite payloadWrite : WriteOutcome) (e : Error)
    (henc : P.Encode request = .error e) :
    appendRequest P l request shardId hdrWrite payloadWrite = (l, 0, some e) ∧
    (appendRequest P l request shardId hdrWrite payloadWrite).1.file.data = l.file.data ∧
    (appendRequest P l request shardId hdrWrite payloadWrite).1.state = l.state ∧
    (∀ (request2 : Req) (shardId2 : Nat) (hdrWrite2 payloadWrite2 : WriteOutcome),
      appendRequest P (appendRequest P l request shardId hdrWrite payloadWrite).1 request2
          shardId2 hdrWrite2 payloadWrite2 =
        appendRequest P l request2 shardId2 hdrWrite2 payloadWrite2) := by
  have h : appendRequest P l request shardId hdrWrite payloadWrite = (l, 0, some e) := by
    simp only [appendRequest, processEntry, henc]
  rw [h]
  exact ⟨rfl, rfl, rfl, fun _ _ _ _ => rfl⟩

/-- C25 on a fresh log: the empty request does not encode, and the append
after it gets the number 1, as it does on the fresh log. -/
theorem appendRequest_encode_failure_witness :
    pickyProtocol.Encode [] = .error "empty request" ∧
    appendRequest pickyProtocol (newLog ⟨[], 0, true⟩) [] 1 ⟨12, none⟩ ⟨0, none⟩ =
      (newLog ⟨[], 0, true⟩, 0, some "empty request") ∧
    (appendRequest pickyProtocol
      (appendRequest pickyProtocol (newLog ⟨[], 0, true⟩) [] 1 ⟨12, none⟩ ⟨0, none⟩).1
      [101] 1 ⟨12, none⟩ ⟨1, none⟩).2 = (1, none) :=
  ⟨rfl,
    (appendRequest_encode_failure pickyProtocol (newLog ⟨[], 0, true⟩) [] 1 ⟨12, none⟩
      ⟨0, none⟩ "empty request" rfl).1,
    by decide⟩

/-! ## Complete records -/

/-- Writing at the end of the content appends. -/
theorem writeAt_end (d bs : List Nat) : writeAt d d.length bs = d ++ bs := by
  simp [writeAt]

/-- The length field read back from the bytes of a header. -/
theorem parse_bytes_length (h : entryHeader) :
    (entryHeader.parse h.bytes).length = uint32 h.length := by
  obtain ⟨a, b, c⟩ := h
  simp only [entryHeader.parse, entryHeader.bytes, putUint32, slice, getUint32, uint32]
  simp only [List.cons_append, List.nil_append, List.drop, List.take, List.getD_cons_zero,
    List.getD_cons_succ]
  omega

/-- A concatenation of complete records followed by one more complete record. -/
theorem CompleteRecords_append (data hb payload : List Nat) (h : CompleteRecords data)
    (h12 : hb.length = 12) (hlen : (entryHeader.parse hb).length = payload.length) :
    CompleteRecords (data ++ hb ++ payload) := by
  obtain ⟨recs, hall, hd⟩ := h
  refine ⟨recs ++ [(hb, payload)], ?_, ?_⟩
  · intro r hr
    rcases List.mem_append.mp hr with hr | hr
    · exact hall r hr
    · simp only [List.mem_singleton] at hr
      subst hr
      exact ⟨h12, hlen⟩
  · simp [hd, List.append_assoc]

/-- A non-empty concatenation of complete records starts with a complete
record. -/
theorem CompleteRecords_head (data : List Nat) (h : CompleteRecords data) :
    data = [] ∨ 12 + (entryHeader.parse (data.take 12)).length ≤ data.length := by
  obtain ⟨recs, hall, hd⟩ := h
  cases recs with
  | nil => left; simpa using hd
  | cons r rest =>
    right
    obtain ⟨h12, hlen⟩ := hall r (List.mem_cons_self _ _)
    have htake : data.take 12 = r.1 := by
      rw [hd, List.map_cons, List.flatten_cons, List.append_assoc,
        List.take_append_of_le_length (by omega), List.take_of_length_le (by omega)]
    rw [htake, hlen, hd]
    simp only [List.map_cons, List.flatten_cons, List.length_append]
    omega

/-- A successful append through a handle at the end of a file of complete
records, for a request shorter than 2^32 bytes, leaves a file of complete
records with the handle at its end; an append that fails at the encoding leaves
the log as it was. -/
theorem processEntry_CompleteRecords {Req : Type} (P : Protocol Req) (l : log) (x : entry Req)
    (hoff : l.file.writeOffset = l.file.data.length) (hrec : CompleteRecords l.file.data)
    (hsize : ∀ bytes, P.Encode x.request = .ok bytes → bytes.length < 4294967296)
    (hok : (processEntry P l x).2.err = none ∨ ∃ e, P.Encode x.request = .error e) :
    (processEntry P l x).1.file.writeOffset = (processEntry P l x).1.file.data.length ∧
    CompleteRecords (processEntry P l x).1.file.data := by
  rcases hok with hok | ⟨e, he⟩
  · obtain ⟨bytes, henc, -, -, hdata, hwo⟩ := processEntry_ok P l x hok
    have hb := hsize bytes henc
    have hdata2 : (processEntry P l x).1.file.data =
        l.file.data ++ (entryHeader.mk x.shardId (uint32 (l.state.CurrentRequestNumber + 1))
          (uint32 bytes.length)).bytes ++ bytes := by
      rw [hdata, hoff, writeAt_end]
      have hl : l.file.data.length + 12 = (l.file.data ++ (entryHeader.mk x.shardId
          (uint32 (l.state.CurrentRequestNumber + 1)) (uint32 bytes.length)).bytes).length := by
        rw [List.length_append, length_bytes]
      rw [hl, writeAt_end]
    constructor
    · rw [hwo, hdata2, hoff]
      simp only [List.length_append, length_bytes]
    · rw [hdata2]
      apply CompleteRecords_append _ _ _ hrec (length_bytes _)
      rw [parse_bytes_length]
      simp only [uint32]
      omega
  · have hsame : (processEntry P l x).1 = l := by
      simp only [processEntry, he]
    rw [hsame]
    exact ⟨hoff, hrec⟩

/-- A run of appends each of which succeeds or fails at the encoding, through
a handle at the end of a file of complete records. -/
theorem processEntries_CompleteRecords {Req : Type} (P : Protocol Req) (xs : List (entry Req)) :
    ∀ l : log, l.file.writeOffset = l.file.data.length → CompleteRecords l.file.data →
      (∀ x ∈ xs, ∀ bytes, P.Encode x.request = .ok bytes → bytes.length < 4294967296) →
      (∀ p ∈ xs.zip (processEntries P l xs).2,
        p.2.err = none ∨ ∃ e, P.Encode p.1.request = .error e) →
      CompleteRecords (processEntries P l xs).1.file.data := by
  induction xs with
  | nil => exact fun l _ hrec _ _ => hrec
  | cons x xs ih =>
    intro l hoff hrec hsize hok
    simp only [processEntries, List.zip_cons_cons, List.mem_cons] at hok ⊢
    have h1 := processEntry_CompleteRecords P l x hoff hrec
      (hsize x (List.mem_cons_self _ _)) (hok _ (Or.inl rfl))
    exact ih (processEntry P l x).1 h1.1 h1.2
      (fun y hy => hsize y (List.mem_cons_of_mem _ hy)) (fun p hp => hok p (Or.inr hp))

/-- C24 (amended): after any sequence of appends on a log opened on an empty
file, each of which succeeds or fails at the encoding of its request, with
encoded requests shorter than 2^32 bytes, the log file is a concatenation of
complete records, each a header followed by exactly `length` payload bytes. -/
theorem appends_leave_complete_records {Req : Type} (P : Protocol Req) (appendMode : Bool)
    (xs : List (entry Req))
    (hsize : ∀ x ∈ xs, ∀ bytes, P.Encode x.request = .ok bytes → bytes.length < 4294967296)
    (hok : ∀ p ∈ xs.zip (processEntries P (newLog ⟨[], 0, appendMode⟩) xs).2,
      p.2.err = none ∨ ∃ e, P.Encode p.1.request = .error e) :
    CompleteRecords (processEntries P (newLog ⟨[], 0, appendMode⟩) xs).1.file.data := by
  apply processEntries_CompleteRecords P xs _ _ _ hsize hok
  · cases appendMode <;> rfl
  · exact ⟨[], fun r hr => by simp at hr, rfl⟩

/-- C24 for three appends on a fresh log: a request of one byte, a request
that does not encode, and a request of two bytes. -/
theorem appends_leave_complete_records_witness :
    (processEntries pickyProtocol (newLog ⟨[], 0, true⟩)
      [⟨[101], 1, ⟨12, none⟩, ⟨1, none⟩⟩, ⟨[], 1, ⟨12, none⟩, ⟨0, none⟩⟩,
        ⟨[102, 103], 2, ⟨12, none⟩, ⟨2, none⟩⟩]).2 =
      [⟨1, none⟩, ⟨0, some "empty request"⟩, ⟨2, none⟩] ∧
    CompleteRecords (processEntries pickyProtocol (newLog ⟨[], 0, true⟩)
      [⟨[101], 1, ⟨12, none⟩, ⟨1, none⟩⟩, ⟨[], 1, ⟨12, none⟩, ⟨0, none⟩⟩,
        ⟨[102, 103], 2, ⟨12, none⟩, ⟨2, none⟩⟩]).1.file.data :=
  ⟨by decide,
    appends_leave_complete_records pickyProtocol true
      [⟨[101], 1, ⟨12, none⟩, ⟨1, none⟩⟩, ⟨[], 1, ⟨12, none⟩, ⟨0, none⟩⟩,
        ⟨[102, 103], 2, ⟨12, none⟩, ⟨2, none⟩⟩]
      (by
        intro x hx bytes hb
        simp only [List.mem_cons, List.mem_singleton, List.not_mem_nil, or_false] at hx
        rcases hx with rfl | rfl | rfl <;> simp [pickyProtocol] at hb <;> subst hb <;> decide)
      (by
        intro p hp
        have e : (processEntries pickyProtocol (newLog ⟨[], 0, true⟩)
            [⟨[101], 1, ⟨12, none⟩, ⟨1, none⟩⟩, ⟨[], 1, ⟨12, none⟩, ⟨0, none⟩⟩,
              ⟨[102, 103], 2, ⟨12, none⟩, ⟨2, none⟩⟩]).2 =
            [⟨1, none⟩, ⟨0, some "empty request"⟩, ⟨2, none⟩] := by decide
        rw [e] at hp
        simp only [List.zip_cons_cons, List.zip_nil_right, List.mem_cons, List.mem_singleton,
          List.not_mem_nil, or_false] at hp
        rcases hp with rfl | rfl | rfl
        · exact Or.inl rfl
        · exact Or.inr ⟨"empty request", rfl⟩
        · exact Or.inl rfl)⟩

/-- C24, counterexample: on a log opened on an empty file, an append of a
two-byte request whose payload write fails after one byte leaves thirteen
bytes, a header that announces two payload bytes and one byte after it; and an
append whose header write fails after five bytes leaves five bytes.  Neither
file is a concatenation of complete records. -/
theorem failed_write_leaves_partial_record :
    (appendRequest rawProtocol (newLog ⟨[], 0, true⟩) [101, 102] 1 ⟨12, none⟩
      ⟨1, some "disk full"⟩).2 = (0, some "disk full") ∧
    (appendRequest rawProtocol (newLog ⟨[], 0, true⟩) [101, 102] 1 ⟨12, none⟩
      ⟨1, some "disk full"⟩).1.file.data = [0, 0, 0, 1, 0, 0, 0, 1, 0, 0, 0, 2, 101] ∧
    ¬ CompleteRecords (appendRequest rawProtocol (newLog ⟨[], 0, true⟩) [101, 102] 1
      ⟨12, none⟩ ⟨1, some "disk full"⟩).1.file.data ∧
    (appendRequest rawProtocol (newLog ⟨[], 0, true⟩) [101, 102] 1 ⟨5, some "disk full"⟩
      ⟨2, none⟩).1.file.data = [0, 0, 0, 1, 0] ∧
    ¬ CompleteRecords (appendRequest rawProtocol (newLog ⟨[], 0, true⟩) [101, 102] 1
      ⟨5, some "disk full"⟩ ⟨2, none⟩).1.file.data := by
  have e1 : (appendRequest rawProtocol (newLog ⟨[], 0, true⟩) [101, 102] 1 ⟨12, none⟩
      ⟨1, some "disk full"⟩).1.file.data = [0, 0, 0, 1, 0, 0, 0, 1, 0, 0, 0, 2, 101] := by
    decide
  have e2 : (appendRequest rawProtocol (newLog ⟨[], 0, true⟩) [101, 102] 1
      ⟨5, some "disk full"⟩ ⟨2, none⟩).1.file.data = [0, 0, 0, 1, 0] := by decide
  refine ⟨by decide, e1, ?_, e2, ?_⟩
  · rw [e1]
    intro h
    rcases CompleteRecords_head _ h with h | h
    · exact absurd h (by decide)
    · revert h
      decide
  · rw [e2]
    intro h
    rcases CompleteRecords_head _ h with h | h
    · exact absurd h (by decide)
    · revert h
      decide

end wal

namespace datastore

/-- Reading the registry at an id whose entries were filtered out finds
nothing. -/
theorem lookup_filter_self (id : Nat) (l : List (Nat × LevelDbShard)) :
    (l.filter (fun e => e.1 ≠ id)).lookup id = none := by
  induction l with
  | nil => rfl
  | cons e l ih =>
    obtain ⟨k, v⟩ := e
    by_cases h : k = id
    · rw [List.filter_cons_of_neg (by simpa using h)]
      exact ih
    · have hne : (id == k) = false := by
        simp only [beq_eq_false_iff_ne, ne_eq]
        exact fun h2 => h h2.symm
      rw [List.filter_cons_of_pos (by simpa using h), List.lookup_cons, hne]
      exact ih

/-- Reading the registry at another id is not affected by filtering out the
entries of `id`. -/
theorem lookup_filter_other (id j : Nat) (hj : j ≠ id) (l : List (Nat × LevelDbShard)) :
    (l.filter (fun e => e.1 ≠ id)).lookup j = l.lookup j := by
  induction l with
  | nil => rfl
  | cons e l ih =>
    obtain ⟨k, v⟩ := e
    by_cases h : k = id
    · have hne : (j == k) = false := by
        simp only [beq_eq_false_iff_ne, ne_eq]
        exact fun h2 => hj (h2.trans h)
      rw [List.filter_cons_of_neg (by simpa using h), List.lookup_cons, hne]
      exact ih
    · rw [List.filter_cons_of_pos (by simpa using h), List.lookup_cons, List.lookup_cons, ih]

/-- C9: after `DeleteShard(id)` the registry has no entry for `id`, whatever
the directory removal did, and the error returned is the error of the removal;
when the removal fails with `e`, `DeleteShard` returns `e` and the entry is
gone all the same. -/
theorem DeleteShard_unregisters (self : LevelDbShardDatastore) (w : World) (id : Nat)
    (removal : RemoveOutcome) :
    (self.DeleteShard w id removal).1.lookup id = none ∧
    (self.DeleteShard w id removal).2.2 = removal.err ∧
    (∀ e left,
      (self.DeleteShard w id (RemoveOutcome.failed e left)).2.2 = some e ∧
      (self.DeleteShard w id (RemoveOutcome.failed e left)).1.lookup id = none) := by
  refine ⟨lookup_filter_self id self.shards, ?_, fun e left => ⟨rfl, lookup_filter_self id self.shards⟩⟩
  cases removal <;> rfl


/-- A registry read that finds a shard finds one of the entries. -/
theorem mem_of_lookup (id : Nat) (db : LevelDbShard) (l : List (Nat × LevelDbShard))
    (h : l.lookup id = some db) : (id, db) ∈ l := by
  induction l with
  | nil => simp at h
  | cons e l ih =>
    obtain ⟨k, v⟩ := e
    rw [List.lookup_cons] at h
    by_cases hk : (id == k) = true
    · rw [hk] at h
      have hv : v = db := Option.some.inj h
      have hid : id = k := by simpa using hk
      subst hv hid
      exact List.mem_cons_self _ _
    · have hk2 : (id == k) = false := by simpa using hk
      rw [hk2] at h
      exact List.mem_cons_of_mem _ (ih h)

/-- With an entry for `id` in the registry, `GetOrCreateShard(id)` returns it
and touches neither the datastore nor the world. -/
theorem GetOrCreateShard_hit (self : LevelDbShardDatastore) (w : World) (id : Nat)
    (openErr newErr : Option Error) (db : LevelDbShard) (h : self.lookup id = some db) :
    self.GetOrCreateShard w id openErr newErr = (self, w, .ok db) := by
  simp only [LevelDbShardDatastore.GetOrCreateShard, h]

/-- The registry read at `id` after `self.shards[id] = db`. -/
theorem lookup_insert (self : LevelDbShardDatastore) (id : Nat) (db : LevelDbShard) :
    LevelDbShardDatastore.lookup
      { self with shards := (id, db) :: self.shards.filter (fun e => e.1 ≠ id) } id = some db := by
  simp [LevelDbShardDatastore.lookup, List.lookup_cons]

/-- The registry read at another id after `self.shards[id] = db`. -/
theorem lookup_insert_other (self : LevelDbShardDatastore) (id j : Nat) (hj : j ≠ id)
    (db : LevelDbShard) :
    LevelDbShardDatastore.lookup
      { self with shards := (id, db) :: self.shards.filter (fun e => e.1 ≠ id) } j =
      self.lookup j := by
  have hne : (j == id) = false := by simpa using hj
  simp only [LevelDbShardDatastore.lookup, List.lookup_cons, hne]
  exact lookup_filter_other id j hj self.shards

/-- What a call of `GetOrCreateShard` that finds no entry and succeeds leaves
behind. -/
theorem GetOrCreateShard_miss (self self1 : LevelDbShardDatastore) (w w1 : World) (id : Nat)
    (openErr newErr : Option Error) (db : LevelDbShard) (hl : self.lookup id = none)
    (h : self.GetOrCreateShard w id openErr newErr = (self1, w1, .ok db)) :
    db = ⟨w.nextDb⟩ ∧
    self1 = { self with shards := (id, db) :: self.shards.filter (fun e => e.1 ≠ id) } ∧
    w1.closed = w.closed ∧ w1.nextDb = w.nextDb + 1 ∧
    w1.events = w.events ++
      [Event.levigoOpen (self.shardDir id) none, Event.newLevelDbShard db.db none] := by
  cases openErr with
  | some e => simp [LevelDbShardDatastore.GetOrCreateShard, hl, World.levigoOpen] at h
  | none =>
    cases newErr with
    | some e =>
      simp [LevelDbShardDatastore.GetOrCreateShard, hl, World.levigoOpen,
        World.NewLevelDbShard] at h
    | none =>
      simp only [LevelDbShardDatastore.GetOrCreateShard, hl, World.levigoOpen,
        World.NewLevelDbShard, Prod.mk.injEq, Except.ok.injEq] at h
      obtain ⟨h1, h2, h3⟩ := h
      subst h1 h2 h3
      simp

/-- A call of `GetOrCreateShard`, for any id, keeps the entry of a registered
id. -/
theorem GetOrCreateShard_keeps (self : LevelDbShardDatastore) (w : World) (id j : Nat)
    (openErr newErr : Option Error) (db : LevelDbShard) (h : self.lookup id = some db) :
    (self.GetOrCreateShard w j openErr newErr).1.lookup id = some db := by
  by_cases hj : id = j
  · subst hj
    rw [GetOrCreateShard_hit self w id openErr newErr db h]
    exact h
  · cases hl : self.lookup j with
    | some d =>
      rw [GetOrCreateShard_hit self w j openErr newErr d hl]
      exact h
    | none =>
      cases openErr with
      | some e =>
        simp only [LevelDbShardDatastore.GetOrCreateShard, hl, World.levigoOpen]
        exact h
      | none =>
        cases newErr with
        | some e =>
          simp only [LevelDbShardDatastore.GetOrCreateShard, hl, World.levigoOpen,
            World.NewLevelDbShard]
          exact h
        | none =>
          simp only [LevelDbShardDatastore.GetOrCreateShard, hl, World.levigoOpen,
            World.NewLevelDbShard]
          rw [lookup_insert_other self j id hj]
          exact h

/-- A call other than `DeleteShard(id)` keeps the entry of a registered id. -/
theorem exec_keeps (s : LevelDbShardDatastore × World) (id : Nat) (db : LevelDbShard)
    (c : Call) (hc : c.deletes id = false) (h : s.1.lookup id = some db) :
    (exec s c).1.lookup id = some db := by
  cases c with
  | GetOrCreateShard j openErr newErr =>
    exact GetOrCreateShard_keeps s.1 s.2 id j openErr newErr db h
  | DeleteShard j removal =>
    have hj : id ≠ j := by
      intro e
      simp [Call.deletes, e] at hc
    simp only [exec, LevelDbShardDatastore.DeleteShard, LevelDbShardDatastore.lookup]
    rw [lookup_filter_other j id hj]
    exact h
  | Close => exact h

/-- Calls none of which is `DeleteShard(id)` keep the entry of a registered
id. -/
theorem run_keeps (id : Nat) (db : LevelDbShard) (calls : List Call)
    (s : LevelDbShardDatastore × World) (hc : ∀ c ∈ calls, c.deletes id = false)
    (h : s.1.lookup id = some db) : (run s calls).1.lookup id = some db := by
  induction calls generalizing s with
  | nil => exact h
  | cons c cs ih =>
    exact ih (exec s c) (fun c2 h2 => hc c2 (List.mem_cons_of_mem _ h2))
      (exec_keeps s id db c (hc c (List.mem_cons_self _ _)) h)

/-- A successful `GetOrCreateShard(id)` leaves an entry for `id` that holds the
shard it returned. -/
theorem GetOrCreateShard_registers (self self1 : LevelDbShardDatastore) (w w1 : World) (id : Nat)
    (openErr newErr : Option Error) (db : LevelDbShard)
    (h : self.GetOrCreateShard w id openErr newErr = (self1, w1, .ok db)) :
    self1.lookup id = some db := by
  cases hl : self.lookup id with
  | some d =>
    rw [GetOrCreateShard_hit self w id openErr newErr d hl] at h
    simp only [Prod.mk.injEq, Except.ok.injEq] at h
    obtain ⟨h1, -, h3⟩ := h
    subst h1 h3
    exact hl
  | none =>
    obtain ⟨-, h2, -⟩ := GetOrCreateShard_miss self self1 w w1 id openErr newErr db hl h
    rw [h2]
    exact lookup_insert self id db

/-- Further calls of `GetOrCreateShard(id)` on a datastore with an entry for
`id` change nothing. -/
theorem run_GetOrCreateShard_again (id : Nat) (db : LevelDbShard)
    (s : LevelDbShardDatastore × World) (h : s.1.lookup id = some db)
    (outcomes : List (Option Error × Option Error)) :
    run s (outcomes.map fun o => Call.GetOrCreateShard id o.1 o.2) = s := by
  induction outcomes with
  | nil => rfl
  | cons o os ih =>
    simp only [List.map_cons, run, exec]
    rw [GetOrCreateShard_hit s.1 s.2 id o.1 o.2 db h]
    exact ih

/-- The successful opens after two more events. -/
theorem opens_append (es fs : List Event) : opens (es ++ fs) = opens es + opens fs := by
  simp [opens, List.filter_append]

/-- A run of `GetOrCreateShard(id)` calls on a datastore with no entry for
`id`, none of which fails at `NewLevelDbShard` after its open succeeded: one
open succeeds when some call of the run has a successful open, and none
otherwise. -/
theorem run_GetOrCreateShard_opens (id : Nat) (outcomes : List (Option Error × Option Error)) :
    ∀ s : LevelDbShardDatastore × World, s.1.lookup id = none →
      (∀ o ∈ outcomes, o.1 = none → o.2 = none) →
      opens (run s (outcomes.map fun o => Call.GetOrCreateShard id o.1 o.2)).2.events =
        opens s.2.events + (if outcomes.any (fun o => o.1.isNone) then 1 else 0) := by
  induction outcomes with
  | nil => intro s _ _; simp [run]
  | cons o os ih =>
    intro s hl ho
    obtain ⟨oe, ne⟩ := o
    cases oe with
    | some e =>
      have hstep : exec s (Call.GetOrCreateShard id (some e) ne) =
          (s.1, { s.2 with
            events := s.2.events ++ [Event.levigoOpen (s.1.shardDir id) (some e)] }) := by
        simp [exec, LevelDbShardDatastore.GetOrCreateShard, hl, World.levigoOpen]
      simp only [List.map_cons, run, hstep]
      refine (ih (s.1, { s.2 with
        events := s.2.events ++ [Event.levigoOpen (s.1.shardDir id) (some e)] }) hl
        (fun o h => ho o (List.mem_cons_of_mem _ h))).trans ?_
      have e1 : opens (s.2.events ++ [Event.levigoOpen (s.1.shardDir id) (some e)]) =
          opens s.2.events := by
        rw [opens_append]
        simp [opens]
      have e2 : ((some e, ne) :: os).any (fun o => o.1.isNone) =
          os.any (fun o => o.1.isNone) := by simp
      show opens (s.2.events ++ [Event.levigoOpen (s.1.shardDir id) (some e)]) + _ = _
      rw [e1, e2]
    | none =>
      have hne : ne = none := ho (none, ne) (List.mem_cons_self _ _) rfl
      subst hne
      have hstep : exec s (Call.GetOrCreateShard id none none) =
          ({ s.1 with shards := (id, ⟨s.2.nextDb⟩) :: s.1.shards.filter (fun e => e.1 ≠ id) },
            { s.2 with
              nextDb := s.2.nextDb + 1
              openDbs := s.2.nextDb :: s.2.openDbs
              paths := if s.1.shardDir id ∈ s.2.paths then s.2.paths
                else s.1.shardDir id :: s.2.paths
              events := s.2.events ++ [Event.levigoOpen (s.1.shardDir id) none] ++
                [Event.newLevelDbShard s.2.nextDb none] }) := by
        simp [exec, LevelDbShardDatastore.GetOrCreateShard, hl, World.levigoOpen,
          World.NewLevelDbShard]
      simp only [List.map_cons, run, hstep]
      have hsame := run_GetOrCreateShard_again id ⟨s.2.nextDb⟩
        ({ s.1 with shards := (id, ⟨s.2.nextDb⟩) :: s.1.shards.filter (fun e => e.1 ≠ id) },
          { s.2 with
            nextDb := s.2.nextDb + 1
            openDbs := s.2.nextDb :: s.2.openDbs
            paths := if s.1.shardDir id ∈ s.2.paths then s.2.paths
              else s.1.shardDir id :: s.2.paths
            events := s.2.events ++ [Event.levigoOpen (s.1.shardDir id) none] ++
              [Event.newLevelDbShard s.2.nextDb none] })
        (lookup_insert s.1 id ⟨s.2.nextDb⟩) os
      rw [hsame]
      simp [opens_append, opens]

/-- C7 (amended): when `GetOrCreateShard(id)` succeeds with the shard `db`,
then after any further calls none of which is `DeleteShard(id)`, another
`GetOrCreateShard(id)` returns the same shard `db` and leaves the datastore
(the registry with it) and the world (so no open of a store happens) as they
were.  The successful call itself opened one store when the registry had no
entry for `id` and none when it had one, and any number of further
`GetOrCreateShard(id)` calls that follow it leave the state unchanged.  Over
any sequence of `GetOrCreateShard(id)` calls on a datastore with no entry for
`id`, none of which fails at `NewLevelDbShard` after its open succeeded, one
open succeeds when the open of some call succeeds, and none otherwise. -/
theorem GetOrCreateShard_again (self self1 : LevelDbShardDatastore) (w w1 : World) (id : Nat)
    (openErr newErr : Option Error) (db : LevelDbShard)
    (h : self.GetOrCreateShard w id openErr newErr = (self1, w1, .ok db))
    (calls : List Call) (hcalls : ∀ c ∈ calls, c.deletes id = false)
    (openErr2 newErr2 : Option Error) :
    (run (self1, w1) calls).1.GetOrCreateShard (run (self1, w1) calls).2 id openErr2 newErr2 =
      ((run (self1, w1) calls).1, (run (self1, w1) calls).2, .ok db) ∧
    opens w1.events = opens w.events + (if (self.lookup id).isNone then 1 else 0) ∧
    (∀ outcomes : List (Option Error × Option Error),
      run (self1, w1) (outcomes.map fun o => Call.GetOrCreateShard id o.1 o.2) = (self1, w1)) ∧
    (∀ (s : LevelDbShardDatastore × World) (outcomes : List (Option Error × Option Error)),
      s.1.lookup id = none → (∀ o ∈ outcomes, o.1 = none → o.2 = none) →
      opens (run s (outcomes.map fun o => Call.GetOrCreateShard id o.1 o.2)).2.events =
        opens s.2.events + (if outcomes.any (fun o => o.1.isNone) then 1 else 0)) := by
  have hreg := GetOrCreateShard_registers self self1 w w1 id openErr newErr db h
  refine ⟨?_, ?_, ?_, ?_⟩
  · exact GetOrCreateShard_hit _ _ id openErr2 newErr2 db
      (run_keeps id db calls (self1, w1) hcalls hreg)
  · cases hl : self.lookup id with
    | some d =>
      rw [GetOrCreateShard_hit self w id openErr newErr d hl] at h
      simp only [Prod.mk.injEq] at h
      obtain ⟨-, h2, -⟩ := h
      subst h2
      simp
    | none =>
      obtain ⟨-, -, -, -, h5⟩ := GetOrCreateShard_miss self self1 w w1 id openErr newErr db hl h
      rw [h5, opens_append]
      simp [opens]
  · exact fun outcomes => run_GetOrCreateShard_again id db (self1, w1) hreg outcomes
  · exact fun s outcomes hl ho => run_GetOrCreateShard_opens id outcomes s hl ho

/-- C7 on a fresh datastore: shard 7 is created, the datastore is closed,
shard 8 is created and dropped, and shard 7 is asked for again; and a run of
three calls for shard 7 on the fresh datastore, the first failing at the open,
makes one successful open. -/
theorem GetOrCreateShard_again_witness :
    (run ((sampleStore.GetOrCreateShard sampleWorld 7 none none).1,
        (sampleStore.GetOrCreateShard sampleWorld 7 none none).2.1)
      [Call.Close, Call.GetOrCreateShard 8 none none,
        Call.DeleteShard 8 RemoveOutcome.removed]).1.GetOrCreateShard
      (run ((sampleStore.GetOrCreateShard sampleWorld 7 none none).1,
        (sampleStore.GetOrCreateShard sampleWorld 7 none none).2.1)
      [Call.Close, Call.GetOrCreateShard 8 none none,
        Call.DeleteShard 8 RemoveOutcome.removed]).2 7 (some "open failed") none =
      ((run ((sampleStore.GetOrCreateShard sampleWorld 7 none none).1,
        (sampleStore.GetOrCreateShard sampleWorld 7 none none).2.1)
      [Call.Close, Call.GetOrCreateShard 8 none none,
        Call.DeleteShard 8 RemoveOutcome.removed]).1,
       (run ((sampleStore.GetOrCreateShard sampleWorld 7 none none).1,
        (sampleStore.GetOrCreateShard sampleWorld 7 none none).2.1)
      [Call.Close, Call.GetOrCreateShard 8 none none,
        Call.DeleteShard 8 RemoveOutcome.removed]).2, .ok ⟨0⟩) ∧
    opens (sampleStore.GetOrCreateShard sampleWorld 7 none none).2.1.events =
      opens sampleWorld.events + (if (sampleStore.lookup 7).isNone then 1 else 0) ∧
    (∀ outcomes : List (Option Error × Option Error),
      run ((sampleStore.GetOrCreateShard sampleWorld 7 none none).1,
        (sampleStore.GetOrCreateShard sampleWorld 7 none none).2.1)
        (outcomes.map fun o => Call.GetOrCreateShard 7 o.1 o.2) =
      ((sampleStore.GetOrCreateShard sampleWorld 7 none none).1,
        (sampleStore.GetOrCreateShard sampleWorld 7 none none).2.1)) ∧
    opens (run (sampleStore, sampleWorld)
      ([(some "locked", none), (none, none), (none, none)].map
        fun o => Call.GetOrCreateShard 7 o.1 o.2)).2.events = 1 :=
  have key := GetOrCreateShard_again sampleStore _ sampleWorld _ 7 none none ⟨0⟩ rfl
    [Call.Close, Call.GetOrCreateShard 8 none none, Call.DeleteShard 8 RemoveOutcome.removed]
    (by decide) (some "open failed") none
  ⟨key.1, key.2.1, key.2.2.1,
    key.2.2.2 (sampleStore, sampleWorld) [(some "locked", none), (none, none), (none, none)]
      rfl (by decide)⟩

/-- C7, counterexample: on a fresh datastore, one `GetOrCreateShard(7)` whose
open fails makes no successful open, and a `GetOrCreateShard(7)` that fails at
`NewLevelDbShard` after its open succeeded, followed by a `GetOrCreateShard(7)`
that succeeds, makes two: the number of successful opens over a sequence of
calls for one id is not always one. -/
theorem GetOrCreateShard_opens_none_or_two :
    opens (run (sampleStore, sampleWorld)
      [Call.GetOrCreateShard 7 (some "locked") none]).2.events = 0 ∧
    opens (run (sampleStore, sampleWorld)
      [Call.GetOrCreateShard 7 none (some "corrupt"),
        Call.GetOrCreateShard 7 none none]).2.events = 2 := by
  decide

/-- `os.RemoveAll` touches neither the shard handles nor the supply of store
handles. -/
theorem RemoveAll_closed (w : World) (dir : String) (o : RemoveOutcome) :
    (w.RemoveAll dir o).1.closed = w.closed ∧ (w.RemoveAll dir o).1.nextDb = w.nextDb := by
  cases o <;> exact ⟨rfl, rfl⟩

/-- `GetOrCreateShard` keeps the registry and the world consistent. -/
theorem Consistent_GetOrCreateShard (s : LevelDbShardDatastore × World) (id : Nat)
    (openErr newErr : Option Error) (hs : Consistent s) :
    Consistent ((s.1.GetOrCreateShard s.2 id openErr newErr).1,
      (s.1.GetOrCreateShard s.2 id openErr newErr).2.1) := by
  obtain ⟨self, w⟩ := s
  obtain ⟨h1, h2, h3, h4⟩ := hs
  cases hl : self.lookup id with
  | some d =>
    rw [GetOrCreateShard_hit self w id openErr newErr d hl]
    exact ⟨h1, h2, h3, h4⟩
  | none =>
    cases openErr with
    | some e =>
      simp only [LevelDbShardDatastore.GetOrCreateShard, hl, World.levigoOpen]
      exact ⟨h1, h2, h3, h4⟩
    | none =>
      cases newErr with
      | some e =>
        simp only [LevelDbShardDatastore.GetOrCreateShard, hl, World.levigoOpen,
          World.NewLevelDbShard]
        exact ⟨h1, fun e he => Nat.lt_succ_of_lt (h2 e he),
          fun d hd => Nat.lt_succ_of_lt (h3 d hd), h4⟩
      | none =>
        simp only [LevelDbShardDatastore.GetOrCreateShard, hl, World.levigoOpen,
          World.NewLevelDbShard]
        refine ⟨?_, ?_, fun d hd => Nat.lt_succ_of_lt (h3 d hd), ?_⟩
        · intro e he
          rcases List.mem_cons.mp he with rfl | he
          · exact fun hc => Nat.lt_irrefl _ (h3 _ hc)
          · exact h1 e (List.mem_of_mem_filter he)
        · intro e he
          rcases List.mem_cons.mp he with rfl | he
          · exact Nat.lt_succ_self _
          · exact Nat.lt_succ_of_lt (h2 e (List.mem_of_mem_filter he))
        · rw [List.map_cons, List.nodup_cons]
          refine ⟨?_, List.Nodup.sublist (List.Sublist.map _ (List.filter_sublist _)) h4⟩
          intro hm
          obtain ⟨e, he, heq⟩ := List.mem_map.mp hm
          have hlt := h2 e (List.mem_of_mem_filter he)
          rw [heq] at hlt
          exact Nat.lt_irrefl _ hlt

/-- `DeleteShard` keeps the registry and the world consistent. -/
theorem Consistent_DeleteShard (s : LevelDbShardDatastore × World) (id : Nat)
    (removal : RemoveOutcome) (hs : Consistent s) :
    Consistent ((s.1.DeleteShard s.2 id removal).1, (s.1.DeleteShard s.2 id removal).2.1) := by
  obtain ⟨self, w⟩ := s
  obtain ⟨h1, h2, h3, h4⟩ := hs
  have hnd : ((self.shards.filter (fun e => e.1 ≠ id)).map (fun e => e.2.db)).Nodup :=
    List.Nodup.sublist (List.Sublist.map _ (List.filter_sublist _)) h4
  cases hl : self.lookup id with
  | none =>
    simp only [Consistent, LevelDbShardDatastore.DeleteShard, hl, World.WellFormed,
      (RemoveAll_closed _ _ _).1, (RemoveAll_closed _ _ _).2]
    exact ⟨fun e he => h1 e (List.mem_of_mem_filter he),
      fun e he => h2 e (List.mem_of_mem_filter he), h3, hnd⟩
  | some db =>
    have hmem : (id, db) ∈ self.shards := mem_of_lookup id db self.shards hl
    simp only [Consistent, LevelDbShardDatastore.DeleteShard, hl, World.WellFormed,
      (RemoveAll_closed _ _ _).1, (RemoveAll_closed _ _ _).2, World.close]
    refine ⟨?_, fun e he => h2 e (List.mem_of_mem_filter he), ?_, hnd⟩
    · intro e he hc
      have hin : e ∈ self.shards := List.mem_of_mem_filter he
      rcases List.mem_cons.mp hc with heq | hc
      · have hee : e = (id, db) := List.inj_on_of_nodup_map h4 hin hmem heq
        have hne : e.1 ≠ id := by simpa using (List.mem_filter.mp he).2
        exact hne (by rw [hee])
      · exact h1 e hin hc
    · intro d hd
      rcases List.mem_cons.mp hd with rfl | hd
      · exact h2 (id, db) hmem
      · exact h3 d hd

/-- Calls other than `Close` keep the registry and the world consistent. -/
theorem Consistent_run (calls : List Call) (s : LevelDbShardDatastore × World)
    (hc : ∀ c ∈ calls, c.closes = false) (hs : Consistent s) : Consistent (run s calls) := by
  induction calls generalizing s with
  | nil => exact hs
  | cons c cs ih =>
    refine ih (exec s c) (fun c2 h2 => hc c2 (List.mem_cons_of_mem _ h2)) ?_
    cases c with
    | GetOrCreateShard id openErr newErr => exact Consistent_GetOrCreateShard s id openErr newErr hs
    | DeleteShard id removal => exact Consistent_DeleteShard s id removal hs
    | Close =>
      have := hc Call.Close (List.mem_cons_self _ _)
      simp [Call.closes] at this

/-- A fresh datastore is consistent with the world it was made in. -/
theorem Consistent_new (w w0 : World) (config : Configuration) (mkdirErr : Option Error)
    (self : LevelDbShardDatastore) (hw : w.WellFormed)
    (h : NewLevelDbShardDatastore w config mkdirErr = (w0, .ok self)) : Consistent (self, w0) := by
  cases mkdirErr with
  | some e => simp [NewLevelDbShardDatastore] at h
  | none =>
    simp only [NewLevelDbShardDatastore, Prod.mk.injEq, Except.ok.injEq] at h
    obtain ⟨h1, h2⟩ := h
    subst h1 h2
    exact ⟨fun e he => by simp at he, fun e he => by simp at he, hw, by simp⟩

/-- C8, for the calls `GetOrCreateShard` and `DeleteShard`: in every state
reached from a fresh datastore by a sequence of `GetOrCreateShard` and
`DeleteShard` calls, a shard that `GetOrCreateShard` returns without error is
in the `Open` state. -/
theorem GetOrCreateShard_returns_open (w w0 : World) (config : Configuration)
    (self0 : LevelDbShardDatastore) (hw : w.WellFormed)
    (hnew : NewLevelDbShardDatastore w config none = (w0, .ok self0))
    (calls : List Call) (hcalls : ∀ c ∈ calls, c.closes = false)
    (id : Nat) (openErr newErr : Option Error)
    (self1 : LevelDbShardDatastore) (w1 : World) (db : LevelDbShard)
    (h : (run (self0, w0) calls).1.GetOrCreateShard (run (self0, w0) calls).2 id openErr newErr =
      (self1, w1, .ok db)) :
    w1.shardState db = ShardState.Open := by
  have hs := Consistent_GetOrCreateShard (run (self0, w0) calls) id openErr newErr
    (Consistent_run calls (self0, w0) hcalls (Consistent_new w w0 config none self0 hw hnew))
  rw [h] at hs
  have hreg := GetOrCreateShard_registers _ self1 _ w1 id openErr newErr db h
  have hmem := mem_of_lookup id db self1.shards hreg
  have hopen : db.db ∉ w1.closed := hs.1 (id, db) hmem
  simp only [World.shardState, hopen, if_false]

/-- C8, amended, on a fresh datastore for `/data`: shard 1 is created and
dropped, and the shard then returned for id 1 is open. -/
theorem GetOrCreateShard_returns_open_witness :
    World.WellFormed World.empty ∧
    (∀ c ∈ [Call.GetOrCreateShard 1 none none, Call.DeleteShard 1 RemoveOutcome.removed],
      c.closes = false) ∧
    World.shardState
      ((run (sampleStore, sampleWorld)
        [Call.GetOrCreateShard 1 none none,
          Call.DeleteShard 1 RemoveOutcome.removed]).1.GetOrCreateShard
        (run (sampleStore, sampleWorld)
          [Call.GetOrCreateShard 1 none none, Call.DeleteShard 1 RemoveOutcome.removed]).2
        1 none none).2.1 ⟨1⟩ = ShardState.Open :=
  ⟨by intro d hd; simp [World.empty] at hd, by decide,
    GetOrCreateShard_returns_open World.empty sampleWorld ⟨"/data", 10⟩ sampleStore
      (by intro d hd; simp [World.empty] at hd) rfl
      [Call.GetOrCreateShard 1 none none, Call.DeleteShard 1 RemoveOutcome.removed]
      (by decide) 1 none none _ _ ⟨1⟩ rfl⟩

/-- C8 as stated fails: after `Close` the registry still holds the shards it
closed, so `GetOrCreateShard(1)` returns, without error and without opening a
store, the shard that `Close` closed. -/
theorem Close_leaves_closed_shard_registered :
    (run (sampleStore, sampleWorld) [Call.GetOrCreateShard 1 none none, Call.Close]).1.GetOrCreateShard
        (run (sampleStore, sampleWorld) [Call.GetOrCreateShard 1 none none, Call.Close]).2
        1 none none =
      ((run (sampleStore, sampleWorld) [Call.GetOrCreateShard 1 none none, Call.Close]).1,
       (run (sampleStore, sampleWorld) [Call.GetOrCreateShard 1 none none, Call.Close]).2,
       .ok ⟨0⟩) ∧
    (run (sampleStore, sampleWorld)
      [Call.GetOrCreateShard 1 none none, Call.Close]).2.shardState ⟨0⟩ = ShardState.Closed :=
  ⟨rfl, by decide⟩


/-! ## Shard directories -/

/-- A path has at least one element. -/
theorem splitPath_ne_nil (p : List Char) : splitPath p ≠ [] := by
  cases p with
  | nil => simp [splitPath]
  | cons c cs =>
    by_cases hc : c = '/'
    · simp [splitPath, hc]
    · cases hs : splitPath cs <;> simp [splitPath, hc, hs]

/-- The elements of two paths joined by a separator. -/
theorem splitPath_append (a b : List Char) :
    splitPath (a ++ '/' :: b) = splitPath a ++ splitPath b := by
  induction a with
  | nil => simp [splitPath]
  | cons c a ih =>
    by_cases hc : c = '/'
    · simp [splitPath, hc, ih]
    · cases hs : splitPath a with
      | nil => exact absurd hs (splitPath_ne_nil a)
      | cons x xs => simp [splitPath, hc, ih, hs]

/-- A name without a separator is one element. -/
theorem splitPath_name (s : List Char) (h : '/' ∉ s) : splitPath s = [s] := by
  induction s with
  | nil => rfl
  | cons c s ih =>
    have hc : c ≠ '/' := fun e => h (by simp [e])
    have hs : '/' ∉ s := fun e => h (List.mem_cons_of_mem _ e)
    simp [splitPath, hc, ih hs]

/-- Joining one more element with the separator. -/
theorem intercalate_concat (out : List (List Char)) (s : List Char) (h : out ≠ []) :
    List.intercalate ['/'] (out ++ [s]) = List.intercalate ['/'] out ++ '/' :: s := by
  induction out with
  | nil => exact absurd rfl h
  | cons x xs ih =>
    cases xs with
    | nil => simp [List.intercalate, List.intersperse]
    | cons y ys =>
      have := ih (by simp)
      simp only [List.intercalate, List.cons_append, List.intersperse, List.flatten_cons,
        List.append_assoc, List.append_eq, List.nil_append] at this ⊢
      rw [this]

/-- A clean path other than `.` and `/`, followed by a separator and a name
other than `.` and `..`, is clean. -/
theorem filepathClean_append (d s : List Char) (hclean : filepathClean d = d)
    (hdot : d ≠ ['.']) (hroot : d ≠ ['/']) (hs : '/' ∉ s) (hs1 : s ≠ [])
    (hs2 : s ≠ ['.']) (hs3 : s ≠ ['.', '.']) :
    filepathClean (d ++ '/' :: s) = d ++ '/' :: s := by
  have hd : d ≠ [] := by
    intro h
    subst h
    simp [filepathClean] at hclean
  obtain ⟨c, t, rfl⟩ := List.exists_cons_of_ne_nil hd
  have hfold : ∀ r : Bool, (splitPath (c :: t ++ '/' :: s)).foldl (cleanStep r) [] =
      (splitPath (c :: t)).foldl (cleanStep r) [] ++ [s] := by
    intro r
    rw [splitPath_append, splitPath_name s hs, List.foldl_append]
    simp [cleanStep, hs1, hs2, hs3]
  simp only [filepathClean, List.cons_append, List.head?_cons, reduceCtorEq, if_false] at hclean ⊢
  rw [← List.cons_append, hfold]
  by_cases hc : c = '/'
  · subst hc
    simp only [decide_True, if_true] at hclean ⊢
    have hne : (splitPath ('/' :: t)).foldl (cleanStep true) [] ≠ [] := by
      intro e
      rw [e] at hclean
      exact hroot hclean.symm
    rw [intercalate_concat _ s hne, ← List.cons_append, hclean]
  · have hc2 : (some c = some '/') = False := by simpa using hc
    simp only [hc2, decide_False, Bool.false_eq_true, if_false] at hclean ⊢
    have hne : (splitPath (c :: t)).foldl (cleanStep false) [] ≠ [] := by
      intro e
      rw [e] at hclean
      exact hdot (by simpa using hclean.symm)
    simp only [hne, if_false] at hclean
    rw [intercalate_concat _ s hne, hclean]
    simp

/-- The decimal digits are neither the separator nor a dot. -/
theorem digitChar_plain (n : Nat) (h : n < 10) :
    Nat.digitChar n ≠ '/' ∧ Nat.digitChar n ≠ '.' := by
  interval_cases n <;> decide

/-- No character of a decimal numeral is the separator or a dot. -/
theorem toDigitsCore_plain (fuel : Nat) : ∀ (n : Nat) (ds : List Char),
    (∀ c ∈ ds, c ≠ '/' ∧ c ≠ '.') → ∀ c ∈ Nat.toDigitsCore 10 fuel n ds, c ≠ '/' ∧ c ≠ '.' := by
  induction fuel with
  | zero => exact fun n ds h => h
  | succ fuel ih =>
    intro n ds h
    have hds : ∀ c ∈ Nat.digitChar (n % 10) :: ds, c ≠ '/' ∧ c ≠ '.' := by
      intro c hc
      rcases List.mem_cons.mp hc with rfl | hc
      · exact digitChar_plain _ (Nat.mod_lt _ (by decide))
      · exact h c hc
    simp only [Nat.toDigitsCore]
    split
    · exact hds
    · exact ih _ _ hds

/-- The characters of `%.5d`: at least five, none of them the separator or a
dot. -/
theorem sprintf5d_plain (id : Nat) :
    5 ≤ (sprintf5d id).data.length ∧ ∀ c ∈ (sprintf5d id).data, c ≠ '/' ∧ c ≠ '.' := by
  constructor
  · simp only [sprintf5d, List.length_append, List.length_replicate]
    omega
  · intro c hc
    simp only [sprintf5d, List.mem_append, List.mem_replicate] at hc
    rcases hc with ⟨-, rfl⟩ | hc
    · decide
    · exact toDigitsCore_plain _ _ [] (fun c hc => by simp at hc) c hc

/-- `filepath.Join` of a clean directory and a name. -/
theorem filepathJoin_name (d s : String) (hclean : filepathClean d.data = d.data)
    (hdot : d ≠ ".") (hroot : d ≠ "/") (hs : '/' ∉ s.data) (hs1 : s.data ≠ [])
    (hs2 : s.data ≠ ['.']) (hs3 : s.data ≠ ['.', '.']) :
    filepathJoin [d, s] = d ++ "/" ++ s := by
  have hd : d ≠ "" := by
    intro h
    subst h
    simp [filepathClean] at hclean
  have hdot2 : d.data ≠ ['.'] := fun e => hdot (String.ext e)
  have hroot2 : d.data ≠ ['/'] := fun e => hroot (String.ext e)
  apply String.ext
  simp only [filepathJoin, hd, if_false, List.map_cons, List.map_nil, String.data_append]
  have : List.intercalate ['/'] [d.data, s.data] = d.data ++ '/' :: s.data := by
    simp [List.intercalate, List.intersperse]
  rw [this, filepathClean_append d.data s.data hclean hdot2 hroot2 hs hs1 hs2 hs3]
  simp

/-- The directory of a shard below a clean data directory. -/
theorem shardDir_eq (self : LevelDbShardDatastore) (dataDir : String) (id : Nat)
    (hbase : self.baseDbDir = filepathJoin [dataDir, SHARD_DATABASE_DIR])
    (hclean : filepathClean dataDir.data = dataDir.data)
    (hdot : dataDir ≠ ".") (hroot : dataDir ≠ "/") :
    self.shardDir id = dataDir ++ "/" ++ SHARD_DATABASE_DIR ++ "/" ++ sprintf5d id := by
  have hb : self.baseDbDir = dataDir ++ "/" ++ SHARD_DATABASE_DIR := by
    rw [hbase]
    exact filepathJoin_name dataDir SHARD_DATABASE_DIR hclean hdot hroot (by decide) (by decide)
      (by decide) (by decide)
  have hbclean : filepathClean (dataDir ++ "/" ++ SHARD_DATABASE_DIR).data =
      (dataDir ++ "/" ++ SHARD_DATABASE_DIR).data := by
    have := filepathClean_append dataDir.data SHARD_DATABASE_DIR.data hclean
      (fun e => hdot (String.ext e)) (fun e => hroot (String.ext e)) (by decide) (by decide)
      (by decide) (by decide)
    simpa [String.data_append] using this
  have hlen : 9 ≤ (dataDir ++ "/" ++ SHARD_DATABASE_DIR).data.length := by
    have h8 : SHARD_DATABASE_DIR.data.length = 8 := by decide
    have e : (dataDir ++ "/" ++ SHARD_DATABASE_DIR).data =
        dataDir.data ++ '/' :: SHARD_DATABASE_DIR.data := by
      simp [String.data_append]
    rw [e, List.length_append, List.length_cons, h8]
    omega
  obtain ⟨h5, hpl⟩ := sprintf5d_plain id
  unfold LevelDbShardDatastore.shardDir
  rw [hb]
  refine filepathJoin_name _ (sprintf5d id) hbclean ?_ ?_ (fun e => (hpl _ e).1 rfl) ?_ ?_ ?_
  · intro e
    rw [e] at hlen
    exact absurd hlen (by decide)
  · intro e
    rw [e] at hlen
    exact absurd hlen (by decide)
  · intro e
    rw [e] at h5
    exact absurd h5 (by decide)
  · intro e
    rw [e] at h5
    exact absurd h5 (by decide)
  · intro e
    rw [e] at h5
    exact absurd h5 (by decide)


/-- No call changes the base directory of the datastore. -/
theorem exec_baseDbDir (s : LevelDbShardDatastore × World) (c : Call) :
    (exec s c).1.baseDbDir = s.1.baseDbDir := by
  cases c with
  | GetOrCreateShard id openErr newErr =>
    simp only [exec, LevelDbShardDatastore.GetOrCreateShard]
    cases s.1.lookup id with
    | some d => rfl
    | none =>
      cases openErr with
      | some e => rfl
      | none => cases newErr <;> rfl
  | DeleteShard id removal => rfl
  | Close => rfl

/-- The base directory of the datastore is the one it was made with. -/
theorem run_baseDbDir (calls : List Call) (s : LevelDbShardDatastore × World) :
    (run s calls).1.baseDbDir = s.1.baseDbDir := by
  induction calls generalizing s with
  | nil => rfl
  | cons c cs ih => exact (ih (exec s c)).trans (exec_baseDbDir s c)

/-- A directory is at or below itself. -/
theorem under_self (dir : String) : under dir dir = true := by
  simp [under]

/-- C10: take a datastore made by `NewLevelDbShardDatastore`, in any state
that calls have brought it to.  The directory of shard `id` is the join of the
data directory, `shard_db` and the id formatted with `%.5d`; for a clean data
directory other than `.` and `/` that is the string
`<data_dir>/shard_db/<id formatted with %.5d>`.  When `DeleteShard(id)` returns
no error, the paths that exist afterwards are those that existed before and
are not at or below that directory, so the directory itself is gone; the calls
made are the close of the registered shard, if there is one, and then
`os.RemoveAll` of that directory, and the registered shard is closed
afterwards. -/
theorem DeleteShard_removes_shardDir (w w0 : World) (config : Configuration)
    (self0 : LevelDbShardDatastore)
    (hnew : NewLevelDbShardDatastore w config none = (w0, .ok self0))
    (calls : List Call) (id : Nat) (removal : RemoveOutcome)
    (h : ((run (self0, w0) calls).1.DeleteShard (run (self0, w0) calls).2 id removal).2.2 = none) :
    (run (self0, w0) calls).1.shardDir id =
      filepathJoin [filepathJoin [config.DataDir, SHARD_DATABASE_DIR], sprintf5d id] ∧
    (filepathClean config.DataDir.data = config.DataDir.data →
      config.DataDir ≠ "." → config.DataDir ≠ "/" →
      (run (self0, w0) calls).1.shardDir id =
        config.DataDir ++ "/" ++ SHARD_DATABASE_DIR ++ "/" ++ sprintf5d id) ∧
    (∀ p, p ∈ ((run (self0, w0) calls).1.DeleteShard (run (self0, w0) calls).2 id
          removal).2.1.paths ↔
        p ∈ (run (self0, w0) calls).2.paths ∧
          under ((run (self0, w0) calls).1.shardDir id) p = false) ∧
    (run (self0, w0) calls).1.shardDir id ∉
      ((run (self0, w0) calls).1.DeleteShard (run (self0, w0) calls).2 id removal).2.1.paths ∧
    (match (run (self0, w0) calls).1.lookup id with
      | some db =>
        ((run (self0, w0) calls).1.DeleteShard (run (self0, w0) calls).2 id
            removal).2.1.events =
          (run (self0, w0) calls).2.events ++
            [Event.shardClose db.db,
              Event.removeAll ((run (self0, w0) calls).1.shardDir id) none] ∧
        ((run (self0, w0) calls).1.DeleteShard (run (self0, w0) calls).2 id
            removal).2.1.shardState db = ShardState.Closed
      | none =>
        ((run (self0, w0) calls).1.DeleteShard (run (self0, w0) calls).2 id
            removal).2.1.events =
          (run (self0, w0) calls).2.events ++
            [Event.removeAll ((run (self0, w0) calls).1.shardDir id) none]) := by
  have hbase : (run (self0, w0) calls).1.baseDbDir =
      filepathJoin [config.DataDir, SHARD_DATABASE_DIR] := by
    rw [run_baseDbDir]
    simp only [NewLevelDbShardDatastore, Prod.mk.injEq, Except.ok.injEq] at hnew
    rw [← hnew.2]
  generalize run (self0, w0) calls = s at h hbase ⊢
  obtain ⟨self, ws⟩ := s
  have hrem : removal = RemoveOutcome.removed := by
    cases removal with
    | removed => rfl
    | failed e left => simp [LevelDbShardDatastore.DeleteShard, World.RemoveAll] at h
  subst hrem
  have hpaths : ∀ p, p ∈ (self.DeleteShard ws id RemoveOutcome.removed).2.1.paths ↔
      p ∈ ws.paths ∧ under (self.shardDir id) p = false := by
    intro p
    cases hl : self.lookup id <;>
      simp [LevelDbShardDatastore.DeleteShard, World.RemoveAll, World.close, hl,
        LevelDbShardDatastore.shardDir]
  refine ⟨?_, fun hclean hdot hroot => shardDir_eq self config.DataDir id hbase hclean hdot hroot,
    hpaths, ?_, ?_⟩
  · show filepathJoin [self.baseDbDir, sprintf5d id] = _
    rw [hbase]
  · intro hin
    have := ((hpaths _).mp hin).2
    rw [under_self] at this
    exact Bool.noConfusion this
  · cases hl : self.lookup id with
    | none =>
      simp [LevelDbShardDatastore.DeleteShard, World.RemoveAll, hl,
        LevelDbShardDatastore.shardDir]
    | some db =>
      simp [LevelDbShardDatastore.DeleteShard, World.RemoveAll, World.close, hl,
        LevelDbShardDatastore.shardDir, World.shardState]

/-- C10 for shard 7 of a datastore for `/data`: the shard is created, then
dropped without error, and the directory `/data/shard_db/00007` is gone. -/
theorem DeleteShard_removes_shardDir_witness :
    (NewLevelDbShardDatastore World.empty ⟨"/data", 10⟩ none = (sampleWorld, .ok sampleStore) ∧
      filepathClean "/data".data = "/data".data ∧
      ((run (sampleStore, sampleWorld) [Call.GetOrCreateShard 7 none none]).1.DeleteShard
        (run (sampleStore, sampleWorld) [Call.GetOrCreateShard 7 none none]).2 7
        RemoveOutcome.removed).2.2 = none) ∧
    sampleStore.shardDir 7 = "/data/shard_db/00007" ∧
    "/data/shard_db/00007" ∈
      (run (sampleStore, sampleWorld) [Call.GetOrCreateShard 7 none none]).2.paths ∧
    "/data/shard_db/00007" ∉
      ((run (sampleStore, sampleWorld) [Call.GetOrCreateShard 7 none none]).1.DeleteShard
        (run (sampleStore, sampleWorld) [Call.GetOrCreateShard 7 none none]).2 7
        RemoveOutcome.removed).2.1.paths ∧
    ((run (sampleStore, sampleWorld) [Call.GetOrCreateShard 7 none none]).1.DeleteShard
        (run (sampleStore, sampleWorld) [Call.GetOrCreateShard 7 none none]).2 7
        RemoveOutcome.removed).2.1.events =
      [Event.levigoOpen "/data/shard_db/00007" none, Event.newLevelDbShard 0 none,
        Event.shardClose 0, Event.removeAll "/data/shard_db/00007" none] :=
  have key := DeleteShard_removes_shardDir World.empty sampleWorld ⟨"/data", 10⟩ sampleStore
    rfl [Call.GetOrCreateShard 7 none none] 7 RemoveOutcome.removed rfl
  ⟨⟨rfl, by decide, rfl⟩, key.2.1 (by decide) (by decide) (by decide), by decide, key.2.2.2.1,
    by decide⟩


/-! ## Byte order -/

/-- The result of `bytes.Compare` is -1, 0 or 1. -/
theorem bytesCompare_range (a : List Nat) : ∀ b : List Nat,
    bytesCompare a b = -1 ∨ bytesCompare a b = 0 ∨ bytesCompare a b = 1 := by
  induction a with
  | nil => intro b; cases b <;> simp [bytesCompare]
  | cons x xs ih =>
    intro b
    cases b with
    | nil => simp [bytesCompare]
    | cons y ys =>
      simp only [bytesCompare]
      split
      · simp
      · split
        · simp
        · exact ih ys

/-- `bytes.Compare` is -1 exactly when the first slice is bytewise below the
second. -/
theorem bytesCompare_lt (a : List Nat) : ∀ b : List Nat,
    bytesCompare a b = -1 ↔ BytesLt a b := by
  induction a with
  | nil =>
    intro b
    cases b with
    | nil => simp [bytesCompare, BytesLt]
    | cons y ys => simp [bytesCompare, BytesLt, List.Lex.nil]
  | cons x xs ih =>
    intro b
    cases b with
    | nil => simp [bytesCompare, BytesLt]
    | cons y ys =>
      simp only [bytesCompare]
      by_cases h1 : x < y
      · simp only [h1, if_true, true_iff]
        exact List.Lex.rel h1
      · by_cases h2 : y < x
        · simp only [h1, h2, if_false, if_true]
          constructor
          · intro h; exact absurd h (by decide)
          · intro h
            cases h with
            | cons h => exact absurd h2 (Nat.lt_irrefl _)
            | rel h => exact absurd h h1
        · have hxy : x = y := by omega
          subst hxy
          simp only [h1, if_false]
          rw [ih ys]
          constructor
          · exact List.Lex.cons
          · intro h
            cases h with
            | cons h => exact h
            | rel h => exact absurd h h1

/-- `bytes.Compare` is 0 exactly on equal slices. -/
theorem bytesCompare_eq (a : List Nat) : ∀ b : List Nat, bytesCompare a b = 0 ↔ a = b := by
  induction a with
  | nil => intro b; cases b <;> simp [bytesCompare]
  | cons x xs ih =>
    intro b
    cases b with
    | nil => simp [bytesCompare]
    | cons y ys =>
      simp only [bytesCompare]
      by_cases h1 : x < y
      · simp only [h1, if_true]
        constructor
        · intro h; exact absurd h (by decide)
        · intro h; injection h with h3 h4; omega
      · by_cases h2 : y < x
        · simp only [h1, h2, if_false, if_true]
          constructor
          · intro h; exact absurd h (by decide)
          · intro h; injection h with h3 h4; omega
        · have hxy : x = y := by omega
          subst hxy
          simp only [h1, if_false, ih ys, List.cons.injEq, true_and]

/-- Swapping the arguments of `bytes.Compare` negates the result. -/
theorem bytesCompare_swap (a : List Nat) : ∀ b : List Nat,
    bytesCompare b a = - bytesCompare a b := by
  induction a with
  | nil => intro b; cases b <;> simp [bytesCompare]
  | cons x xs ih =>
    intro b
    cases b with
    | nil => simp [bytesCompare]
    | cons y ys =>
      simp only [bytesCompare]
      by_cases h1 : x < y
      · have h2 : ¬ y < x := by omega
        simp [h1, h2]
      · by_cases h2 : y < x
        · simp [h1, h2]
        · simp only [h1, h2, if_false]
          exact ih ys

/-- `bytes.Compare` is 1 exactly when the second slice is bytewise below the
first. -/
theorem bytesCompare_gt (a b : List Nat) : bytesCompare a b = 1 ↔ BytesLt b a := by
  rw [← bytesCompare_lt, bytesCompare_swap a b]
  omega


/-- Every pair is below itself. -/
theorem PairLe_refl (p : List Nat × List Nat) : PairLe p p :=
  Or.inr ⟨rfl, Or.inr rfl⟩

/-- The ascending case of `updatePointTimeAndSequence`, by the results of the
two comparisons. -/
theorem updatePointTimeAndSequence_ascending (self : rawColumnValue)
    (currentTime currentSequence : List Nat) :
    (self.updatePointTimeAndSequence (some currentTime) currentSequence true =
        (self.time, self.sequence) ∨
      self.updatePointTimeAndSequence (some currentTime) currentSequence true =
        (currentTime, currentSequence)) ∧
    PairLe (self.updatePointTimeAndSequence (some currentTime) currentSequence true)
      (self.time, self.sequence) ∧
    PairLe (self.updatePointTimeAndSequence (some currentTime) currentSequence true)
      (currentTime, currentSequence) := by
  rcases bytesCompare_range self.time currentTime with ht | ht | ht
  · have hlt := (bytesCompare_lt _ _).mp ht
    have hval : self.updatePointTimeAndSequence (some currentTime) currentSequence true =
        (self.time, self.sequence) := by
      simp [rawColumnValue.updatePointTimeAndSequence, ht]
    rw [hval]
    exact ⟨Or.inl rfl, PairLe_refl _, Or.inl hlt⟩
  · have heq := (bytesCompare_eq _ _).mp ht
    subst heq
    rcases bytesCompare_range self.sequence currentSequence with hs | hs | hs
    · have hlt := (bytesCompare_lt _ _).mp hs
      have hval : self.updatePointTimeAndSequence (some self.time) currentSequence true =
          (self.time, self.sequence) := by
        simp [rawColumnValue.updatePointTimeAndSequence, ht, hs]
      rw [hval]
      exact ⟨Or.inl rfl, PairLe_refl _, Or.inr ⟨rfl, Or.inl hlt⟩⟩
    · have hse := (bytesCompare_eq _ _).mp hs
      subst hse
      have hval : self.updatePointTimeAndSequence (some self.time) self.sequence true =
          (self.time, self.sequence) := by
        simp [rawColumnValue.updatePointTimeAndSequence, ht, hs]
      rw [hval]
      exact ⟨Or.inl rfl, PairLe_refl _, PairLe_refl _⟩
    · have hgt := (bytesCompare_gt _ _).mp hs
      have hval : self.updatePointTimeAndSequence (some self.time) currentSequence true =
          (self.time, currentSequence) := by
        simp [rawColumnValue.updatePointTimeAndSequence, ht, hs]
      rw [hval]
      exact ⟨Or.inr rfl, Or.inr ⟨rfl, Or.inl hgt⟩, PairLe_refl _⟩
  · have hgt := (bytesCompare_gt _ _).mp ht
    have hval : self.updatePointTimeAndSequence (some currentTime) currentSequence true =
        (currentTime, currentSequence) := by
      simp [rawColumnValue.updatePointTimeAndSequence, ht]
    rw [hval]
    exact ⟨Or.inr rfl, Or.inl hgt, PairLe_refl _⟩

/-- The descending case of `updatePointTimeAndSequence`, by the results of the
two comparisons. -/
theorem updatePointTimeAndSequence_descending (self : rawColumnValue)
    (currentTime currentSequence : List Nat) :
    (self.updatePointTimeAndSequence (some currentTime) currentSequence false =
        (self.time, self.sequence) ∨
      self.updatePointTimeAndSequence (some currentTime) currentSequence false =
        (currentTime, currentSequence)) ∧
    PairLe (self.time, self.sequence)
      (self.updatePointTimeAndSequence (some currentTime) currentSequence false) ∧
    PairLe (currentTime, currentSequence)
      (self.updatePointTimeAndSequence (some currentTime) currentSequence false) := by
  rcases bytesCompare_range self.time currentTime with ht | ht | ht
  · have hlt := (bytesCompare_lt _ _).mp ht
    have hval : self.updatePointTimeAndSequence (some currentTime) currentSequence false =
        (currentTime, currentSequence) := by
      simp [rawColumnValue.updatePointTimeAndSequence, ht]
    rw [hval]
    exact ⟨Or.inr rfl, Or.inl hlt, PairLe_refl _⟩
  · have heq := (bytesCompare_eq _ _).mp ht
    subst heq
    rcases bytesCompare_range self.sequence currentSequence with hs | hs | hs
    · have hlt := (bytesCompare_lt _ _).mp hs
      have hval : self.updatePointTimeAndSequence (some self.time) currentSequence false =
          (self.time, currentSequence) := by
        simp [rawColumnValue.updatePointTimeAndSequence, ht, hs]
      rw [hval]
      exact ⟨Or.inr rfl, Or.inr ⟨rfl, Or.inl hlt⟩, PairLe_refl _⟩
    · have hse := (bytesCompare_eq _ _).mp hs
      subst hse
      have hval : self.updatePointTimeAndSequence (some self.time) self.sequence false =
          (self.time, self.sequence) := by
        simp [rawColumnValue.updatePointTimeAndSequence, ht, hs]
      rw [hval]
      exact ⟨Or.inl rfl, PairLe_refl _, PairLe_refl _⟩
    · have hgt := (bytesCompare_gt _ _).mp hs
      have hval : self.updatePointTimeAndSequence (some self.time) currentSequence false =
          (self.time, self.sequence) := by
        simp [rawColumnValue.updatePointTimeAndSequence, ht, hs]
      rw [hval]
      exact ⟨Or.inl rfl, PairLe_refl _, Or.inr ⟨rfl, Or.inl hgt⟩⟩
  · have hgt := (bytesCompare_gt _ _).mp ht
    have hval : self.updatePointTimeAndSequence (some currentTime) currentSequence false =
        (self.time, self.sequence) := by
      simp [rawColumnValue.updatePointTimeAndSequence, ht]
    rw [hval]
    exact ⟨Or.inl rfl, PairLe_refl _, Or.inl hgt⟩

/-- C12: for a non-nil current pair, `updatePointTimeAndSequence` returns one
of the two pairs (self.time, self.sequence) and (currentTime, currentSequence),
as byte values; in an ascending query the pair returned is below or equal to
both of them, so it is their minimum, and in a descending query both are below
or equal to it, so it is their maximum, in the order that compares times
bytewise first and sequences bytewise on equal times.  With a nil current time
it returns (self.time, self.sequence). -/
theorem updatePointTimeAndSequence_min_max (self : rawColumnValue)
    (currentTime currentSequence : List Nat) :
    ((self.updatePointTimeAndSequence (some currentTime) currentSequence true =
          (self.time, self.sequence) ∨
        self.updatePointTimeAndSequence (some currentTime) currentSequence true =
          (currentTime, currentSequence)) ∧
      PairLe (self.updatePointTimeAndSequence (some currentTime) currentSequence true)
        (self.time, self.sequence) ∧
      PairLe (self.updatePointTimeAndSequence (some currentTime) currentSequence true)
        (currentTime, currentSequence)) ∧
    ((self.updatePointTimeAndSequence (some currentTime) currentSequence false =
          (self.time, self.sequence) ∨
        self.updatePointTimeAndSequence (some currentTime) currentSequence false =
          (currentTime, currentSequence)) ∧
      PairLe (self.time, self.sequence)
        (self.updatePointTimeAndSequence (some currentTime) currentSequence false) ∧
      PairLe (currentTime, currentSequence)
        (self.updatePointTimeAndSequence (some currentTime) currentSequence false)) ∧
    (∀ isAscendingQuery,
      self.updatePointTimeAndSequence none currentSequence isAscendingQuery =
        (self.time, self.sequence)) :=
  ⟨updatePointTimeAndSequence_ascending self currentTime currentSequence,
    updatePointTimeAndSequence_descending self currentTime currentSequence, fun _ => rfl⟩


/-- The pair order is antisymmetric, so a minimum or maximum of two pairs is
unique. -/
theorem PairLe_antisymm (p q : List Nat × List Nat) (h1 : PairLe p q) (h2 : PairLe q p) :
    p = q := by
  have hirr : ∀ a b : List Nat, BytesLt a b → BytesLt b a → False := by
    intro a b hab hba
    have e1 := (bytesCompare_lt a b).mpr hab
    have e2 := (bytesCompare_gt a b).mpr hba
    omega
  have hne : ∀ a : List Nat, ¬ BytesLt a a := fun a h => hirr a a h h
  obtain ⟨p1, p2⟩ := p
  obtain ⟨q1, q2⟩ := q
  rcases h1 with h1 | ⟨e1, h1⟩
  · rcases h2 with h2 | ⟨e2, -⟩
    · exact absurd h2 (fun h => hirr _ _ h1 h)
    · simp only at e2; subst e2; exact absurd h1 (hne _)
  · simp only at e1
    subst e1
    rcases h2 with h2 | ⟨-, h2⟩
    · exact absurd h2 (hne _)
    · rcases h1 with h1 | h1
      · rcases h2 with h2 | h2
        · exact absurd h2 (fun h => hirr _ _ h1 h)
        · simp only at h2; subst h2; exact absurd h1 (hne _)
      · simp only at h1; subst h1; rfl

/-- The number that big-endian bytes denote, by its first byte. -/
theorem beValue_cons (x : Nat) (xs : List Nat) :
    beValue (x :: xs) = x * 256 ^ xs.length + beValue xs := by
  have h : ∀ (l : List Nat) (acc : Nat),
      l.foldl (fun n b => n * 256 + b) acc = acc * 256 ^ l.length + beValue l := by
    intro l
    induction l with
    | nil => intro acc; simp [beValue]
    | cons y ys ih =>
      intro acc
      simp only [List.foldl_cons, beValue, List.length_cons]
      rw [ih (acc * 256 + y), ih (0 * 256 + y)]
      simp only [beValue]
      ring
  simp only [beValue, List.foldl_cons]
  rw [h xs (0 * 256 + x)]
  simp [beValue]

/-- The number that `n` bytes denote is below `256 ^ n`. -/
theorem beValue_lt (xs : List Nat) (h : ∀ x ∈ xs, x < 256) : beValue xs < 256 ^ xs.length := by
  induction xs with
  | nil => simp [beValue]
  | cons x xs ih =>
    rw [beValue_cons, List.length_cons, pow_succ]
    have h1 : x < 256 := h x (List.mem_cons_self _ _)
    have h2 := ih (fun y hy => h y (List.mem_cons_of_mem _ hy))
    have h3 : x * 256 ^ xs.length ≤ 255 * 256 ^ xs.length := Nat.mul_le_mul_right _ (by omega)
    omega

/-- Bytewise comparison of byte strings of one length is comparison of the
numbers they denote as big-endian bytes. -/
theorem bytesCompare_beValue (xs : List Nat) : ∀ ys : List Nat, xs.length = ys.length →
    (∀ x ∈ xs, x < 256) → (∀ y ∈ ys, y < 256) →
    bytesCompare xs ys =
      if beValue xs < beValue ys then -1 else if beValue ys < beValue xs then 1 else 0 := by
  induction xs with
  | nil =>
    intro ys hl _ _
    cases ys with
    | nil => simp [bytesCompare, beValue]
    | cons y ys => simp at hl
  | cons x xs ih =>
    intro ys hl hx hy
    cases ys with
    | nil => simp at hl
    | cons y ys =>
      have hl2 : xs.length = ys.length := by simpa using hl
      have bx := beValue_lt xs (fun z hz => hx z (List.mem_cons_of_mem _ hz))
      have by2 := beValue_lt ys (fun z hz => hy z (List.mem_cons_of_mem _ hz))
      rw [hl2] at bx
      have ih2 := ih ys hl2 (fun z hz => hx z (List.mem_cons_of_mem _ hz))
        (fun z hz => hy z (List.mem_cons_of_mem _ hz))
      simp only [bytesCompare, beValue_cons, hl2]
      by_cases h1 : x < y
      · have h3 : (x + 1) * 256 ^ ys.length ≤ y * 256 ^ ys.length :=
          Nat.mul_le_mul_right _ h1
        have h4 : (x + 1) * 256 ^ ys.length = x * 256 ^ ys.length + 256 ^ ys.length := by ring
        have h5 : x * 256 ^ ys.length + beValue xs < y * 256 ^ ys.length + beValue ys := by omega
        simp only [h1, h5, if_true]
      · by_cases h2 : y < x
        · have h3 : (y + 1) * 256 ^ ys.length ≤ x * 256 ^ ys.length :=
            Nat.mul_le_mul_right _ h2
          have h4 : (y + 1) * 256 ^ ys.length = y * 256 ^ ys.length + 256 ^ ys.length := by ring
          have h5 : y * 256 ^ ys.length + beValue ys < x * 256 ^ ys.length + beValue xs := by
            omega
          have h6 : ¬ x * 256 ^ ys.length + beValue xs < y * 256 ^ ys.length + beValue ys := by
            omega
          simp only [h1, h2, h5, h6, if_true, if_false]
        · have hxy : x = y := by omega
          subst hxy
          simp only [h1, if_false, ih2, Nat.add_lt_add_iff_left]

/-- Decoding the eight big-endian bytes of a 64-bit number gives the number. -/
theorem beValue_putUint64 (a : Nat) (ha : a < 18446744073709551616) :
    beValue (putUint64 a) = a := by
  simp only [putUint64, beValue, List.foldl_cons, List.foldl_nil]
  omega

/-- The encoding of a 64-bit number has eight bytes. -/
theorem putUint64_bytes (a : Nat) :
    (putUint64 a).length = 8 ∧ ∀ x ∈ putUint64 a, x < 256 := by
  refine ⟨rfl, ?_⟩
  intro x hx
  simp only [putUint64, List.mem_cons, List.mem_singleton, List.not_mem_nil, or_false] at hx
  rcases hx with h | h | h | h | h | h | h | h <;> rw [h] <;> exact Nat.mod_lt _ (by decide)

/-- Bytewise comparison of big-endian encodings is comparison of the numbers
encoded. -/
theorem bytesCompare_putUint64 (a b : Nat) (ha : a < 18446744073709551616)
    (hb : b < 18446744073709551616) :
    bytesCompare (putUint64 a) (putUint64 b) = if a < b then -1 else if b < a then 1 else 0 := by
  rw [bytesCompare_beValue (putUint64 a) (putUint64 b) rfl (putUint64_bytes a).2
      (putUint64_bytes b).2,
    beValue_putUint64 a ha, beValue_putUint64 b hb]


/-- C13: two column heads with the same time `t` and with sequences that are
the big-endian encodings of the 64-bit numbers `s1 < s2`.  In an ascending
query `updatePointTimeAndSequence` returns the sequence `s1`, in a descending
query the sequence `s2`, whichever head is `self` and whichever is the current
pair. -/
theorem updatePointTimeAndSequence_tie_break (t v1 v2 : List Nat) (s1 s2 : Nat)
    (h12 : s1 < s2) (h2 : s2 < 18446744073709551616) :
    (rawColumnValue.mk t (putUint64 s1) v1).updatePointTimeAndSequence (some t) (putUint64 s2)
        true = (t, putUint64 s1) ∧
    (rawColumnValue.mk t (putUint64 s2) v2).updatePointTimeAndSequence (some t) (putUint64 s1)
        true = (t, putUint64 s1) ∧
    (rawColumnValue.mk t (putUint64 s1) v1).updatePointTimeAndSequence (some t) (putUint64 s2)
        false = (t, putUint64 s2) ∧
    (rawColumnValue.mk t (putUint64 s2) v2).updatePointTimeAndSequence (some t) (putUint64 s1)
        false = (t, putUint64 s2) := by
  have h1 : s1 < 18446744073709551616 := by omega
  have ht : bytesCompare t t = 0 := (bytesCompare_eq t t).mpr rfl
  have hlt : bytesCompare (putUint64 s1) (putUint64 s2) = -1 := by
    rw [bytesCompare_putUint64 s1 s2 h1 h2, if_pos h12]
  have hgt : bytesCompare (putUint64 s2) (putUint64 s1) = 1 := by
    rw [bytesCompare_putUint64 s2 s1 h2 h1, if_neg (by omega), if_pos h12]
  refine ⟨?_, ?_, ?_, ?_⟩ <;>
    simp [rawColumnValue.updatePointTimeAndSequence, ht, hlt, hgt]

/-- C13 for the time 1000 and the sequences 1 and 2. -/
theorem updatePointTimeAndSequence_tie_break_witness :
    (rawColumnValue.mk (putUint64 1000) (putUint64 1) [7]).updatePointTimeAndSequence
        (some (putUint64 1000)) (putUint64 2) true = (putUint64 1000, putUint64 1) ∧
    (rawColumnValue.mk (putUint64 1000) (putUint64 2) [8]).updatePointTimeAndSequence
        (some (putUint64 1000)) (putUint64 1) true = (putUint64 1000, putUint64 1) ∧
    (rawColumnValue.mk (putUint64 1000) (putUint64 1) [7]).updatePointTimeAndSequence
        (some (putUint64 1000)) (putUint64 2) false = (putUint64 1000, putUint64 2) ∧
    (rawColumnValue.mk (putUint64 1000) (putUint64 2) [8]).updatePointTimeAndSequence
        (some (putUint64 1000)) (putUint64 1) false = (putUint64 1000, putUint64 2) :=
  updatePointTimeAndSequence_tie_break (putUint64 1000) [7] [8] 1 2 (by decide) (by decide)

/-- `bytes.Compare` is above -1 exactly when the second slice is bytewise below
or equal to the first. -/
theorem bytesCompare_ge (a b : List Nat) : bytesCompare a b > -1 ↔ BytesLe b a := by
  unfold BytesLe
  have he : b = a ↔ bytesCompare a b = 0 := by
    rw [bytesCompare_eq]
    exact eq_comm
  rw [← bytesCompare_gt a b, he]
  rcases bytesCompare_range a b with h | h | h <;> rw [h] <;> decide

/-- `bytes.Compare` is below 1 exactly when the first slice is bytewise below or
equal to the second. -/
theorem bytesCompare_le (a b : List Nat) : bytesCompare a b < 1 ↔ BytesLe a b := by
  unfold BytesLe
  rw [← bytesCompare_lt a b, ← bytesCompare_eq a b]
  rcases bytesCompare_range a b with h | h | h <;> rw [h] <;> decide

/-- C14: on a point key of at least sixteen bytes `isPointInRange` returns a
value, and the value is true exactly when the first eight bytes of the key are
`fieldId` and its bytes 8 to 16 are bytewise at or above `startTime` and at or
below `endTime`; replacing the bytes of the key past the sixteenth does not
change the result. -/
theorem isPointInRange_iff (fieldId startTime endTime point : List Nat)
    (h : 16 ≤ point.length) :
    (∃ b, isPointInRange fieldId startTime endTime point = some b ∧
      (b = true ↔ point.take 8 = fieldId ∧ BytesLe startTime ((point.take 16).drop 8) ∧
        BytesLe ((point.take 16).drop 8) endTime)) ∧
    (∀ rest, isPointInRange fieldId startTime endTime (point.take 16 ++ rest) =
      isPointInRange fieldId startTime endTime point) := by
  have hn : ¬ point.length < 16 := by omega
  constructor
  · simp only [isPointInRange, hn, if_false]
    refine ⟨_, rfl, ?_⟩
    simp only [Bool.and_eq_true, decide_eq_true_eq, bytesEqual, bytesCompare_ge,
      bytesCompare_le, and_assoc]
  · intro rest
    have hl : (point.take 16).length = 16 := by simp [List.length_take]; omega
    have hn2 : ¬ (point.take 16 ++ rest).length < 16 := by
      rw [List.length_append, hl]; omega
    have e16 : (point.take 16 ++ rest).take 16 = point.take 16 := by
      rw [List.take_append_of_le_length (by omega), List.take_take]; simp
    have e8 : (point.take 16 ++ rest).take 8 = point.take 8 := by
      rw [List.take_append_of_le_length (by omega), List.take_take]; simp
    simp only [isPointInRange, hn, hn2, if_false, e16, e8]

/-- C14 for a key of seventeen bytes. -/
theorem isPointInRange_iff_witness :
    (∃ b, isPointInRange [0, 0, 0, 0, 0, 0, 0, 1] (putUint64 5) (putUint64 9)
        ([0, 0, 0, 0, 0, 0, 0, 1] ++ putUint64 7 ++ [42]) = some b ∧
      (b = true ↔
        ([0, 0, 0, 0, 0, 0, 0, 1] ++ putUint64 7 ++ [42]).take 8 = [0, 0, 0, 0, 0, 0, 0, 1] ∧
        BytesLe (putUint64 5)
          ((([0, 0, 0, 0, 0, 0, 0, 1] ++ putUint64 7 ++ [42]).take 16).drop 8) ∧
        BytesLe ((([0, 0, 0, 0, 0, 0, 0, 1] ++ putUint64 7 ++ [42]).take 16).drop 8)
          (putUint64 9))) ∧
    isPointInRange [0, 0, 0, 0, 0, 0, 0, 1] (putUint64 5) (putUint64 9)
      ([0, 0, 0, 0, 0, 0, 0, 1] ++ putUint64 7 ++ [42]) = some true :=
  ⟨(isPointInRange_iff [0, 0, 0, 0, 0, 0, 0, 1] (putUint64 5) (putUint64 9)
      ([0, 0, 0, 0, 0, 0, 0, 1] ++ putUint64 7 ++ [42]) (by decide)).1, by decide⟩

/-- C15: when the time of a point key and the two bounds are the big-endian
encodings of the 64-bit numbers `t`, `s` and `e`, `isPointInRange` returns true
exactly when the field id of the key is `fieldId` and `s ≤ t ≤ e`, and false
otherwise. -/
theorem isPointInRange_chronological (fieldId keyId rest : List Nat) (t s e : Nat)
    (hk : keyId.length = 8) (ht : t < 18446744073709551616) (hs : s < 18446744073709551616)
    (he : e < 18446744073709551616) :
    isPointInRange fieldId (putUint64 s) (putUint64 e) (keyId ++ putUint64 t ++ rest) =
      some (decide (keyId = fieldId ∧ s ≤ t ∧ t ≤ e)) := by
  have hlen : ¬ (keyId ++ putUint64 t ++ rest).length < 16 := by
    simp only [List.length_append, hk, (putUint64_bytes t).1]; omega
  have e8 : (keyId ++ putUint64 t ++ rest).take 8 = keyId := by
    rw [List.append_assoc, List.take_append_of_le_length (by omega), List.take_of_length_le (by omega)]
  have e16 : ((keyId ++ putUint64 t ++ rest).take 16).drop 8 = putUint64 t := by
    have hl : (keyId ++ putUint64 t).length = 16 := by
      rw [List.length_append, hk, (putUint64_bytes t).1]
    rw [List.take_append_of_le_length (by omega), List.take_of_length_le (by omega),
      List.drop_append_of_le_length (by omega), List.drop_of_length_le (by omega),
      List.nil_append]
  simp only [isPointInRange, hlen, if_false, e8, e16, bytesEqual,
    bytesCompare_putUint64 t s ht hs, bytesCompare_putUint64 t e ht he]
  congr 1
  by_cases h1 : keyId = fieldId <;> by_cases h2 : s ≤ t <;> by_cases h3 : t ≤ e <;>
    simp [h1, h2, h3] <;> omega

/-- C15 for a key of field 1 at time 7: in range for the bounds 5 and 9, out
of range for the bounds 8 and 9. -/
theorem isPointInRange_chronological_witness :
    isPointInRange [0, 0, 0, 0, 0, 0, 0, 1] (putUint64 5) (putUint64 9)
        ([0, 0, 0, 0, 0, 0, 0, 1] ++ putUint64 7 ++ []) =
      some (decide ([0, 0, 0, 0, 0, 0, 0, 1] = [0, 0, 0, 0, 0, 0, 0, 1] ∧ 5 ≤ 7 ∧ 7 ≤ 9)) ∧
    isPointInRange [0, 0, 0, 0, 0, 0, 0, 1] (putUint64 8) (putUint64 9)
        ([0, 0, 0, 0, 0, 0, 0, 1] ++ putUint64 7 ++ []) = some false :=
  ⟨isPointInRange_chronological [0, 0, 0, 0, 0, 0, 0, 1] [0, 0, 0, 0, 0, 0, 0, 1] [] 7 5 9
      rfl (by decide) (by decide) (by decide), by decide⟩

/-- C16: the reserved keys have the bytes of the key layout.  `NEXT_ID_KEY` is
eight zero bytes, `SERIES_COLUMN_INDEX_PREFIX` is seven bytes 0xFF and 0xFE,
`DATABASE_SERIES_INDEX_PREFIX` is seven bytes 0xFF and 0xFF,
`ATOMIC_INCREMENT_PREFIX` is seven bytes 0xFF and 0xFD, and `MAX_SEQUENCE` is
eight bytes 0xFF. -/
theorem reserved_keys :
    NEXT_ID_KEY = List.replicate 8 0x00 ∧
    SERIES_COLUMN_INDEX_PREFIX = List.replicate 7 0xFF ++ [0xFE] ∧
    DATABASE_SERIES_INDEX_PREFIX = List.replicate 7 0xFF ++ [0xFF] ∧
    ATOMIC_INCREMENT_PREFIX = List.replicate 7 0xFF ++ [0xFD] ∧
    MAX_SEQUENCE = List.replicate 8 0xFF := by
  decide


/-! ## The name of a shard directory -/

/-- The decimal digit characters are digits, and denote their number. -/
theorem digitChar_digit (n : Nat) (h : n < 10) :
    (Nat.digitChar n).isDigit = true ∧ (Nat.digitChar n).toNat - 48 = n := by
  interval_cases n <;> decide

/-- Every character of a decimal numeral is a digit. -/
theorem toDigitsCore_isDigit (fuel : Nat) : ∀ (n : Nat) (ds : List Char),
    (∀ c ∈ ds, c.isDigit = true) → ∀ c ∈ Nat.toDigitsCore 10 fuel n ds, c.isDigit = true := by
  induction fuel with
  | zero => exact fun n ds h => h
  | succ fuel ih =>
    intro n ds h
    have hds : ∀ c ∈ Nat.digitChar (n % 10) :: ds, c.isDigit = true := by
      intro c hc
      rcases List.mem_cons.mp hc with rfl | hc
      · exact (digitChar_digit _ (Nat.mod_lt _ (by decide))).1
      · exact h c hc
    simp only [Nat.toDigitsCore]
    split
    · exact hds
    · exact ih _ _ hds

/-- Reading digits with a number already read. -/
theorem foldl_decimal (cs : List Char) : ∀ acc : Nat,
    cs.foldl (fun n c => 10 * n + (c.toNat - 48)) acc =
      acc * 10 ^ cs.length + cs.foldl (fun n c => 10 * n + (c.toNat - 48)) 0 := by
  induction cs with
  | nil => intro acc; simp
  | cons c cs ih =>
    intro acc
    simp only [List.foldl_cons, List.length_cons]
    rw [ih (10 * acc + (c.toNat - 48)), ih (10 * 0 + (c.toNat - 48))]
    ring

/-- The digits that `Nat.toDigitsCore` puts in front of `ds` denote `n`. -/
theorem toDigitsCore_value (fuel : Nat) : ∀ (n : Nat) (ds : List Char), n < fuel →
    (Nat.toDigitsCore 10 fuel n ds).foldl (fun n c => 10 * n + (c.toNat - 48)) 0 =
      n * 10 ^ ds.length + ds.foldl (fun n c => 10 * n + (c.toNat - 48)) 0 := by
  induction fuel with
  | zero => intro n ds h; omega
  | succ fuel ih =>
    intro n ds h
    have hd := (digitChar_digit (n % 10) (Nat.mod_lt _ (by decide))).2
    simp only [Nat.toDigitsCore]
    split
    · rename_i h0
      simp only [List.foldl_cons, hd]
      rw [foldl_decimal]
      have : n % 10 = n := by omega
      simp [this]
    · rename_i h0
      rw [ih (n / 10) _ (by omega)]
      simp only [List.foldl_cons, List.length_cons, hd]
      rw [foldl_decimal ds (10 * 0 + n % 10)]
      have h1 : n = 10 * (n / 10) + n % 10 := (Nat.div_add_mod n 10).symm
      have h2 : n / 10 * 10 ^ (ds.length + 1) + (10 * 0 + n % 10) * 10 ^ ds.length =
          (10 * (n / 10) + n % 10) * 10 ^ ds.length := by ring
      rw [← Nat.add_assoc, h2, ← h1]

/-- A string of digits of length `k` denotes a number below `10 ^ k`. -/
theorem decimal_lt (cs : List Char) (h : ∀ c ∈ cs, c.isDigit = true) :
    cs.foldl (fun n c => 10 * n + (c.toNat - 48)) 0 < 10 ^ cs.length := by
  induction cs using List.reverseRecOn with
  | nil => simp
  | append_singleton cs c ih =>
    have h1 := ih (fun d hd => h d (List.mem_append_left _ hd))
    have h2 : c.isDigit = true := h c (by simp)
    have h3 : c.toNat - 48 ≤ 9 := by
      simp only [Char.isDigit, Bool.and_eq_true, decide_eq_true_eq] at h2
      have : c.toNat = c.val.toNat := rfl
      have := h2.2
      have h57 : c.val.toNat ≤ 57 := this
      omega
    simp only [List.foldl_append, List.foldl_cons, List.foldl_nil, List.length_append,
      List.length_singleton, pow_succ]
    omega

/-- The characters of `%.5d`: the digits of the id, with zeros in front up to
five characters. -/
theorem sprintf5d_digits (id : Nat) :
    (∀ c ∈ (sprintf5d id).data, c.isDigit = true) ∧ decimalValue (sprintf5d id) = id ∧
    5 ≤ (sprintf5d id).length ∧ ((sprintf5d id).length = 5 ↔ id < 100000) := by
  have hall : ∀ c ∈ (sprintf5d id).data, c.isDigit = true := by
    intro c hc
    simp only [sprintf5d, List.mem_append, List.mem_replicate] at hc
    rcases hc with ⟨-, rfl⟩ | hc
    · decide
    · exact toDigitsCore_isDigit _ _ [] (fun c hc => by simp at hc) c hc
  have hval : decimalValue (sprintf5d id) = id := by
    have hz : ∀ k : Nat, (List.replicate k '0').foldl (fun n c => 10 * n + (c.toNat - 48)) 0 = 0 := by
      intro k
      induction k with
      | zero => rfl
      | succ k ih => simpa [List.replicate_succ] using ih
    simp only [decimalValue, sprintf5d, List.foldl_append, hz]
    have := toDigitsCore_value (id + 1) id [] (Nat.lt_succ_self _)
    simpa [Nat.toDigits] using this
  have hlen : (sprintf5d id).length =
      (5 - (Nat.toDigits 10 id).length) + (Nat.toDigits 10 id).length := by
    simp [sprintf5d, String.length]
  refine ⟨hall, hval, by omega, ?_⟩
  constructor
  · intro h5
    have hlt := decimal_lt (sprintf5d id).data hall
    have e : (sprintf5d id).data.length = 5 := h5
    rw [e] at hlt
    have : decimalValue (sprintf5d id) < 100000 := hlt
    omega
  · intro hlt
    have := Nat.toDigitsCore_length 10 (by decide) (id + 1) id 5 hlt (by decide)
    have e : (Nat.toDigits 10 id).length ≤ 5 := this
    omega


/-- A cleaned path that ends in a separator and a name other than `.` and `..`
ends in that name, after a separator or as the whole path. -/
theorem filepathClean_ends (p s : List Char) (hs : '/' ∉ s) (hs1 : s ≠ [])
    (hs2 : s ≠ ['.']) (hs3 : s ≠ ['.', '.']) :
    filepathClean (p ++ '/' :: s) = s ∨ ∃ q, filepathClean (p ++ '/' :: s) = q ++ '/' :: s := by
  have hfold : ∀ r : Bool, (splitPath (p ++ '/' :: s)).foldl (cleanStep r) [] =
      (splitPath p).foldl (cleanStep r) [] ++ [s] := by
    intro r
    rw [splitPath_append, splitPath_name s hs, List.foldl_append]
    simp [cleanStep, hs1, hs2, hs3]
  have hne : p ++ '/' :: s ≠ [] := by simp
  simp only [filepathClean, hne, if_false, hfold]
  have hcat : ∀ out : List (List Char), List.intercalate ['/'] (out ++ [s]) = s ∨
      ∃ q, List.intercalate ['/'] (out ++ [s]) = q ++ '/' :: s := by
    intro out
    by_cases ho : out = []
    · subst ho
      left
      simp [List.intercalate]
    · right
      exact ⟨_, intercalate_concat out s ho⟩
  generalize decide ((p ++ '/' :: s).head? = some '/') = r
  cases r
  · simp only [Bool.false_eq_true, if_false, List.append_eq_nil, and_false, reduceCtorEq]
    exact hcat _
  · simp only [if_true]
    right
    rcases hcat ((splitPath p).foldl (cleanStep true) []) with h | ⟨q, h⟩
    · exact ⟨[], by rw [h]; simp⟩
    · exact ⟨'/' :: q, by rw [h]; simp⟩

/-- A name other than `.` and `..` is a clean path. -/
theorem filepathClean_name (s : List Char) (hs : '/' ∉ s) (hs1 : s ≠ [])
    (hs2 : s ≠ ['.']) (hs3 : s ≠ ['.', '.']) : filepathClean s = s := by
  obtain ⟨c, t, rfl⟩ := List.exists_cons_of_ne_nil hs1
  have hc : c ≠ '/' := fun e => hs (by simp [e])
  have hc2 : (some c = some '/') = False := by simpa using hc
  simp only [filepathClean, reduceCtorEq, if_false, List.head?_cons, hc2, decide_False,
    Bool.false_eq_true, splitPath_name (c :: t) hs, List.foldl_cons, List.foldl_nil]
  simp [cleanStep, hs2, hs3, List.intercalate]

/-- The last element of a path that ends in a separator and a name. -/
theorem lastElement_ends (q s : List Char) (hs : '/' ∉ s) :
    lastElement (String.mk (q ++ '/' :: s)) = String.mk s := by
  simp [lastElement, splitPath_append, splitPath_name s hs]

/-- The last element of the directory of a shard is the id as `%.5d` formats
it, whatever the base directory. -/
theorem lastElement_shardDir (self : LevelDbShardDatastore) (id : Nat) :
    lastElement (self.shardDir id) = sprintf5d id := by
  obtain ⟨h5, hpl⟩ := sprintf5d_plain id
  have hs : '/' ∉ (sprintf5d id).data := fun e => (hpl _ e).1 rfl
  have hs1 : (sprintf5d id).data ≠ [] := by
    intro e; rw [e] at h5; exact absurd h5 (by decide)
  have hs2 : (sprintf5d id).data ≠ ['.'] := by
    intro e; rw [e] at h5; exact absurd h5 (by decide)
  have hs3 : (sprintf5d id).data ≠ ['.', '.'] := by
    intro e; rw [e] at h5; exact absurd h5 (by decide)
  have hne : sprintf5d id ≠ "" := fun e => hs1 (by rw [e])
  have hname : lastElement (sprintf5d id) = sprintf5d id := by
    simp [lastElement, splitPath_name _ hs]
  unfold LevelDbShardDatastore.shardDir
  by_cases hb : self.baseDbDir = ""
  · simp only [filepathJoin, hb, if_true, hne, if_false, List.map_cons, List.map_nil]
    have : List.intercalate ['/'] [(sprintf5d id).data] = (sprintf5d id).data := by
      simp [List.intercalate]
    rw [this, filepathClean_name _ hs hs1 hs2 hs3]
    exact hname
  · simp only [filepathJoin, hb, if_false, List.map_cons, List.map_nil]
    have : List.intercalate ['/'] [self.baseDbDir.data, (sprintf5d id).data] =
        self.baseDbDir.data ++ '/' :: (sprintf5d id).data := by
      simp [List.intercalate, List.intersperse]
    rw [this]
    rcases filepathClean_ends self.baseDbDir.data _ hs hs1 hs2 hs3 with h | ⟨q, h⟩
    · rw [h]
      exact hname
    · rw [h]
      exact lastElement_ends q _ hs

/-- C11 (amended): the last path component that `shardDir` returns is the id
as `%.5d` formats it: a string of decimal digits whose value is the id, of at
least five characters, and of exactly five characters when and only when the
id is below 100000. -/
theorem shardDir_name (self : LevelDbShardDatastore) (id : Nat) :
    lastElement (self.shardDir id) = sprintf5d id ∧
    (∀ c ∈ (lastElement (self.shardDir id)).data, c.isDigit = true) ∧
    decimalValue (lastElement (self.shardDir id)) = id ∧
    5 ≤ (lastElement (self.shardDir id)).length ∧
    ((lastElement (self.shardDir id)).length = 5 ↔ id < 100000) := by
  rw [lastElement_shardDir]
  exact ⟨rfl, sprintf5d_digits id⟩

/-- C11, counterexample: 100000 is a 32-bit shard id, and the last component
of its shard directory has six characters, not five. -/
theorem six_digit_shard_directory :
    100000 < 4294967296 ∧
    lastElement (sampleStore.shardDir 100000) = "100000" ∧
    (lastElement (sampleStore.shardDir 100000)).length = 6 := by
  decide

/-! ## Scan bounds -/

/-- Comparing concatenations whose first parts have one length: the first parts
decide unless they are equal. -/
theorem bytesCompare_append (a : List Nat) : ∀ (c b d : List Nat), a.length = c.length →
    bytesCompare (a ++ b) (c ++ d) =
      if bytesCompare a c = 0 then bytesCompare b d else bytesCompare a c := by
  induction a with
  | nil =>
    intro c b d hl
    cases c with
    | nil => simp [bytesCompare]
    | cons y ys => simp at hl
  | cons x xs ih =>
    intro c b d hl
    cases c with
    | nil => simp at hl
    | cons y ys =>
      have hl2 : xs.length = ys.length := by simpa using hl
      simp only [List.cons_append, bytesCompare]
      by_cases h1 : x < y
      · simp [h1]
      · by_cases h2 : y < x
        · simp [h1, h2]
        · simp only [h1, h2, if_false]
          exact ih ys b d hl2

/-- A string of zero bytes is bytewise at or below every string of its
length. -/
theorem bytesCompare_zeros (xs : List Nat) :
    bytesCompare (List.replicate xs.length 0) xs ≤ 0 := by
  induction xs with
  | nil => simp [bytesCompare]
  | cons x xs ih =>
    simp only [List.length_cons, List.replicate_succ, bytesCompare]
    by_cases h1 : 0 < x
    · simp [h1]
    · simp only [h1, if_false, Nat.not_lt_zero]
      exact ih

/-- A string of bytes is bytewise at or below the string of 0xFF bytes of its
length. -/
theorem bytesCompare_ones (xs : List Nat) (h : ∀ x ∈ xs, x < 256) :
    bytesCompare xs (List.replicate xs.length 255) ≤ 0 := by
  induction xs with
  | nil => simp [bytesCompare]
  | cons x xs ih =>
    have hx : x < 256 := h x (List.mem_cons_self _ _)
    simp only [List.length_cons, List.replicate_succ, bytesCompare]
    by_cases h1 : x < 255
    · simp [h1]
    · have h2 : ¬ 255 < x := by omega
      simp only [h1, h2, if_false]
      exact ih (fun y hy => h y (List.mem_cons_of_mem _ hy))

/-- C21: for a key of 24 bytes and a field id and two times of 8 bytes each,
`isPointInRange` returns a value, and it returns true exactly when the key lies
bytewise at or above the field id followed by the start time and eight zero
bytes, and at or below the field id followed by the end time and
`MAX_SEQUENCE`. -/
theorem isPointInRange_scan_bounds (fieldId startTime endTime k : List Nat)
    (hk : k.length = 24) (hf : fieldId.length = 8) (hs : startTime.length = 8)
    (he : endTime.length = 8) (hb : ∀ b ∈ k, b < 256) :
    (∃ b, isPointInRange fieldId startTime endTime k = some b) ∧
    (isPointInRange fieldId startTime endTime k = some true ↔
      BytesLe (fieldId ++ startTime ++ List.replicate 8 0) k ∧
      BytesLe k (fieldId ++ endTime ++ MAX_SEQUENCE)) := by
  have hn : ¬ k.length < 16 := by omega
  have hsplit : k = k.take 8 ++ ((k.take 16).drop 8 ++ k.drop 16) := by
    have e1 : (k.take 16).drop 8 = (k.drop 8).take 8 := by
      rw [List.drop_take]
    rw [e1]
    have e2 : k.drop 16 = (k.drop 8).drop 8 := by rw [List.drop_drop]
    rw [e2, List.take_append_drop, List.take_append_drop]
  have l1 : (k.take 8).length = 8 := by rw [List.length_take]; omega
  have l2 : ((k.take 16).drop 8).length = 8 := by
    rw [List.length_drop, List.length_take]; omega
  have l3 : (k.drop 16).length = 8 := by rw [List.length_drop]; omega
  have hseq : ∀ b ∈ k.drop 16, b < 256 := fun b hb2 => hb b (List.mem_of_mem_drop hb2)
  have hz := bytesCompare_zeros (k.drop 16)
  have ho := bytesCompare_ones (k.drop 16) hseq
  rw [l3] at hz ho
  have hmax : MAX_SEQUENCE = List.replicate 8 255 := by decide
  refine ⟨⟨_, by simp only [isPointInRange, hn, if_false]; rfl⟩, ?_⟩
  rw [← bytesCompare_le, ← bytesCompare_le]
  generalize hid : k.take 8 = id at hsplit l1
  generalize ht : (k.take 16).drop 8 = t at hsplit l2
  generalize hq : k.drop 16 = q at hsplit l3 hz ho
  have e1 : bytesCompare (fieldId ++ startTime ++ List.replicate 8 0) k =
      if bytesCompare fieldId id = 0 then
        (if bytesCompare startTime t = 0 then bytesCompare (List.replicate 8 0) q
          else bytesCompare startTime t)
      else bytesCompare fieldId id := by
    rw [hsplit, List.append_assoc, bytesCompare_append fieldId id _ _ (by omega),
      bytesCompare_append startTime t _ _ (by omega)]
  have e2 : bytesCompare k (fieldId ++ endTime ++ MAX_SEQUENCE) =
      if bytesCompare id fieldId = 0 then
        (if bytesCompare t endTime = 0 then bytesCompare q (List.replicate 8 255)
          else bytesCompare t endTime)
      else bytesCompare id fieldId := by
    rw [hmax, List.append_assoc]
    nth_rewrite 1 [hsplit]
    rw [bytesCompare_append id fieldId _ _ (by omega),
      bytesCompare_append t endTime _ _ (by omega)]
  have sw1 := bytesCompare_swap id fieldId
  have sw2 := bytesCompare_swap t startTime
  have r1 := bytesCompare_range id fieldId
  have r2 := bytesCompare_range t startTime
  have r3 := bytesCompare_range t endTime
  have heq : id = fieldId ↔ bytesCompare id fieldId = 0 := (bytesCompare_eq id fieldId).symm
  rw [e1, e2]
  simp only [isPointInRange, hn, if_false, hid, ht, bytesEqual, Option.some.injEq,
    Bool.and_eq_true, decide_eq_true_eq, heq]
  constructor
  · rintro ⟨⟨h1, h2⟩, h3⟩
    have h1b : bytesCompare fieldId id = 0 := by omega
    rw [if_pos h1b, if_pos h1]
    constructor
    · split <;> omega
    · split <;> omega
  · rintro ⟨h1, h2⟩
    have h0 : bytesCompare id fieldId = 0 := by
      by_contra hne
      have hne2 : ¬ bytesCompare fieldId id = 0 := by omega
      rw [if_neg hne2] at h1
      rw [if_neg hne] at h2
      omega
    have h0b : bytesCompare fieldId id = 0 := by omega
    rw [if_pos h0b] at h1
    rw [if_pos h0] at h2
    refine ⟨⟨h0, ?_⟩, ?_⟩
    · split at h1 <;> omega
    · split at h2 <;> omega

/-- C21 for the key of field 1 at time 7 with sequence 3, and the times 5 and
9. -/
theorem isPointInRange_scan_bounds_witness :
    isPointInRange (putUint64 1) (putUint64 5) (putUint64 9)
        (putUint64 1 ++ putUint64 7 ++ putUint64 3) = some true ∧
    BytesLe (putUint64 1 ++ putUint64 5 ++ List.replicate 8 0)
      (putUint64 1 ++ putUint64 7 ++ putUint64 3) ∧
    BytesLe (putUint64 1 ++ putUint64 7 ++ putUint64 3)
      (putUint64 1 ++ putUint64 9 ++ MAX_SEQUENCE) :=
  ⟨by decide,
    (isPointInRange_scan_bounds (putUint64 1) (putUint64 5) (putUint64 9)
      (putUint64 1 ++ putUint64 7 ++ putUint64 3) (by decide) (by decide) (by decide)
      (by decide) (by decide)).2.mp (by decide)⟩


/-! ## The merge of column heads -/

/-- The bytewise order is transitive. -/
theorem BytesLt_trans (a b c : List Nat) (h1 : BytesLt a b) (h2 : BytesLt b c) : BytesLt a c := by
  have inst : IsTrans (List Nat) (List.Lex (fun x y : Nat => x < y)) := inferInstance
  exact inst.trans a b c h1 h2

/-- The pair order is transitive. -/
theorem PairLe_trans (p q r : List Nat × List Nat) (h1 : PairLe p q) (h2 : PairLe q r) :
    PairLe p r := by
  obtain ⟨p1, p2⟩ := p
  obtain ⟨q1, q2⟩ := q
  obtain ⟨r1, r2⟩ := r
  simp only [PairLe] at h1 h2 ⊢
  rcases h1 with h1 | ⟨e1, h1⟩
  · rcases h2 with h2 | ⟨e2, -⟩
    · exact Or.inl (BytesLt_trans _ _ _ h1 h2)
    · subst e2; exact Or.inl h1
  · subst e1
    rcases h2 with h2 | ⟨e2, h2⟩
    · exact Or.inl h2
    · subst e2
      refine Or.inr ⟨rfl, ?_⟩
      rcases h1 with h1 | h1
      · rcases h2 with h2 | h2
        · exact Or.inl (BytesLt_trans _ _ _ h1 h2)
        · subst h2; exact Or.inl h1
      · subst h1; exact h2

/-- The query order is reflexive. -/
theorem PairBefore_refl (asc : Bool) (p : List Nat × List Nat) : PairBefore asc p p := by
  cases asc <;> exact PairLe_refl p

/-- The query order is transitive. -/
theorem PairBefore_trans (asc : Bool) (p q r : List Nat × List Nat) (h1 : PairBefore asc p q)
    (h2 : PairBefore asc q r) : PairBefore asc p r := by
  cases asc
  · exact PairLe_trans r q p h2 h1
  · exact PairLe_trans p q r h1 h2

/-- The query order is antisymmetric. -/
theorem PairBefore_antisymm (asc : Bool) (p q : List Nat × List Nat) (h1 : PairBefore asc p q)
    (h2 : PairBefore asc q p) : p = q := by
  cases asc
  · exact PairLe_antisymm p q h2 h1
  · exact PairLe_antisymm p q h1 h2

/-- One call of `updatePointTimeAndSequence` with a non-nil current pair, in
either direction: the pair returned is one of the two and comes at or before
both in the query order. -/
theorem updatePointTimeAndSequence_before (self : rawColumnValue)
    (currentTime currentSequence : List Nat) (asc : Bool) :
    (self.updatePointTimeAndSequence (some currentTime) currentSequence asc =
        (self.time, self.sequence) ∨
      self.updatePointTimeAndSequence (some currentTime) currentSequence asc =
        (currentTime, currentSequence)) ∧
    PairBefore asc (self.updatePointTimeAndSequence (some currentTime) currentSequence asc)
      (self.time, self.sequence) ∧
    PairBefore asc (self.updatePointTimeAndSequence (some currentTime) currentSequence asc)
      (currentTime, currentSequence) := by
  cases asc
  · exact updatePointTimeAndSequence_descending self currentTime currentSequence
  · exact updatePointTimeAndSequence_ascending self currentTime currentSequence

/-- The fold of `updatePointTimeAndSequence` from a non-nil current pair: the
result is the starting pair or the pair of a head, and comes at or before the
starting pair and every head in the query order. -/
theorem foldl_update_before (asc : Bool) (heads : List rawColumnValue) :
    ∀ cur : List Nat × List Nat,
      ∃ p : List Nat × List Nat,
        heads.foldl
            (fun cur h =>
              (some (h.updatePointTimeAndSequence cur.1 cur.2 asc).1,
                (h.updatePointTimeAndSequence cur.1 cur.2 asc).2))
            (some cur.1, cur.2) = (some p.1, p.2) ∧
        (p = cur ∨ ∃ h ∈ heads, p = (h.time, h.sequence)) ∧
        PairBefore asc p cur ∧
        ∀ h ∈ heads, PairBefore asc p (h.time, h.sequence) := by
  induction heads with
  | nil =>
    intro cur
    exact ⟨cur, rfl, Or.inl rfl, PairBefore_refl asc cur, fun h hh => by simp at hh⟩
  | cons x xs ih =>
    intro cur
    obtain ⟨hsel, hb1, hb2⟩ := updatePointTimeAndSequence_before x cur.1 cur.2 asc
    simp only [List.foldl_cons]
    generalize x.updatePointTimeAndSequence (some cur.1) cur.2 asc = r at hsel hb1 hb2
    obtain ⟨p, hp, i1, i2, i3⟩ := ih r
    refine ⟨p, hp, ?_, PairBefore_trans asc _ r _ i2 hb2, ?_⟩
    · rcases i1 with e | ⟨h, hh, e⟩
      · rcases hsel with e2 | e2
        · exact Or.inr ⟨x, List.mem_cons_self _ _, e.trans e2⟩
        · exact Or.inl (e.trans e2)
      · exact Or.inr ⟨h, List.mem_cons_of_mem _ hh, e⟩
    · intro h hh
      rcases List.mem_cons.mp hh with rfl | hh
      · exact PairBefore_trans asc _ r _ i2 hb1
      · exact i3 h hh

/-- The merge of a non-empty list of heads returns the pair of a head that
comes at or before the pair of every head. -/
theorem mergeHeads_before (asc : Bool) (heads : List rawColumnValue) (hne : heads ≠ []) :
    ∃ p : List Nat × List Nat, mergeHeads heads asc = (some p.1, p.2) ∧
      (∃ h ∈ heads, p = (h.time, h.sequence)) ∧
      ∀ h ∈ heads, PairBefore asc p (h.time, h.sequence) := by
  obtain ⟨x, xs, rfl⟩ := List.exists_cons_of_ne_nil hne
  obtain ⟨p, hp, i1, i2, i3⟩ := foldl_update_before asc xs (x.time, x.sequence)
  refine ⟨p, hp, ?_, ?_⟩
  · rcases i1 with e | ⟨h, hh, e⟩
    · exact ⟨x, List.mem_cons_self _ _, e⟩
    · exact ⟨h, List.mem_cons_of_mem _ hh, e⟩
  · intro h hh
    rcases List.mem_cons.mp hh with rfl | hh
    · exact i2
    · exact i3 h hh

/-- C22: for every non-empty list of column heads, folding
`updatePointTimeAndSequence` over the list from the nil pair returns a pair
that is the pair of a head of the list and is at or below the pair of every
head in an ascending query, at or above it in a descending query; every
reordering of the list gives the same pair. -/
theorem mergeHeads_least (heads : List rawColumnValue) (isAscendingQuery : Bool)
    (hne : heads ≠ []) :
    (∃ p : List Nat × List Nat, mergeHeads heads isAscendingQuery = (some p.1, p.2) ∧
      (∃ h ∈ heads, p = (h.time, h.sequence)) ∧
      (∀ h ∈ heads, PairBefore isAscendingQuery p (h.time, h.sequence))) ∧
    (∀ heads2 : List rawColumnValue, heads2.Perm heads →
      mergeHeads heads2 isAscendingQuery = mergeHeads heads isAscendingQuery) := by
  obtain ⟨p, hp, ⟨h1, hh1, e1⟩, hbef⟩ := mergeHeads_before isAscendingQuery heads hne
  refine ⟨⟨p, hp, ⟨h1, hh1, e1⟩, hbef⟩, ?_⟩
  intro heads2 hperm
  have hne2 : heads2 ≠ [] := by
    intro e
    subst e
    exact hne (List.Perm.nil_eq hperm).symm
  obtain ⟨q, hq, ⟨h2, hh2, e2⟩, hbef2⟩ := mergeHeads_before isAscendingQuery heads2 hne2
  have hpq : q = p := by
    apply PairBefore_antisymm isAscendingQuery
    · rw [e1]
      exact hbef2 h1 (hperm.symm.subset hh1)
    · rw [e2]
      exact hbef h2 (hperm.subset hh2)
  rw [hq, hp, hpq]

/-- C22 for three heads at the times 7, 5 and 5 with the sequences 1, 3 and 2:
the ascending merge returns (5, 2) and the descending merge (7, 1), also for
the list in any other order. -/
theorem mergeHeads_least_witness :
    mergeHeads [⟨putUint64 7, putUint64 1, [1]⟩, ⟨putUint64 5, putUint64 3, [2]⟩,
        ⟨putUint64 5, putUint64 2, [3]⟩] true = (some (putUint64 5), putUint64 2) ∧
    mergeHeads [⟨putUint64 7, putUint64 1, [1]⟩, ⟨putUint64 5, putUint64 3, [2]⟩,
        ⟨putUint64 5, putUint64 2, [3]⟩] false = (some (putUint64 7), putUint64 1) ∧
    (∀ heads2 : List rawColumnValue,
      heads2.Perm [⟨putUint64 7, putUint64 1, [1]⟩, ⟨putUint64 5, putUint64 3, [2]⟩,
        ⟨putUint64 5, putUint64 2, [3]⟩] →
      mergeHeads heads2 true =
        mergeHeads [⟨putUint64 7, putUint64 1, [1]⟩, ⟨putUint64 5, putUint64 3, [2]⟩,
          ⟨putUint64 5, putUint64 2, [3]⟩] true) :=
  ⟨by decide, by decide,
    (mergeHeads_least [⟨putUint64 7, putUint64 1, [1]⟩, ⟨putUint64 5, putUint64 3, [2]⟩,
      ⟨putUint64 5, putUint64 2, [3]⟩] true (by decide)).2⟩

/-! ## Failed and unrelated calls on the registry -/

/-- C26: `GetOrCreateShard(1)` on a fresh datastore where `levigo.Open`
succeeds and `NewLevelDbShard` fails.  The call returns the error, and the
store handle it opened is still open, is not closed and is not in the registry,
where the claim asks for every handle the call opened to be registered or
closed. -/
theorem GetOrCreateShard_leaves_handle_open :
    (sampleStore.GetOrCreateShard sampleWorld 1 none (some "corrupt")).2.2 =
      .error "corrupt" ∧
    (sampleStore.GetOrCreateShard sampleWorld 1 none (some "corrupt")).2.1.openDbs = [0] ∧
    (sampleStore.GetOrCreateShard sampleWorld 1 none (some "corrupt")).2.1.closed = [] ∧
    (sampleStore.GetOrCreateShard sampleWorld 1 none (some "corrupt")).1.shards = [] ∧
    (sampleStore.GetOrCreateShard sampleWorld 1 none (some "corrupt")).2.1.events =
      [Event.levigoOpen "/data/shard_db/00001" none, Event.newLevelDbShard 0 (some "corrupt")] :=
  ⟨rfl, by decide, by decide, by decide, by decide⟩

/-- C27: when `GetOrCreateShard(id)` returns an error, from `levigo.Open` or
from `NewLevelDbShard`, the datastore, and with it the registry, is what it was
before the call, and the registry has no entry for `id`. -/
theorem GetOrCreateShard_error_registry (self self1 : LevelDbShardDatastore) (w w1 : World)
    (id : Nat) (openErr newErr : Option Error) (e : Error)
    (h : self.GetOrCreateShard w id openErr newErr = (self1, w1, .error e)) :
    self1 = self ∧ self1.shards = self.shards ∧ self1.lookup id = none ∧
    (openErr = some e ∨ (openErr = none ∧ newErr = some e)) := by
  cases hl : self.lookup id with
  | some d =>
    rw [GetOrCreateShard_hit self w id openErr newErr d hl] at h
    simp at h
  | none =>
    cases openErr with
    | some e1 =>
      simp only [LevelDbShardDatastore.GetOrCreateShard, hl, World.levigoOpen, Prod.mk.injEq,
        Except.error.injEq] at h
      obtain ⟨h1, -, h3⟩ := h
      subst h1 h3
      exact ⟨rfl, rfl, hl, Or.inl rfl⟩
    | none =>
      cases newErr with
      | some e2 =>
        simp only [LevelDbShardDatastore.GetOrCreateShard, hl, World.levigoOpen,
          World.NewLevelDbShard, Prod.mk.injEq, Except.error.injEq] at h
        obtain ⟨h1, -, h3⟩ := h
        subst h1 h3
        exact ⟨rfl, rfl, hl, Or.inr ⟨rfl, rfl⟩⟩
      | none =>
        simp [LevelDbShardDatastore.GetOrCreateShard, hl, World.levigoOpen,
          World.NewLevelDbShard] at h

/-- C27 on a datastore that holds shard 7: `GetOrCreateShard(8)` fails at the
open, and `GetOrCreateShard(9)` at the construction of the shard. -/
theorem GetOrCreateShard_error_registry_witness :
    ((run (sampleStore, sampleWorld) [Call.GetOrCreateShard 7 none none]).1.GetOrCreateShard
        (run (sampleStore, sampleWorld) [Call.GetOrCreateShard 7 none none]).2 8
        (some "locked") none).1 =
      (run (sampleStore, sampleWorld) [Call.GetOrCreateShard 7 none none]).1 ∧
    ((run (sampleStore, sampleWorld) [Call.GetOrCreateShard 7 none none]).1.GetOrCreateShard
        (run (sampleStore, sampleWorld) [Call.GetOrCreateShard 7 none none]).2 9
        none (some "corrupt")).1.shards = [(7, ⟨0⟩)] :=
  ⟨(GetOrCreateShard_error_registry
      (run (sampleStore, sampleWorld) [Call.GetOrCreateShard 7 none none]).1 _
      (run (sampleStore, sampleWorld) [Call.GetOrCreateShard 7 none none]).2 _ 8
      (some "locked") none "locked" rfl).1,
    (GetOrCreateShard_error_registry
      (run (sampleStore, sampleWorld) [Call.GetOrCreateShard 7 none none]).1 _
      (run (sampleStore, sampleWorld) [Call.GetOrCreateShard 7 none none]).2 _ 9
      none (some "corrupt") "corrupt" rfl).2.1⟩

/-- A call of `GetOrCreateShard(i)` leaves the entry of every other id as it
was. -/
theorem GetOrCreateShard_other (self : LevelDbShardDatastore) (w : World) (i j : Nat)
    (openErr newErr : Option Error) (hij : i ≠ j) :
    (self.GetOrCreateShard w i openErr newErr).1.lookup j = self.lookup j := by
  cases hl : self.lookup i with
  | some d => rw [GetOrCreateShard_hit self w i openErr newErr d hl]
  | none =>
    cases openErr with
    | some e => simp only [LevelDbShardDatastore.GetOrCreateShard, hl, World.levigoOpen]
    | none =>
      cases newErr with
      | some e =>
        simp only [LevelDbShardDatastore.GetOrCreateShard, hl, World.levigoOpen,
          World.NewLevelDbShard]
      | none =>
        simp only [LevelDbShardDatastore.GetOrCreateShard, hl, World.levigoOpen,
          World.NewLevelDbShard]
        exact lookup_insert_other self i j (fun e => hij e.symm) _

/-- C28: for shard ids `i` and `j` with `i` different from `j`,
`GetOrCreateShard(i)` and `DeleteShard(i)`, whatever their outcome, leave the
registry entry of `j` as it was: the same shard, or none. -/
theorem registry_entry_of_other_id (self : LevelDbShardDatastore) (w : World) (i j : Nat)
    (openErr newErr : Option Error) (removal : RemoveOutcome) (hij : i ≠ j) :
    (self.GetOrCreateShard w i openErr newErr).1.lookup j = self.lookup j ∧
    (self.DeleteShard w i removal).1.lookup j = self.lookup j :=
  ⟨GetOrCreateShard_other self w i j openErr newErr hij,
    lookup_filter_other i j (fun e => hij e.symm) self.shards⟩

/-- C28 on a datastore that holds shard 7: creating shard 8 and dropping shard
8 leave the entry of 7, and dropping shard 7 leaves 8 without an entry. -/
theorem registry_entry_of_other_id_witness :
    ((run (sampleStore, sampleWorld) [Call.GetOrCreateShard 7 none none]).1.GetOrCreateShard
        (run (sampleStore, sampleWorld) [Call.GetOrCreateShard 7 none none]).2 8
        none none).1.lookup 7 = some ⟨0⟩ ∧
    ((run (sampleStore, sampleWorld) [Call.GetOrCreateShard 7 none none]).1.DeleteShard
        (run (sampleStore, sampleWorld) [Call.GetOrCreateShard 7 none none]).2 8
        RemoveOutcome.removed).1.lookup 7 = some ⟨0⟩ :=
  registry_entry_of_other_id
    (run (sampleStore, sampleWorld) [Call.GetOrCreateShard 7 none none]).1
    (run (sampleStore, sampleWorld) [Call.GetOrCreateShard 7 none none]).2 8 7 none none
    RemoveOutcome.removed (by decide)

/-- C29: for a fixed datastore, two shard ids have the same directory exactly
when they are the same id, whatever the number of their digits. -/
theorem shardDir_injective (self : LevelDbShardDatastore) (i j : Nat) :
    self.shardDir i = self.shardDir j ↔ i = j := by
  constructor
  · intro h
    have h2 : sprintf5d i = sprintf5d j := by
      rw [← lastElement_shardDir self i, ← lastElement_shardDir self j, h]
    have h3 := congrArg decimalValue h2
    rw [(sprintf5d_digits i).2.1, (sprintf5d_digits j).2.1] at h3
    exact h3
  · intro h
    rw [h]

/-- C30: on a point key of at least sixteen bytes, `isPointInRange` returns a
boolean, for a field id and times of any length; the two slice expressions are
in bounds. -/
theorem isPointInRange_total (fieldId startTime endTime point : List Nat)
    (h : 16 ≤ point.length) :
    ∃ b : Bool, isPointInRange fieldId startTime endTime point = some b := by
  have hn : ¬ point.length < 16 := by omega
  simp only [isPointInRange, hn, if_false]
  exact ⟨_, rfl⟩

/-- C30 for a key of sixteen zero bytes and an empty field id and empty
times. -/
theorem isPointInRange_total_witness :
    16 ≤ (List.replicate 16 0).length ∧
    ∃ b : Bool, isPointInRange [] [] [] (List.replicate 16 0) = some b :=
  ⟨by decide, isPointInRange_total [] [] [] (List.replicate 16 0) (by decide)⟩

end datastore
